import Mathlib

/-!
Verification of the sigma-engine-golang compile-and-evaluate pipeline.

This file shallowly embeds the Go source of the repository: the DAG data
model (internal/dag/types.go), the evaluator (internal/dag/evaluator.go),
the optimizer (internal/dag/optimizer.go), the builder
(internal/dag/builder.go), the IR primitive registry (internal/ir), the
DAG code generator (internal/compiler/dag_codegen.go) and the two
condition parsers (internal/compiler).  Go maps are modelled as
association lists (iteration order is the list order), Go slices as
lists, machine integers as Nat with explicit wrapping where overflow
matters, and fallible functions return Except.  Theorems then settle the
specification claims against these definitions.
-/

set_option maxHeartbeats 1000000

namespace SigmaGo

/-- Association-list model of a Go map: lookup returns the value of the
first matching key. -/
def mapLookup {α β : Type} [DecidableEq α] : List (α × β) → α → Option β
  | [], _ => none
  | (k, v) :: rest, key => if k = key then some v else mapLookup rest key

/-- Association-list model of a Go map write `m[k] = v`: overwrite the
existing entry for the key, otherwise append a new entry. -/
def mapSet {α β : Type} [DecidableEq α] : List (α × β) → α → β → List (α × β)
  | [], key, val => [(key, val)]
  | (k, v) :: rest, key, val =>
    if k = key then (k, val) :: rest else (k, v) :: mapSet rest key val

/-- Membership of a key in the association-list model of a Go map. -/
def mapHasKey {α β : Type} [DecidableEq α] (m : List (α × β)) (key : α) : Bool :=
  (mapLookup m key).isSome

/-- Go `LogicalOp` (internal/dag/types.go): AND, OR, NOT. -/
inductive LogicalOp where
  | logicalAnd
  | logicalOr
  | logicalNot
deriving DecidableEq, Repr

/-- Go `NodeType` struct (internal/dag/types.go): a tag string plus
optional payloads, exactly as in the source. -/
structure NodeType where
  typ : String
  primitiveId : Option Nat := none
  operation : Option LogicalOp := none
  ruleId : Option Nat := none
  prefilterId : Option Nat := none
  patternCount : Option Nat := none
deriving DecidableEq, Repr

/-- Go `NewPrimitiveNodeType`. -/
def NewPrimitiveNodeType (primitiveId : Nat) : NodeType :=
  { typ := "Primitive", primitiveId := some primitiveId }

/-- Go `NewLogicalNodeType`. -/
def NewLogicalNodeType (operation : LogicalOp) : NodeType :=
  { typ := "Logical", operation := some operation }

/-- Go `NewResultNodeType`. -/
def NewResultNodeType (ruleId : Nat) : NodeType :=
  { typ := "Result", ruleId := some ruleId }

/-- Go `NewPrefilterNodeType`. -/
def NewPrefilterNodeType (prefilterId : Nat) (patternCount : Nat) : NodeType :=
  { typ := "Prefilter", prefilterId := some prefilterId,
    patternCount := some patternCount }

/-- Go `DagNode` (internal/dag/types.go).  `CachedResult *bool` is
modelled as `Option Bool`: the optimizer only ever rebinds the pointer
to a freshly allocated cell, never writes through it, so the pointer
indirection carries no observable state beyond the optional value. -/
structure DagNode where
  id : Nat
  nodeType : NodeType
  dependencies : List Nat
  dependents : List Nat
  cachedResult : Option Bool
deriving DecidableEq, Repr

/-- Go `NewDagNode`. -/
def NewDagNode (id : Nat) (nodeType : NodeType) : DagNode :=
  { id := id, nodeType := nodeType, dependencies := [], dependents := [],
    cachedResult := none }

/-- Go `DagNode.AddDependency`: append unless already present. -/
def DagNode.AddDependency (node : DagNode) (dependencyId : Nat) : DagNode :=
  if dependencyId ∈ node.dependencies then node
  else { node with dependencies := node.dependencies ++ [dependencyId] }

/-- Go `DagNode.AddDependent`: append unless already present. -/
def DagNode.AddDependent (node : DagNode) (dependentId : Nat) : DagNode :=
  if dependentId ∈ node.dependents then node
  else { node with dependents := node.dependents ++ [dependentId] }

/-- Go `CompiledDag` (internal/dag/types.go).  `PrimitiveMap` and
`RuleResults` are Go maps, modelled as association lists. -/
structure CompiledDag where
  nodes : List DagNode
  executionOrder : List Nat
  primitiveMap : List (Nat × Nat)
  ruleResults : List (Nat × Nat)
  resultBufferSize : Nat
deriving DecidableEq, Repr

/-- Go `NewCompiledDag`. -/
def NewCompiledDag : CompiledDag :=
  { nodes := [], executionOrder := [], primitiveMap := [], ruleResults := [],
    resultBufferSize := 0 }

/-- Go `CompiledDag.GetNode`: positional indexing into the node slice
(returns the node stored at index `nodeId`, or nil out of range). -/
def CompiledDag.GetNode (dag : CompiledDag) (nodeId : Nat) : Option DagNode :=
  dag.nodes.get? nodeId

/-- Go `CompiledDag.AddNode`: append the node and return its ID field. -/
def CompiledDag.AddNode (dag : CompiledDag) (node : DagNode) : CompiledDag × Nat :=
  ({ dag with nodes := dag.nodes ++ [node],
              resultBufferSize := dag.nodes.length + 1 }, node.id)

/-- Go `CompiledDag.Validate`. -/
def CompiledDag.Validate (dag : CompiledDag) : Except String Unit :=
  if dag.executionOrder.length ≠ dag.nodes.length then
    Except.error "Execution order length mismatch"
  else if dag.nodes.any (fun n => n.dependencies.any (fun d => dag.nodes.length ≤ d)) then
    Except.error "Invalid dependency"
  else if dag.ruleResults.any (fun rr => dag.nodes.length ≤ rr.2) then
    Except.error "Invalid result node"
  else
    Except.ok ()

end SigmaGo

namespace SigmaGo

/-! ## Evaluator (internal/dag/evaluator.go) -/

/-- Per-event evaluator state: the sparse `nodeResults` map and the
dense `fastResults` slice of `DagEvaluator`. -/
structure EvalState where
  nodeResults : List (Nat × Bool)
  fastResults : List Bool
deriving DecidableEq, Repr

/-- Go `NewDagEvaluatorWithPrimitives` + `reset`: empty map, dense
buffer of `len(dag.Nodes)` false entries. -/
def resetState (dag : CompiledDag) : EvalState :=
  { nodeResults := [], fastResults := List.replicate dag.nodes.length false }

/-- Go `evaluatePrimitive`: the source is a stub that counts the call
and returns false unconditionally (matching is TODO in the repository). -/
def evaluatePrimitive (_primitiveId : Nat) : Bool := false

/-- Go `evaluateLogicalOperation` (sparse path): AND fails on any
missing-or-false dependency and requires at least one dependency, OR
succeeds on any present-and-true dependency, NOT requires exactly one
present dependency. -/
def evaluateLogicalOperation (st : EvalState) (operation : LogicalOp)
    (dependencies : List Nat) : Bool :=
  match operation with
  | LogicalOp.logicalAnd =>
    if dependencies.any (fun d => (mapLookup st.nodeResults d).getD false = false) then
      false
    else
      decide (0 < dependencies.length)
  | LogicalOp.logicalOr =>
    dependencies.any (fun d => (mapLookup st.nodeResults d).getD false = true)
  | LogicalOp.logicalNot =>
    match dependencies with
    | [d] =>
      match mapLookup st.nodeResults d with
      | some r => !r
      | none => false
    | _ => false

/-- Go `evaluateLogicalOperationFast` (dense path): reads of
out-of-range indices behave as absent results. -/
def evaluateLogicalOperationFast (st : EvalState) (operation : LogicalOp)
    (dependencies : List Nat) : Bool :=
  match operation with
  | LogicalOp.logicalAnd =>
    if dependencies.any
        (fun d => st.fastResults.length ≤ d ∨ st.fastResults.getD d false = false) then
      false
    else
      decide (0 < dependencies.length)
  | LogicalOp.logicalOr =>
    dependencies.any
      (fun d => d < st.fastResults.length ∧ st.fastResults.getD d false = true)
  | LogicalOp.logicalNot =>
    match dependencies with
    | [d] =>
      if d < st.fastResults.length then !(st.fastResults.getD d false) else false
    | _ => false

/-- Go `evaluateNode` (sparse path): dispatch on the node-type tag. -/
def evaluateNode (dag : CompiledDag) (st : EvalState) (nodeId : Nat) :
    Except String Bool :=
  match dag.GetNode nodeId with
  | none => Except.error "Node not found"
  | some node =>
    if node.nodeType.typ = "Primitive" then
      match node.nodeType.primitiveId with
      | some pid => Except.ok (evaluatePrimitive pid)
      | none => Except.ok false
    else if node.nodeType.typ = "Logical" then
      match node.nodeType.operation with
      | some op => Except.ok (evaluateLogicalOperation st op node.dependencies)
      | none => Except.ok false
    else if node.nodeType.typ = "Result" then
      match node.dependencies with
      | [d] => Except.ok ((mapLookup st.nodeResults d).getD false)
      | _ => Except.ok false
    else if node.nodeType.typ = "Prefilter" then
      Except.ok true
    else
      Except.ok false

/-- Go `evaluateNodeFast` (dense path). -/
def evaluateNodeFast (dag : CompiledDag) (st : EvalState) (nodeId : Nat) :
    Except String Bool :=
  match dag.GetNode nodeId with
  | none => Except.error "Node not found"
  | some node =>
    if node.nodeType.typ = "Primitive" then
      match node.nodeType.primitiveId with
      | some pid => Except.ok (evaluatePrimitive pid)
      | none => Except.ok false
    else if node.nodeType.typ = "Logical" then
      match node.nodeType.operation with
      | some op => Except.ok (evaluateLogicalOperationFast st op node.dependencies)
      | none => Except.ok false
    else if node.nodeType.typ = "Result" then
      match node.dependencies with
      | [d] =>
        if d < st.fastResults.length then Except.ok (st.fastResults.getD d false)
        else Except.ok false
      | _ => Except.ok false
    else if node.nodeType.typ = "Prefilter" then
      Except.ok true
    else
      Except.ok false

/-- The node-evaluation loop of `evaluateStandardPath`: fold the
execution order, recording each result in the sparse map. -/
def runStandardNodes (dag : CompiledDag) : List Nat → EvalState →
    Except String EvalState
  | [], st => Except.ok st
  | nodeId :: rest, st =>
    match evaluateNode dag st nodeId with
    | Except.error e => Except.error e
    | Except.ok result =>
      runStandardNodes dag rest
        { st with nodeResults := mapSet st.nodeResults nodeId result }

/-- The node-evaluation loop of `evaluateFastPath`: fold the execution
order, recording each result in the dense buffer when in range
(`List.set` is the guarded Go slice write). -/
def runFastNodes (dag : CompiledDag) : List Nat → EvalState →
    Except String EvalState
  | [], st => Except.ok st
  | nodeId :: rest, st =>
    match evaluateNodeFast dag st nodeId with
    | Except.error e => Except.error e
    | Except.ok result =>
      runFastNodes dag rest
        { st with fastResults := st.fastResults.set nodeId result }

/-- Go `evaluateStandardPath`: run all nodes, then collect the rules
whose result node holds true in the sparse map, in `RuleResults`
iteration order. -/
def evaluateStandardPath (dag : CompiledDag) : Except String (List Nat) :=
  match runStandardNodes dag dag.executionOrder (resetState dag) with
  | Except.error e => Except.error e
  | Except.ok st =>
    Except.ok ((dag.ruleResults.filter
      (fun rr => (mapLookup st.nodeResults rr.2).getD false = true)).map Prod.fst)

/-- Go `evaluateFastPath`: run all nodes, then collect the rules whose
result node holds true in the dense buffer. -/
def evaluateFastPath (dag : CompiledDag) : Except String (List Nat) :=
  match runFastNodes dag dag.executionOrder (resetState dag) with
  | Except.error e => Except.error e
  | Except.ok st =>
    Except.ok ((dag.ruleResults.filter
      (fun rr => rr.2 < st.fastResults.length ∧ st.fastResults.getD rr.2 false = true)).map Prod.fst)

end SigmaGo

namespace SigmaGo

/-! ## Optimizer (internal/dag/optimizer.go) -/

/-- Go `DagOptimizer` configuration flags. -/
structure DagOptimizer where
  enableCSE : Bool
  enableDCE : Bool
  enableConstantFolding : Bool
deriving DecidableEq, Repr

/-- Go `NewDagOptimizer`: all passes enabled. -/
def NewDagOptimizer : DagOptimizer :=
  { enableCSE := true, enableDCE := true, enableConstantFolding := true }

/-- Go `copyDag`: rebuild every node (with fresh dependency and
dependent slices holding the same values), copy the execution order,
and re-insert every entry of the two maps into fresh maps. -/
def copyDag (dag : CompiledDag) : CompiledDag :=
  { nodes := dag.nodes.map (fun node =>
      { id := node.id, nodeType := node.nodeType,
        dependencies := node.dependencies, dependents := node.dependents,
        cachedResult := node.cachedResult }),
    executionOrder := dag.executionOrder,
    primitiveMap := dag.primitiveMap.foldl (fun m kv => mapSet m kv.1 kv.2) [],
    ruleResults := dag.ruleResults.foldl (fun m kv => mapSet m kv.1 kv.2) [],
    resultBufferSize := dag.resultBufferSize }

/-- The operand-collection loop of `evaluateConstantExpression`: walk
the dependencies in order; a dependency resolving (by ID search) to a
node without a cached result aborts with nil, a dependency with no
matching node is skipped. -/
def collectConstantOperands (dag : CompiledDag) : List Nat → Option (List Bool)
  | [] => some []
  | depId :: rest =>
    match dag.nodes.find? (fun n => n.id = depId) with
    | some depNode =>
      match depNode.cachedResult with
      | some v => (collectConstantOperands dag rest).map (fun vs => v :: vs)
      | none => none
    | none => collectConstantOperands dag rest

/-- Go `evaluateConstantExpression`: fold a Logical node whose resolved
dependencies all carry cached results.  AND is the conjunction of the
operand list (true when the list is empty), OR the disjunction (false
when empty), NOT requires exactly one operand. -/
def evaluateConstantExpression (dag : CompiledDag) (node : DagNode) : Option Bool :=
  if node.nodeType.typ ≠ "Logical" then none
  else
    match node.nodeType.operation with
    | none => none
    | some op =>
      match collectConstantOperands dag node.dependencies with
      | none => none
      | some operandValues =>
        match op with
        | LogicalOp.logicalAnd => some (operandValues.all (fun v => v))
        | LogicalOp.logicalOr => some (operandValues.any (fun v => v))
        | LogicalOp.logicalNot =>
          match operandValues with
          | [v] => some (!v)
          | _ => none

/-- Helper for `foldNodeToConstant`: replace the first node whose ID
matches, reporting whether a replacement happened. -/
def replaceFirstNode (f : DagNode → DagNode) (nodeId : Nat) :
    List DagNode → List DagNode × Bool
  | [] => ([], false)
  | n :: rest =>
    if n.id = nodeId then (f n :: rest, true)
    else
      match replaceFirstNode f nodeId rest with
      | (rest2, changed) => (n :: rest2, changed)

/-- Go `foldNodeToConstant`: set the cached result of the first node
with the given ID and clear its dependencies. -/
def foldNodeToConstant (dag : CompiledDag) (nodeId : Nat) (constantValue : Bool) :
    CompiledDag × Bool :=
  match replaceFirstNode
      (fun n => { n with cachedResult := some constantValue, dependencies := [] })
      nodeId dag.nodes with
  | (nodes2, changed) => ({ dag with nodes := nodes2 }, changed)

/-- One round of `constantFolding`: collect the foldable Logical nodes
of the current DAG, then apply the folds in order, reporting whether
any fold changed a node. -/
def constantFoldingRound (dag : CompiledDag) : CompiledDag × Bool :=
  let nodesToFold := (dag.nodes.filter (fun n => n.nodeType.typ = "Logical")).filterMap
    (fun n => (evaluateConstantExpression dag n).map (fun v => (n.id, v)))
  nodesToFold.foldl
    (fun st fold =>
      match foldNodeToConstant st.1 fold.1 fold.2 with
      | (dag2, changed) => (dag2, st.2 || changed))
    (dag, false)

/-- The bounded iteration of Go `constantFolding` (at most 10 rounds,
stopping when a round changes nothing). -/
def constantFoldingIter : Nat → CompiledDag → CompiledDag
  | 0, dag => dag
  | fuel + 1, dag =>
    match constantFoldingRound dag with
    | (dag2, changed) => if changed then constantFoldingIter fuel dag2 else dag2

/-- Go `constantFolding`. -/
def constantFolding (dag : CompiledDag) : CompiledDag :=
  constantFoldingIter 10 dag

/-- Insertion of a string into a lexicographically sorted list,
modelling Go `sort.Strings` (total order, so stability is moot). -/
def insertSortedString (s : String) : List String → List String
  | [] => [s]
  | t :: rest => if s ≤ t then s :: t :: rest else t :: insertSortedString s rest

/-- Sort a list of strings ascending, as Go `sort.Strings` does. -/
def sortStrings (l : List String) : List String :=
  l.foldr insertSortedString []

/-- Go `buildExpressionSignature`.  The Go function recurses through
dependency nodes (looked up by ID); the recursion is bounded here by a
fuel parameter, which never runs out on the acyclic DAGs the generator
contracts to produce. -/
def buildExpressionSignature (dag : CompiledDag) : Nat → DagNode → String
  | 0, _ => ""
  | fuel + 1, node =>
    if node.nodeType.typ = "Primitive" then
      match node.nodeType.primitiveId with
      | some pid => "P" ++ toString pid
      | none => "P_UNKNOWN"
    else if node.nodeType.typ = "Logical" then
      match node.nodeType.operation with
      | none => "L_UNKNOWN"
      | some op =>
        let depSignatures := node.dependencies.foldl
          (fun acc depId =>
            match dag.nodes.find? (fun n => n.id = depId) with
            | some depNode => acc ++ [buildExpressionSignature dag fuel depNode]
            | none => acc)
          []
        let sorted := sortStrings depSignatures
        match op with
        | LogicalOp.logicalAnd => "AND(" ++ String.intercalate "," sorted ++ ")"
        | LogicalOp.logicalOr => "OR(" ++ String.intercalate "," sorted ++ ")"
        | LogicalOp.logicalNot => "NOT(" ++ String.intercalate "," sorted ++ ")"
    else if node.nodeType.typ = "Result" then
      match node.nodeType.ruleId with
      | some rid => "R" ++ toString rid
      | none => "R_UNKNOWN"
    else if node.nodeType.typ = "Prefilter" then
      match node.nodeType.prefilterId, node.nodeType.patternCount with
      | some fid, some pc => "F" ++ toString fid ++ ":" ++ toString pc
      | _, _ => "F_UNKNOWN"
    else
      "UNKNOWN"

/-- Dependency rewriting of Go `applyNodeMapping`: map each reference
through the rewrite map (a mapped value of 0 is indistinguishable from
a missing entry, as in the Go zero-value lookup) and drop duplicates
while appending. -/
def rewriteRefs (nodeMapping : List (Nat × Nat)) (refs : List Nat) : List Nat :=
  refs.foldl
    (fun acc depId =>
      let mappedId := (mapLookup nodeMapping depId).getD 0
      let mappedId := if mappedId = 0 then depId else mappedId
      if mappedId ∈ acc then acc else acc ++ [mappedId])
    []

/-- Go `applyNodeMapping`: delete the duplicate nodes, rewrite every
dependency and dependent reference, and redirect map entries that
pointed at duplicates. -/
def applyNodeMapping (dag : CompiledDag) (nodeMapping : List (Nat × Nat)) :
    CompiledDag :=
  let newNodes := (dag.nodes.filter (fun n => ¬ mapHasKey nodeMapping n.id)).map
    (fun n =>
      { n with dependencies := rewriteRefs nodeMapping n.dependencies,
               dependents := rewriteRefs nodeMapping n.dependents })
  { dag with
    nodes := newNodes,
    primitiveMap := dag.primitiveMap.map
      (fun kv =>
        match mapLookup nodeMapping kv.2 with
        | some mappedId => (kv.1, mappedId)
        | none => kv),
    ruleResults := dag.ruleResults.map
      (fun kv =>
        match mapLookup nodeMapping kv.2 with
        | some mappedId => (kv.1, mappedId)
        | none => kv) }

/-- One pass of Go `commonSubexpressionElimination`: record the first
node producing each signature, map later duplicates onto it. -/
def csePass (dag : CompiledDag) : CompiledDag × Bool :=
  let st := dag.nodes.foldl
    (fun (st : List (String × Nat) × List (Nat × Nat) × Bool) node =>
      if node.nodeType.typ = "Result" then st
      else
        let signature := buildExpressionSignature dag (dag.nodes.length + 1) node
        match mapLookup st.1 signature with
        | some existingNodeId =>
          if node.id ≠ existingNodeId then
            (st.1, mapSet st.2.1 node.id existingNodeId, true)
          else st
        | none => (mapSet st.1 signature node.id, st.2.1, st.2.2))
    ([], [], false)
  if st.2.1.isEmpty then (dag, st.2.2)
  else (applyNodeMapping dag st.2.1, st.2.2)

/-- The bounded iteration of `commonSubexpressionElimination` (at most
5 passes, stopping when a pass rewrites nothing). -/
def cseIter : Nat → CompiledDag → CompiledDag
  | 0, dag => dag
  | fuel + 1, dag =>
    match csePass dag with
    | (dag2, changed) => if changed then cseIter fuel dag2 else dag2

/-- Go `commonSubexpressionElimination`. -/
def commonSubexpressionElimination (dag : CompiledDag) : CompiledDag :=
  cseIter 5 dag

/-- Go `markReachable`: depth-first marking through dependency edges,
with an explicit visited set.  The recursion is fuel-bounded; a fuel of
`len(nodes) + 1` suffices because every nested call has first marked a
previously unmarked node. -/
def markReachable (dag : CompiledDag) : Nat → Nat → List Nat → List Nat
  | 0, _, reachable => reachable
  | fuel + 1, nodeId, reachable =>
    if nodeId ∈ reachable then reachable
    else
      let reachable2 := reachable ++ [nodeId]
      match dag.nodes.find? (fun n => n.id = nodeId) with
      | some node =>
        node.dependencies.foldl (fun acc depId => markReachable dag fuel depId acc)
          reachable2
      | none => reachable2

/-- Go `deadCodeElimination`: keep exactly the nodes reachable from
some rule-result node, and drop map entries pointing at deleted
nodes. -/
def deadCodeElimination (dag : CompiledDag) : CompiledDag :=
  let reachable := dag.ruleResults.foldl
    (fun acc rr => markReachable dag (dag.nodes.length + 1) rr.2 acc) []
  { dag with
    nodes := dag.nodes.filter (fun n => n.id ∈ reachable),
    primitiveMap := dag.primitiveMap.filter (fun kv => kv.2 ∈ reachable),
    ruleResults := dag.ruleResults.filter (fun kv => kv.2 ∈ reachable) }

/-- The queue loop of the optimizer's `topologicalSort` (Kahn's
algorithm over the ID-keyed in-degree map).  Fuel-bounded: each key
reaches in-degree zero at most once, so `2 * len(nodes) + 2` pops
always suffice. -/
def topoSortLoop (dag : CompiledDag) : Nat → List Nat → List (Nat × Int) →
    List Nat → List Nat
  | 0, _, _, result => result
  | _, [], _, result => result
  | fuel + 1, nodeId :: queue, inDegree, result =>
    let result2 := result ++ [nodeId]
    match dag.nodes.find? (fun n => n.id = nodeId) with
    | none => topoSortLoop dag fuel queue inDegree result2
    | some currentNode =>
      let st := currentNode.dependents.foldl
        (fun (st : List (Nat × Int) × List Nat) dependentId =>
          let deg := (mapLookup st.1 dependentId).getD 0 - 1
          let inDegree2 := mapSet st.1 dependentId deg
          if deg = 0 then (inDegree2, st.2 ++ [dependentId]) else (inDegree2, st.2))
        (inDegree, queue)
      topoSortLoop dag fuel st.2 st.1 result2

/-- Go optimizer `topologicalSort`: zero the in-degree of every node
ID, add one per dependency, seed the queue with the zero-degree keys
(map iteration modelled as insertion order), and run Kahn's algorithm;
a result not covering every node reports a cycle. -/
def optTopologicalSort (dag : CompiledDag) : Except String (List Nat) :=
  let inDegree0 := dag.nodes.foldl (fun m node => mapSet m node.id (0 : Int)) []
  let inDegree := dag.nodes.foldl
    (fun m node =>
      mapSet m node.id ((mapLookup m node.id).getD 0 + (node.dependencies.length : Int)))
    inDegree0
  let queue := (inDegree.filter (fun kv => kv.2 = 0)).map Prod.fst
  let result := topoSortLoop dag (2 * dag.nodes.length + 2) queue inDegree []
  if result.length = dag.nodes.length then Except.ok result
  else Except.error "Cycle detected in DAG"

/-- Go `estimateNodeSelectivity`, scaled by 100 to integers (the Go
source compares float64 constants 0.01 / 0.1 + id * 0.1 / 0.3 / 0.5 /
0.7 / 1.0; the scaled integers order identically for the comparisons
the sort performs, apart from float-rounding ties which Go's unstable
sort leaves unspecified anyway). -/
def estimateNodeSelectivity (dag : CompiledDag) (nodeId : Nat) : Nat :=
  match dag.nodes.find? (fun n => n.id = nodeId) with
  | none => 50
  | some node =>
    if node.nodeType.typ = "Primitive" then
      match node.nodeType.primitiveId with
      | some pid => 10 + pid * 10
      | none => 50
    else if node.nodeType.typ = "Logical" then
      match node.nodeType.operation with
      | some LogicalOp.logicalAnd => 30
      | some LogicalOp.logicalOr => 70
      | some LogicalOp.logicalNot => 50
      | none => 50
    else if node.nodeType.typ = "Result" then 100
    else if node.nodeType.typ = "Prefilter" then 1
    else 50

/-- Insertion sort of ready nodes by ascending selectivity (the Go
source uses the unstable `sort.Slice`; ties are resolved here by input
order). -/
def insertBySelectivity (dag : CompiledDag) (nodeId : Nat) : List Nat → List Nat
  | [] => [nodeId]
  | t :: rest =>
    if estimateNodeSelectivity dag nodeId < estimateNodeSelectivity dag t then
      nodeId :: t :: rest
    else t :: insertBySelectivity dag nodeId rest

/-- Whether a node can execute: every dependency of the first node with
this ID has been processed (a node that cannot be found is considered
executable, as in the Go loop). -/
def canExecuteNode (dag : CompiledDag) (processed : List Nat) (nodeId : Nat) : Bool :=
  match dag.nodes.find? (fun n => n.id = nodeId) with
  | none => true
  | some node => node.dependencies.all (fun depId => depId ∈ processed)

/-- The wave loop of Go `optimizeExecutionOrder`: gather the ready
nodes, sort them by selectivity, schedule them, repeat; an empty ready
set breaks the loop. -/
def optimizeOrderLoop (dag : CompiledDag) : Nat → List Nat → List Nat → List Nat →
    List Nat
  | 0, _, _, optimizedOrder => optimizedOrder
  | _, [], _, optimizedOrder => optimizedOrder
  | fuel + 1, remainingNodes, processed, optimizedOrder =>
    let readyNodes := remainingNodes.filter (canExecuteNode dag processed)
    if readyNodes.isEmpty then optimizedOrder
    else
      let sorted := readyNodes.foldl (fun acc n => insertBySelectivity dag n acc) []
      optimizeOrderLoop dag fuel
        (remainingNodes.filter (fun n => ¬ n ∈ readyNodes))
        (processed ++ sorted)
        (optimizedOrder ++ sorted)

/-- Go `optimizeExecutionOrder`. -/
def optimizeExecutionOrder (dag : CompiledDag) (basicOrder : List Nat) : List Nat :=
  optimizeOrderLoop dag (basicOrder.length + 1) basicOrder [] []

/-- Go `rebuildExecutionOrderOptimized`. -/
def rebuildExecutionOrderOptimized (dag : CompiledDag) : Except String CompiledDag :=
  match optTopologicalSort dag with
  | Except.error e => Except.error e
  | Except.ok basicOrder =>
    Except.ok { dag with executionOrder := optimizeExecutionOrder dag basicOrder }

/-- The pass pipeline of Go `Optimize`, applied to the working DAG
(the deep copy). -/
def optimizePasses (opt : DagOptimizer) (dag : CompiledDag) :
    Except String CompiledDag :=
  let dag := if opt.enableConstantFolding then constantFolding dag else dag
  let dag := if opt.enableCSE then commonSubexpressionElimination dag else dag
  let dag := if opt.enableDCE then deadCodeElimination dag else dag
  rebuildExecutionOrderOptimized dag

/-- Go `Optimize`: deep-copy the input DAG, then run the passes on the
copy.  Every write the passes perform targets the structure returned by
`copyDag` (pass bodies receive and return that copy; cached-result
updates allocate fresh cells), so the call's effect on the input is
captured by the copy step. -/
def Optimize (opt : DagOptimizer) (dag : CompiledDag) : Except String CompiledDag :=
  optimizePasses opt (copyDag dag)

end SigmaGo

namespace SigmaGo

/-! ## IR primitives (internal/ir, the source attached to the dag
package tests) -/

/-- Go `ir.Primitive`. -/
structure Primitive where
  field : String
  matchType : String
  values : List String
  modifiers : List String
deriving DecidableEq, Repr

/-- Go `ir.NewPrimitive` (the slice copies are value-identical). -/
def NewPrimitive (field matchType : String) (values modifiers : List String) :
    Primitive :=
  { field := field, matchType := matchType, values := values,
    modifiers := modifiers }

/-- Go `ir.CompiledRuleset` (the redundant `primitiveKeys` mirror is
kept for fidelity). -/
structure CompiledRuleset where
  primitiveMap : List (String × Nat)
  primitives : List Primitive
  primitiveKeys : List (String × String)
deriving DecidableEq, Repr

/-- Go `ir.NewCompiledRuleset`. -/
def NewCompiledRuleset : CompiledRuleset :=
  { primitiveMap := [], primitives := [], primitiveKeys := [] }

/-- Go `CompiledRuleset.primitiveToKey`: field, match type, values
joined by pipes, and modifiers joined by pipes, all joined by double
colons. -/
def primitiveToKey (p : Primitive) : String :=
  String.intercalate "::"
    [p.field, p.matchType, String.intercalate "|" p.values,
     String.intercalate "|" p.modifiers]

/-- Go `CompiledRuleset.AddPrimitive`: return the existing ID when the
canonical key is present, otherwise append the primitive under the next
dense ID. -/
def AddPrimitive (cr : CompiledRuleset) (primitive : Primitive) :
    CompiledRuleset × Nat :=
  let key := primitiveToKey primitive
  match mapLookup cr.primitiveMap key with
  | some id => (cr, id)
  | none =>
    let id := cr.primitives.length
    ({ primitiveMap := mapSet cr.primitiveMap key id,
       primitives := cr.primitives ++ [primitive],
       primitiveKeys := mapSet cr.primitiveKeys key key }, id)

end SigmaGo

namespace SigmaGo

/-! ## Builder (internal/dag/builder.go) -/

/-- Go `DagBuilder`. -/
structure DagBuilder where
  nodes : List DagNode
  nextNodeId : Nat
  primitiveNodes : List (Nat × Nat)
  ruleResultNodes : List (Nat × Nat)
  enableOptimization : Bool
  enablePrefilter : Bool
deriving DecidableEq, Repr

/-- Go `NewDagBuilder`. -/
def NewDagBuilder : DagBuilder :=
  { nodes := [], nextNodeId := 0, primitiveNodes := [], ruleResultNodes := [],
    enableOptimization := false, enablePrefilter := false }

/-- Go `DagBuilder.WithOptimization`. -/
def DagBuilder.WithOptimization (builder : DagBuilder) (enable : Bool) : DagBuilder :=
  { builder with enableOptimization := enable }

/-- Go `DagBuilder.WithPrefilter`. -/
def DagBuilder.WithPrefilter (builder : DagBuilder) (enable : Bool) : DagBuilder :=
  { builder with enablePrefilter := enable }

/-- Go `DagBuilder.createPrimitiveNode`: allocate the next ID, append a
primitive node carrying it. -/
def DagBuilder.createPrimitiveNode (builder : DagBuilder) (primitiveId : Nat) :
    DagBuilder × Nat :=
  let nodeId := builder.nextNodeId
  let b2 := { builder with
    nextNodeId := nodeId + 1,
    nodes := builder.nodes ++ [NewDagNode nodeId (NewPrimitiveNodeType primitiveId)] }
  (b2, nodeId)

/-- Go `DagBuilder.createLogicalNode`. -/
def DagBuilder.createLogicalNode (builder : DagBuilder) (operation : LogicalOp) :
    DagBuilder × Nat :=
  let nodeId := builder.nextNodeId
  let b2 := { builder with
    nextNodeId := nodeId + 1,
    nodes := builder.nodes ++ [NewDagNode nodeId (NewLogicalNodeType operation)] }
  (b2, nodeId)

/-- Go `DagBuilder.createResultNode`: also registers the node in the
rule-result map. -/
def DagBuilder.createResultNode (builder : DagBuilder) (ruleId : Nat) :
    DagBuilder × Nat :=
  let nodeId := builder.nextNodeId
  let b2 := { builder with
    nextNodeId := nodeId + 1,
    nodes := builder.nodes ++ [NewDagNode nodeId (NewResultNodeType ruleId)],
    ruleResultNodes := mapSet builder.ruleResultNodes ruleId nodeId }
  (b2, nodeId)

/-- Go `DagBuilder.createPrefilterNode`. -/
def DagBuilder.createPrefilterNode (builder : DagBuilder) (patternCount : Nat) :
    DagBuilder × Nat :=
  let nodeId := builder.nextNodeId
  let b2 := { builder with
    nextNodeId := nodeId + 1,
    nodes := builder.nodes ++ [NewDagNode nodeId (NewPrefilterNodeType 0 patternCount)] }
  (b2, nodeId)

/-- Go `DagBuilder.FromRuleset`: one primitive node per value of the
ruleset's primitive map (map iteration modelled as entry order). -/
def DagBuilder.FromRuleset (builder : DagBuilder) (ruleset : CompiledRuleset) :
    DagBuilder :=
  ruleset.primitiveMap.foldl
    (fun b kv =>
      match b.createPrimitiveNode kv.2 with
      | (b2, nodeId) => { b2 with primitiveNodes := mapSet b2.primitiveNodes kv.2 nodeId })
    builder

/-- Go `DagBuilder.FromPrimitives`: one primitive node per index. -/
def DagBuilder.FromPrimitives (builder : DagBuilder) (primitives : List Primitive) :
    DagBuilder :=
  (List.range primitives.length).foldl
    (fun b i =>
      match b.createPrimitiveNode i with
      | (b2, nodeId) => { b2 with primitiveNodes := mapSet b2.primitiveNodes i nodeId })
    builder

/-- The queue loop of the builder's slice-based `topologicalSort`
(positional node access, guarded index arithmetic). -/
def builderTopoLoop (nodes : List DagNode) : Nat → List Nat → List Int →
    List Nat → List Nat
  | 0, _, _, result => result
  | _, [], _, result => result
  | fuel + 1, nodeId :: queue, inDegree, result =>
    let result2 := result ++ [nodeId]
    match nodes.get? nodeId with
    | none => builderTopoLoop nodes fuel queue inDegree result2
    | some node =>
      let st := node.dependents.foldl
        (fun (st : List Int × List Nat) dependentId =>
          if dependentId < inDegree.length then
            let deg := st.1.getD dependentId 0 - 1
            let inDegree2 := st.1.set dependentId deg
            if deg = 0 then (inDegree2, st.2 ++ [dependentId]) else (inDegree2, st.2)
          else st)
        (inDegree, queue)
      builderTopoLoop nodes fuel st.2 st.1 result2

/-- Go builder `topologicalSort`: an `inDegree` slice of length
`len(nodes)`; each dependency whose target index is in range increments
the slot at the node's ID (the Go code would panic if a node ID were
out of range; builder-created nodes always satisfy `ID < len`, and the
model's guarded write is a no-op there instead). -/
def DagBuilder.topologicalSort (builder : DagBuilder) : Except String (List Nat) :=
  let inDegree0 : List Int := List.replicate builder.nodes.length 0
  let inDegree := builder.nodes.foldl
    (fun acc node =>
      node.dependencies.foldl
        (fun acc2 depId =>
          if depId < acc2.length then acc2.set node.id (acc2.getD node.id 0 + 1)
          else acc2)
        acc)
    inDegree0
  let queue := ((List.range inDegree.length).filter
    (fun i => inDegree.getD i 0 = 0))
  let result := builderTopoLoop builder.nodes (2 * builder.nodes.length + 2)
    queue inDegree []
  if result.length = builder.nodes.length then Except.ok result
  else Except.error "Cycle detected in DAG"

/-- Go `DagBuilder.validateDagStructure`: every dependency index must
be inside the node slice. -/
def DagBuilder.validateDagStructure (builder : DagBuilder) : Except String Unit :=
  if builder.nodes.any
      (fun node => node.dependencies.any (fun depId => builder.nodes.length ≤ depId)) then
    Except.error "Invalid dependency"
  else Except.ok ()

/-- Go `DagBuilder.Build`: topological sort, structural validation,
assembly of the `CompiledDag`, final `Validate`. -/
def DagBuilder.Build (builder : DagBuilder) : Except String CompiledDag :=
  match builder.topologicalSort with
  | Except.error e => Except.error e
  | Except.ok executionOrder =>
    match builder.validateDagStructure with
    | Except.error e => Except.error e
    | Except.ok _ =>
      let dag : CompiledDag :=
        { nodes := builder.nodes, executionOrder := executionOrder,
          primitiveMap := builder.primitiveNodes,
          ruleResults := builder.ruleResultNodes,
          resultBufferSize := builder.nextNodeId }
      match dag.Validate with
      | Except.error e => Except.error e
      | Except.ok _ => Except.ok dag

/-- Go `DagBuilder.buildTemporaryDag`: like `Build` but without the
final `Validate`, over copies of the builder state. -/
def DagBuilder.buildTemporaryDag (builder : DagBuilder) : Except String CompiledDag :=
  match builder.topologicalSort with
  | Except.error e => Except.error e
  | Except.ok executionOrder =>
    match builder.validateDagStructure with
    | Except.error e => Except.error e
    | Except.ok _ =>
      Except.ok
        { nodes := builder.nodes, executionOrder := executionOrder,
          primitiveMap := builder.primitiveNodes,
          ruleResults := builder.ruleResultNodes,
          resultBufferSize := builder.nextNodeId }

/-- Go `DagBuilder.applyDagOptimizations`: the optimizer hook is a TODO
in the source and returns the DAG unchanged. -/
def DagBuilder.applyDagOptimizations (_builder : DagBuilder) (dag : CompiledDag) :
    Except String CompiledDag :=
  Except.ok dag

/-- Go `DagBuilder.updateFromOptimizedDag`: adopt the optimized nodes
and maps, and reset `nextNodeId` to the maximum node ID plus one (note:
on an empty node list this yields 1, not 0). -/
def DagBuilder.updateFromOptimizedDag (builder : DagBuilder) (optimizedDag : CompiledDag) :
    DagBuilder :=
  let maxId := optimizedDag.nodes.foldl (fun m node => if m < node.id then node.id else m) 0
  { builder with
    nodes := optimizedDag.nodes,
    primitiveNodes := optimizedDag.primitiveMap,
    ruleResultNodes := optimizedDag.ruleResults,
    nextNodeId := maxId + 1 }

/-- Go `DagBuilder.performOptimizations`: build a temporary DAG, run
the (identity) optimization hook, and adopt the result; errors leave
the builder unchanged. -/
def DagBuilder.performOptimizations (builder : DagBuilder) : DagBuilder :=
  match builder.buildTemporaryDag with
  | Except.error _ => builder
  | Except.ok dag =>
    match builder.applyDagOptimizations dag with
    | Except.error _ => builder
    | Except.ok optimizedDag => builder.updateFromOptimizedDag optimizedDag

/-- Go `DagBuilder.Optimize` (the builder method, distinct from the
optimizer's `Optimize`). -/
def DagBuilder.Optimize (builder : DagBuilder) : DagBuilder :=
  if builder.enableOptimization then builder.performOptimizations else builder

end SigmaGo

namespace SigmaGo

/-! ## Condition lexer and AST parser used by the DAG code generator
(the `Lexer` / `Parser` pair of the compiler package) -/

/-- Go compiler `TokenType`. -/
inductive TokType where
  | unknown
  | identifier
  | keyword
  | operator
  | leftParen
  | rightParen
  | pipe
  | number
  | strLit
  | eof
deriving DecidableEq, Repr

/-- Go compiler `Token`. -/
structure Tok where
  typ : TokType
  value : String
  pos : Nat
deriving DecidableEq, Repr

/-- Go `isLetter` (ASCII ranges only). -/
def lexIsLetter (ch : Char) : Bool :=
  (decide ('a' ≤ ch) && decide (ch ≤ 'z')) || (decide ('A' ≤ ch) && decide (ch ≤ 'Z'))

/-- Go `isDigit`. -/
def lexIsDigit (ch : Char) : Bool :=
  decide ('0' ≤ ch) && decide (ch ≤ '9')

/-- Whitespace recognised by the Go lexer's `skipWhitespace`. -/
def lexIsSpace (ch : Char) : Bool :=
  ch = ' ' || ch = Char.ofNat 9 || ch = Char.ofNat 10 || ch = Char.ofNat 13

/-- Split a character list into the maximal prefix satisfying the
predicate and the remainder. -/
def lexReadWhile (p : Char → Bool) : List Char → List Char × List Char
  | [] => ([], [])
  | c :: rest =>
    if p c then
      match lexReadWhile p rest with
      | (taken, rem) => (c :: taken, rem)
    else ([], c :: rest)

/-- Go `lookupIdentifierType`: the keyword table of the lexer. -/
def lookupIdentifierType (ident : String) : TokType :=
  if ident = "and" ∨ ident = "or" ∨ ident = "not" ∨ ident = "AND" ∨
     ident = "OR" ∨ ident = "NOT" ∨ ident = "of" ∨ ident = "all" ∨
     ident = "them" then
    TokType.keyword
  else TokType.identifier

/-- The body of Go `readString` after the opening quote: consume until
a closing quote (honouring backslash escapes) or the end of input. -/
def lexReadStringBody : List Char → List Char × List Char
  | [] => ([], [])
  | c :: rest =>
    if c = Char.ofNat 34 then ([], rest)
    else if c = Char.ofNat 92 then
      match rest with
      | [] => ([c], [])
      | e :: rest2 =>
        match lexReadStringBody rest2 with
        | (body, rem) => (c :: e :: body, rem)
    else
      match lexReadStringBody rest with
      | (body, rem) => (c :: body, rem)

/-- Go `Lexer.NextToken` on the remaining characters (with the running
position of the first remaining character): skip whitespace, then read
one token; returns the token and the rest. -/
def lexNextToken (cs : List Char) (pos : Nat) : Tok × List Char × Nat :=
  match lexReadWhile lexIsSpace cs with
  | (ws, rest) =>
    let pos := pos + ws.length
    match rest with
    | [] => ({ typ := TokType.eof, value := "", pos := pos }, [], pos)
    | c :: rest2 =>
      if c = '(' then
        ({ typ := TokType.leftParen, value := "(", pos := pos }, rest2, pos + 1)
      else if c = ')' then
        ({ typ := TokType.rightParen, value := ")", pos := pos }, rest2, pos + 1)
      else if c = '|' then
        ({ typ := TokType.pipe, value := "|", pos := pos }, rest2, pos + 1)
      else if c = Char.ofNat 34 then
        match lexReadStringBody rest2 with
        | (body, rem) =>
          ({ typ := TokType.strLit, value := String.mk body, pos := pos }, rem,
           pos + cs.length - ws.length - rem.length)
      else if lexIsLetter c then
        match lexReadWhile (fun d => lexIsLetter d || lexIsDigit d || d = '_') (c :: rest2) with
        | (ident, rem) =>
          let value := String.mk ident
          ({ typ := lookupIdentifierType value, value := value, pos := pos }, rem,
           pos + ident.length)
      else if lexIsDigit c then
        match lexReadWhile lexIsDigit (c :: rest2) with
        | (digits, rem) =>
          ({ typ := TokType.number, value := String.mk digits, pos := pos }, rem,
           pos + digits.length)
      else
        ({ typ := TokType.unknown, value := String.mk [c], pos := pos }, rest2, pos + 1)

/-- Go `Lexer.TokenizeAll`: repeated `NextToken` until EOF (the EOF
token is included, as in the source). -/
def tokenizeAll : Nat → List Char → Nat → List Tok
  | 0, _, _ => []
  | fuel + 1, cs, pos =>
    match lexNextToken cs pos with
    | (tok, rest, pos2) =>
      if tok.typ = TokType.eof then [tok]
      else tok :: tokenizeAll fuel rest pos2

/-- Tokenize a whole condition string for the AST parser. -/
def lexAll (input : String) : List Tok :=
  tokenizeAll (input.length + 2) input.data 0

/-- Go compiler `ASTNode` (the sum of `IdentifierNode`, `BinaryOpNode`,
`UnaryOpNode`, `GroupingNode`, `QuantifierNode`; a quantifier count of
-1 encodes "all"). -/
inductive AstNode where
  | identifierNode (name : String)
  | binaryOpNode (left : AstNode) (operator : String) (right : AstNode)
  | unaryOpNode (operator : String) (operand : AstNode)
  | groupingNode (expression : AstNode)
  | quantifierNode (count : Int) (selections : List String)
deriving DecidableEq, Repr

/-- The parser's view of the current token (the Go lexer yields EOF
forever once exhausted). -/
def curTok (ts : List Tok) : Tok :=
  match ts with
  | [] => { typ := TokType.eof, value := "", pos := 0 }
  | t :: _ => t

/-- Advance past the current token. -/
def advTok (ts : List Tok) : List Tok :=
  match ts with
  | [] => []
  | _ :: rest => rest

/-- ASCII lower-casing, modelling Go `strings.ToLower` on the ASCII
token values the lexer produces. -/
def strToLower (s : String) : String :=
  s.map Char.toLower

/-- Go `Parser.expectToken`. -/
def expectToken (expected : TokType) (ts : List Tok) : Except String (List Tok) :=
  if (curTok ts).typ = expected then Except.ok (advTok ts)
  else Except.error "expected token type"

/-- Go `strconv.Atoi` on the decimal token values this parser sees:
all-digit strings parse to their value, anything else fails. -/
def goAtoi (s : String) : Option Int :=
  if s.length ≠ 0 ∧ s.data.all lexIsDigit then
    some (Int.ofNat (s.data.foldl (fun acc c => acc * 10 + (c.toNat - 48)) 0))
  else none

mutual

/-- Go `Parser.parseOrExpression` (with the trailing `or`-loop). -/
def parseOrExpression : Nat → List Tok → Except String (AstNode × List Tok)
  | 0, _ => Except.error "fuel exhausted"
  | fuel + 1, ts =>
    match parseAndExpression fuel ts with
    | Except.error e => Except.error e
    | Except.ok (left, ts2) => parseOrLoop fuel left ts2

/-- The `or`-loop of `parseOrExpression`. -/
def parseOrLoop : Nat → AstNode → List Tok → Except String (AstNode × List Tok)
  | 0, _, _ => Except.error "fuel exhausted"
  | fuel + 1, left, ts =>
    if (curTok ts).typ = TokType.keyword ∧ strToLower (curTok ts).value = "or" then
      let operator := (curTok ts).value
      match parseAndExpression fuel (advTok ts) with
      | Except.error e => Except.error e
      | Except.ok (right, ts2) =>
        parseOrLoop fuel (AstNode.binaryOpNode left operator right) ts2
    else Except.ok (left, ts)

/-- Go `Parser.parseAndExpression`. -/
def parseAndExpression : Nat → List Tok → Except String (AstNode × List Tok)
  | 0, _ => Except.error "fuel exhausted"
  | fuel + 1, ts =>
    match parseUnaryExpression fuel ts with
    | Except.error e => Except.error e
    | Except.ok (left, ts2) => parseAndLoop fuel left ts2

/-- The `and`-loop of `parseAndExpression`. -/
def parseAndLoop : Nat → AstNode → List Tok → Except String (AstNode × List Tok)
  | 0, _, _ => Except.error "fuel exhausted"
  | fuel + 1, left, ts =>
    if (curTok ts).typ = TokType.keyword ∧ strToLower (curTok ts).value = "and" then
      let operator := (curTok ts).value
      match parseUnaryExpression fuel (advTok ts) with
      | Except.error e => Except.error e
      | Except.ok (right, ts2) =>
        parseAndLoop fuel (AstNode.binaryOpNode left operator right) ts2
    else Except.ok (left, ts)

/-- Go `Parser.parseUnaryExpression`: `not` applies to a primary. -/
def parseUnaryExpression : Nat → List Tok → Except String (AstNode × List Tok)
  | 0, _ => Except.error "fuel exhausted"
  | fuel + 1, ts =>
    if (curTok ts).typ = TokType.keyword ∧ strToLower (curTok ts).value = "not" then
      let operator := (curTok ts).value
      match parsePrimaryExpression fuel (advTok ts) with
      | Except.error e => Except.error e
      | Except.ok (operand, ts2) =>
        Except.ok (AstNode.unaryOpNode operator operand, ts2)
    else parsePrimaryExpression fuel ts

/-- Go `Parser.parsePrimaryExpression`. -/
def parsePrimaryExpression : Nat → List Tok → Except String (AstNode × List Tok)
  | 0, _ => Except.error "fuel exhausted"
  | fuel + 1, ts =>
    if (curTok ts).typ = TokType.identifier then
      parseIdentifierOrQuantifier fuel ts
    else if (curTok ts).typ = TokType.leftParen then
      parseGrouping fuel ts
    else if (curTok ts).typ = TokType.number then
      parseQuantifier fuel ts
    else Except.error "unexpected token"

/-- Go `Parser.parseIdentifierOrQuantifier`. -/
def parseIdentifierOrQuantifier : Nat → List Tok → Except String (AstNode × List Tok)
  | 0, _ => Except.error "fuel exhausted"
  | fuel + 1, ts =>
    let name := (curTok ts).value
    let ts2 := advTok ts
    if (curTok ts2).typ = TokType.keyword ∧ strToLower (curTok ts2).value = "of" then
      if strToLower name = "all" then parseQuantifierRest fuel (-1) ts2
      else
        match goAtoi name with
        | some count => parseQuantifierRest fuel count ts2
        | none => Except.error "invalid quantifier"
    else Except.ok (AstNode.identifierNode name, ts2)

/-- Go `Parser.parseQuantifier`. -/
def parseQuantifier : Nat → List Tok → Except String (AstNode × List Tok)
  | 0, _ => Except.error "fuel exhausted"
  | fuel + 1, ts =>
    match goAtoi (curTok ts).value with
    | none => Except.error "invalid number"
    | some count =>
      let ts2 := advTok ts
      if (curTok ts2).typ = TokType.keyword ∧ strToLower (curTok ts2).value = "of" then
        parseQuantifierRest fuel count ts2
      else Except.error "expected of after number in quantifier"

/-- The selection-list loop of `parseQuantifierRest`. -/
def parseSelectionList : Nat → List String → List Tok → List String × List Tok
  | 0, acc, ts => (acc, ts)
  | fuel + 1, acc, ts =>
    if (curTok ts).typ = TokType.identifier then
      let acc2 := acc ++ [(curTok ts).value]
      let ts2 := advTok ts
      if (curTok ts2).typ = TokType.unknown ∧ (curTok ts2).value = "," then
        parseSelectionList fuel acc2 (advTok ts2)
      else parseSelectionList fuel acc2 ts2
    else (acc, ts)

/-- Go `Parser.parseQuantifierRest`. -/
def parseQuantifierRest : Nat → Int → List Tok → Except String (AstNode × List Tok)
  | 0, _, _ => Except.error "fuel exhausted"
  | fuel + 1, count, ts =>
    match expectToken TokType.keyword ts with
    | Except.error e => Except.error e
    | Except.ok ts2 =>
      if (curTok ts2).typ = TokType.keyword ∧ strToLower (curTok ts2).value = "them" then
        Except.ok (AstNode.quantifierNode count ["them"], advTok ts2)
      else if (curTok ts2).typ = TokType.leftParen then
        match parseSelectionList fuel [] (advTok ts2) with
        | (selections, ts3) =>
          match expectToken TokType.rightParen ts3 with
          | Except.error e => Except.error e
          | Except.ok ts4 => Except.ok (AstNode.quantifierNode count selections, ts4)
      else if (curTok ts2).typ = TokType.identifier then
        Except.ok (AstNode.quantifierNode count [(curTok ts2).value], advTok ts2)
      else Except.error "expected selection name"

/-- Go `Parser.parseGrouping`. -/
def parseGrouping : Nat → List Tok → Except String (AstNode × List Tok)
  | 0, _ => Except.error "fuel exhausted"
  | fuel + 1, ts =>
    match expectToken TokType.leftParen ts with
    | Except.error e => Except.error e
    | Except.ok ts2 =>
      match parseOrExpression fuel ts2 with
      | Except.error e => Except.error e
      | Except.ok (expr, ts3) =>
        match expectToken TokType.rightParen ts3 with
        | Except.error e => Except.error e
        | Except.ok ts4 => Except.ok (AstNode.groupingNode expr, ts4)

end

/-- Go `Parser.Parse` via `NewParser`: tokenize the input and parse one
expression (the source performs no trailing-token check here either). -/
def ParserParse (input : String) : Except String AstNode :=
  let ts := lexAll input
  match parseOrExpression (8 * ts.length + 8) ts with
  | Except.error e => Except.error e
  | Except.ok (ast, _) => Except.ok ast

end SigmaGo

namespace SigmaGo

/-! ## DAG code generator (internal/compiler/dag_codegen.go) -/

/-- The deserialized YAML values a detection block can hold
(`interface{}` in the Go source): strings, sequences, nested maps, or
anything else. -/
inductive DetVal where
  | str (s : String)
  | seq (items : List DetVal)
  | mapv (entries : List (String × DetVal))
  | other

/-- The slice of Go `SigmaRule` the code generator reads: the rule ID
and the detection map. -/
structure SigmaRule where
  id : String
  detection : List (String × DetVal)

/-- Go `hashString`: `h = h*31 + c` over the runes, in uint32. -/
def hashString (s : String) : Nat :=
  s.data.foldl (fun h c => (h * 31 + c.toNat) % 4294967296) 0

/-- Go `DAGCodegen` state during generation (`nodeIDMap` is carried but
never read by the source). -/
structure CodegenState where
  currentDAG : CompiledDag
  nodeIDMap : List (String × Nat)
  nextNodeID : Nat
  selectionNodes : List (String × Nat)
deriving DecidableEq, Repr

/-- Go `DAGCodegen.getNextNodeID`. -/
def getNextNodeID (g : CodegenState) : CodegenState × Nat :=
  ({ g with nextNodeID := g.nextNodeID + 1 }, g.nextNodeID)

/-- Go `processSigmaSelection`: turn one selection map into IR
primitives.  A scalar string becomes an `equals` primitive, a sequence
of strings an `in` primitive over the string items, a nested map one
primitive per operator (`contains` / `startswith` / `endswith`, any
other operator demoted to `equals`), taking only string operands. -/
def processSigmaSelection (selection : List (String × DetVal)) : List Primitive :=
  selection.foldl
    (fun primitives fv =>
      match fv.2 with
      | DetVal.str v => primitives ++ [NewPrimitive fv.1 "equals" [v] []]
      | DetVal.seq items =>
        let values := items.filterMap (fun it =>
          match it with
          | DetVal.str s => some s
          | _ => none)
        if values.isEmpty then primitives
        else primitives ++ [NewPrimitive fv.1 "in" values []]
      | DetVal.mapv ops =>
        ops.foldl
          (fun acc op =>
            match op.2 with
            | DetVal.str s =>
              if op.1 = "contains" then acc ++ [NewPrimitive fv.1 "contains" [s] []]
              else if op.1 = "startswith" then acc ++ [NewPrimitive fv.1 "startswith" [s] []]
              else if op.1 = "endswith" then acc ++ [NewPrimitive fv.1 "endswith" [s] []]
              else acc ++ [NewPrimitive fv.1 "equals" [s] []]
            | _ => acc)
          primitives
      | DetVal.other => primitives)
    []

/-- The per-selection body of `generateSelectionNodes` once the value
is known to be a map: build the primitives and emit the node(s). -/
def processSelectionValue (hash : Primitive → Nat) (g : CodegenState)
    (key : String) (selectionNodeID : Nat) (value : DetVal) : CodegenState :=
  let selection := match value with
    | DetVal.mapv entries => entries
    | _ => []
  let primitives := processSigmaSelection selection
  let g :=
    match primitives with
    | [primitive] =>
      let primNode := NewDagNode selectionNodeID (NewPrimitiveNodeType (hash primitive))
      { g with currentDAG := (g.currentDAG.AddNode primNode).1 }
    | [] => g
    | _ =>
      let st := primitives.foldl
        (fun (st : CodegenState × DagNode) primitive =>
          match getNextNodeID st.1 with
          | (g2, primNodeID) =>
            let primNode := NewDagNode primNodeID (NewPrimitiveNodeType (hash primitive))
            ({ g2 with currentDAG := (g2.currentDAG.AddNode primNode).1 },
             st.2.AddDependency primNodeID))
        (g, NewDagNode selectionNodeID (NewLogicalNodeType LogicalOp.logicalOr))
      { st.1 with currentDAG := (st.1.currentDAG.AddNode st.2).1 }
  { g with selectionNodes := mapSet g.selectionNodes key selectionNodeID }

/-- Go `generateSelectionNodes`, parameterised by the primitive hash
(`ir.Primitive.Hash` is the external xxhash library truncated to
uint32; it is abstract here).  For each selection key other than
"condition": allocate a selection node ID; skip non-map values; emit a
single primitive node for one primitive, or an OR node over fresh
primitive nodes for several; record the selection node ID. -/
def generateSelectionNodes (hash : Primitive → Nat) (g : CodegenState)
    (rule : SigmaRule) : CodegenState :=
  rule.detection.foldl
    (fun g kv =>
      if kv.1 = "condition" then g
      else
        match getNextNodeID g with
        | (g, selectionNodeID) =>
          match kv.2 with
          | DetVal.mapv _ =>
            processSelectionValue hash g kv.1 selectionNodeID kv.2
          | DetVal.str _ => g
          | DetVal.seq _ => g
          | DetVal.other => g)
    g

/-- Go `generateFromAST` (with `generateIdentifierNode`,
`generateBinaryOpNode`, `generateUnaryOpNode`, `generateQuantifierNode`
inlined as the source's dispatch): note that `GroupingNode` has no case
and falls to the unknown-type error. -/
def generateFromAST : Nat → CodegenState → AstNode →
    Except String (CodegenState × Nat)
  | 0, _, _ => Except.error "fuel exhausted"
  | _ + 1, g, AstNode.identifierNode name =>
    match mapLookup g.selectionNodes name with
    | some nodeID => Except.ok (g, nodeID)
    | none => Except.error "undefined selection"
  | fuel + 1, g, AstNode.binaryOpNode left operator right =>
    match generateFromAST fuel g left with
    | Except.error e => Except.error e
    | Except.ok (g, leftNodeID) =>
      match generateFromAST fuel g right with
      | Except.error e => Except.error e
      | Except.ok (g, rightNodeID) =>
        let nodeType :=
          if operator = "and" then some (NewLogicalNodeType LogicalOp.logicalAnd)
          else if operator = "or" then some (NewLogicalNodeType LogicalOp.logicalOr)
          else none
        match nodeType with
        | none => Except.error "unknown binary operator"
        | some nt =>
          match getNextNodeID g with
          | (g, nodeID) =>
            let dagNode := ((NewDagNode nodeID nt).AddDependency leftNodeID).AddDependency
              rightNodeID
            match g.currentDAG.AddNode dagNode with
            | (dag2, retId) =>
              Except.ok ({ g with currentDAG := dag2 }, retId)
  | fuel + 1, g, AstNode.unaryOpNode operator operand =>
    match generateFromAST fuel g operand with
    | Except.error e => Except.error e
    | Except.ok (g, operandNodeID) =>
      if operator = "not" then
        match getNextNodeID g with
        | (g, nodeID) =>
          let dagNode := (NewDagNode nodeID (NewLogicalNodeType LogicalOp.logicalNot)).AddDependency
            operandNodeID
          match g.currentDAG.AddNode dagNode with
          | (dag2, retId) =>
            Except.ok ({ g with currentDAG := dag2 }, retId)
      else Except.error "unknown unary operator"
  | _ + 1, g, AstNode.quantifierNode count selections =>
    if selections.isEmpty then
      Except.error "quantifier node requires at least one selection"
    else
      match selections.foldl
          (fun acc selName =>
            match acc with
            | Except.error e => Except.error e
            | Except.ok childNodes =>
              match mapLookup g.selectionNodes selName with
              | some nodeID => Except.ok (childNodes ++ [nodeID])
              | none => Except.error "undefined selection in quantifier")
          (Except.ok ([] : List Nat)) with
      | Except.error e => Except.error e
      | Except.ok childNodes =>
        let nodeType :=
          if count = -1 then NewLogicalNodeType LogicalOp.logicalAnd
          else if count = 1 then NewLogicalNodeType LogicalOp.logicalOr
          else NewLogicalNodeType LogicalOp.logicalAnd
        match getNextNodeID g with
        | (g, nodeID) =>
          let dagNode := childNodes.foldl
            (fun n childNodeID => n.AddDependency childNodeID)
            (NewDagNode nodeID nodeType)
          match g.currentDAG.AddNode dagNode with
          | (dag2, retId) =>
            Except.ok ({ g with currentDAG := dag2 }, retId)
  | _ + 1, _, AstNode.groupingNode _ => Except.error "unknown AST node type"

/-- Structural size of an AST, used as recursion fuel for
`generateFromAST` (the Go recursion is structural on the AST). -/
def sizeOfAst : AstNode → Nat
  | AstNode.identifierNode _ => 1
  | AstNode.binaryOpNode l _ r => sizeOfAst l + sizeOfAst r + 1
  | AstNode.unaryOpNode _ x => sizeOfAst x + 1
  | AstNode.groupingNode x => sizeOfAst x + 1
  | AstNode.quantifierNode _ _ => 1

/-- Go `DAGCodegen.processRule`: extract and parse the condition,
generate the selection nodes, lower the AST, and append the rule's
result node (its single dependency is the condition root; the
dependency's `Dependents` list is not updated by the source). -/
def processRule (hash : Primitive → Nat) (g : CodegenState) (rule : SigmaRule) :
    Except String CodegenState :=
  match mapLookup rule.detection "condition" with
  | none => Except.error "rule has no condition in detection"
  | some conditionValue =>
    match conditionValue with
    | DetVal.str condition =>
      match ParserParse condition with
      | Except.error e => Except.error e
      | Except.ok ast =>
        let g := generateSelectionNodes hash g rule
        match generateFromAST (sizeOfAst ast + 1) g ast with
        | Except.error e => Except.error e
        | Except.ok (g, conditionNodeID) =>
          let ruleID := hashString rule.id
          match getNextNodeID g with
          | (g, resultNodeIDraw) =>
            let resultNode := (NewDagNode resultNodeIDraw
              (NewResultNodeType ruleID)).AddDependency conditionNodeID
            match g.currentDAG.AddNode resultNode with
            | (dag2, resultNodeID) =>
              Except.ok { g with currentDAG :=
                { dag2 with ruleResults := mapSet dag2.ruleResults ruleID resultNodeID } }
    | _ => Except.error "rule condition is not a string"

/-- Go `DAGCodegen.GenerateDAG`: fresh DAG and state, then process each
rule in order. -/
def GenerateDAG (hash : Primitive → Nat) (rules : List SigmaRule) :
    Except String CompiledDag :=
  let g0 : CodegenState :=
    { currentDAG := NewCompiledDag, nodeIDMap := [], nextNodeID := 0,
      selectionNodes := [] }
  match rules.foldl
      (fun acc rule =>
        match acc with
        | Except.error e => Except.error e
        | Except.ok g => processRule hash g rule)
      (Except.ok g0) with
  | Except.error e => Except.error e
  | Except.ok g => Except.ok g.currentDAG

end SigmaGo

namespace SigmaGo

/-! ## The second condition parser of the compiler package
(`TokenizeCondition` / `ConditionParser` / `ParseTokens`, working over
`TokenValue` tokens and the `ConditionAst` sum). -/

/-- Go `Token` of the conditions module. -/
inductive Token2 where
  | tIdentifier
  | tAnd
  | tOr
  | tNot
  | tLeftParen
  | tRightParen
  | tOf
  | tThem
  | tAll
  | tNumber
  | tWildcard
deriving DecidableEq, Repr

/-- Go `TokenValue`: a token tag with its string value and numeric
payload (zero values when unused, as in Go). -/
structure TokenValue where
  typ : Token2
  value : String := ""
  number : Nat := 0
deriving DecidableEq, Repr

/-- Go `ConditionAst` (the sum of `Identifier`, `And`, `Or`, `Not`,
`OneOfThem`, `AllOfThem`, `OneOfPattern`, `AllOfPattern`,
`CountOfPattern`). -/
inductive ConditionAst where
  | identifier (name : String)
  | andC (left right : ConditionAst)
  | orC (left right : ConditionAst)
  | notC (operand : ConditionAst)
  | oneOfThem
  | allOfThem
  | oneOfPattern (pattern : String)
  | allOfPattern (pattern : String)
  | countOfPattern (count : Nat) (pattern : String)
deriving DecidableEq, Repr

/-- Decimal rendering of a count, as Go `%d` produces it (big-endian
digits from `Nat.digits`, "0" for zero). -/
def decimalChars (n : Nat) : List Char :=
  if n = 0 then ['0']
  else ((Nat.digits 10 n).reverse.map (fun d => Char.ofNat (48 + d)))

/-- The `String()` rendering of `ConditionAst` (each Go variant's
`String` method). -/
def astString : ConditionAst → String
  | ConditionAst.identifier name => name
  | ConditionAst.andC l r => "(" ++ astString l ++ " and " ++ astString r ++ ")"
  | ConditionAst.orC l r => "(" ++ astString l ++ " or " ++ astString r ++ ")"
  | ConditionAst.notC x => "not " ++ astString x
  | ConditionAst.oneOfThem => "1 of them"
  | ConditionAst.allOfThem => "all of them"
  | ConditionAst.oneOfPattern p => "1 of " ++ p
  | ConditionAst.allOfPattern p => "all of " ++ p
  | ConditionAst.countOfPattern c p => String.mk (decimalChars c) ++ " of " ++ p

/-- The character class of Go `TokenizeCondition`'s identifier loop:
letters, digits, underscore, or the wildcard star. -/
def condIdentChar (c : Char) : Bool :=
  lexIsLetter c || lexIsDigit c || c = '_' || c = '*'

/-- Whitespace as `unicode.IsSpace` recognises it on the ASCII inputs
conditions are written in. -/
def condIsSpace (c : Char) : Bool :=
  c = ' ' || c = Char.ofNat 9 || c = Char.ofNat 10 || c = Char.ofNat 13 ||
  c = Char.ofNat 11 || c = Char.ofNat 12

/-- The digit-fold of `strconv.ParseUint` on an all-digit string. -/
def natOfDigits (digits : List Char) : Nat :=
  digits.foldl (fun acc c => acc * 10 + (c.toNat - 48)) 0

/-- The keyword dispatch of Go `TokenizeCondition`: exact keyword
match, otherwise wildcard when the identifier contains a star,
otherwise a plain identifier token. -/
def classifyCondIdent (ident : List Char) : TokenValue :=
  if ident = "and".data then { typ := Token2.tAnd }
  else if ident = "or".data then { typ := Token2.tOr }
  else if ident = "not".data then { typ := Token2.tNot }
  else if ident = "of".data then { typ := Token2.tOf }
  else if ident = "them".data then { typ := Token2.tThem }
  else if ident = "all".data then { typ := Token2.tAll }
  else if ident.contains '*' then
    { typ := Token2.tWildcard, value := String.mk ident }
  else { typ := Token2.tIdentifier, value := String.mk ident }

/-- The character loop of Go `TokenizeCondition`: skip whitespace,
single-character parentheses, digit runs (a value not fitting in uint32
makes `ParseUint` fail and the token is silently dropped), identifier
runs starting with a letter or underscore, and a lexical error on
anything else.  Every step consumes at least one character, so the fuel
`length + 1` supplied by `tokenizeChars` never runs out. -/
def tokenizeFuel : Nat → List Char → Except String (List TokenValue)
  | 0, _ => Except.error "fuel exhausted"
  | _ + 1, [] => Except.ok []
  | fuel + 1, c :: rest =>
    if condIsSpace c then tokenizeFuel fuel rest
    else if c = '(' then
      match tokenizeFuel fuel rest with
      | Except.error e => Except.error e
      | Except.ok ts => Except.ok ({ typ := Token2.tLeftParen } :: ts)
    else if c = ')' then
      match tokenizeFuel fuel rest with
      | Except.error e => Except.error e
      | Except.ok ts => Except.ok ({ typ := Token2.tRightParen } :: ts)
    else if lexIsDigit c then
      match lexReadWhile lexIsDigit rest with
      | (moreDigits, rem) =>
        let n := natOfDigits (c :: moreDigits)
        match tokenizeFuel fuel rem with
        | Except.error e => Except.error e
        | Except.ok ts =>
          if n < 4294967296 then Except.ok ({ typ := Token2.tNumber, number := n } :: ts)
          else Except.ok ts
    else if lexIsLetter c || c = '_' then
      match lexReadWhile condIdentChar rest with
      | (moreIdent, rem) =>
        match tokenizeFuel fuel rem with
        | Except.error e => Except.error e
        | Except.ok ts => Except.ok (classifyCondIdent (c :: moreIdent) :: ts)
    else Except.error "unexpected character in condition"

/-- `TokenizeCondition`'s character loop with sufficient fuel. -/
def tokenizeChars (cs : List Char) : Except String (List TokenValue) :=
  tokenizeFuel (cs.length + 1) cs

/-- Go `TokenizeCondition` on a condition string. -/
def TokenizeCondition (condition : String) : Except String (List TokenValue) :=
  tokenizeChars condition.data

/-- The parser's current token (Go returns nil past the end; `none`
here). -/
def condCur (ts : List TokenValue) : Option TokenValue :=
  ts.head?

mutual

/-- Go `ConditionParser.ParseOrExpression` and its helpers, as
fuel-indexed functions over the remaining token list and the selection
map (fuel is consumed at every call; the entry point supplies enough
for any input). -/
def condParsePrimary (m : List (String × List Nat)) :
    Nat → List TokenValue → Except String (ConditionAst × List TokenValue)
  | 0, _ => Except.error "fuel exhausted"
  | fuel + 1, ts =>
    match ts with
    | [] => Except.error "unexpected end of tokens"
    | token :: rest =>
      match token.typ with
      | Token2.tLeftParen =>
        match condParseOr m fuel rest with
        | Except.error e => Except.error e
        | Except.ok (expr, ts2) =>
          match ts2 with
          | { typ := Token2.tRightParen, value := _, number := _ } :: ts3 =>
            Except.ok (expr, ts3)
          | _ => Except.error "expected closing parenthesis"
      | Token2.tIdentifier =>
        if mapHasKey m token.value then
          Except.ok (ConditionAst.identifier token.value, rest)
        else Except.error "unknown selection identifier"
      | Token2.tNumber =>
        match rest with
        | { typ := Token2.tOf, value := _, number := _ } :: rest2 =>
          match rest2 with
          | [] => Except.error "expected them or pattern after of"
          | next :: rest3 =>
            match next.typ with
            | Token2.tThem =>
              if token.number = 1 then Except.ok (ConditionAst.oneOfThem, rest3)
              else Except.error "only 1 of them is supported"
            | Token2.tWildcard =>
              Except.ok (ConditionAst.countOfPattern token.number next.value, rest3)
            | _ => Except.error "expected them or pattern after of"
        | _ => Except.error "expected of after number"
      | Token2.tAll =>
        match rest with
        | { typ := Token2.tOf, value := _, number := _ } :: rest2 =>
          match rest2 with
          | [] => Except.error "expected them or pattern after of"
          | next :: rest3 =>
            match next.typ with
            | Token2.tThem => Except.ok (ConditionAst.allOfThem, rest3)
            | Token2.tWildcard =>
              Except.ok (ConditionAst.allOfPattern next.value, rest3)
            | _ => Except.error "expected them or pattern after of"
        | _ => Except.error "expected of after all"
      | _ => Except.error "unexpected token in condition"

/-- Go `ConditionParser.parseNotExpression` (NOT applies to a
primary). -/
def condParseNot (m : List (String × List Nat)) :
    Nat → List TokenValue → Except String (ConditionAst × List TokenValue)
  | 0, _ => Except.error "fuel exhausted"
  | fuel + 1, ts =>
    match ts with
    | { typ := Token2.tNot, value := _, number := _ } :: rest =>
      match condParsePrimary m fuel rest with
      | Except.error e => Except.error e
      | Except.ok (operand, ts2) => Except.ok (ConditionAst.notC operand, ts2)
    | _ => condParsePrimary m fuel ts

/-- The `and`-loop of Go `parseAndExpression`. -/
def condParseAndLoop (m : List (String × List Nat)) :
    Nat → ConditionAst → List TokenValue → Except String (ConditionAst × List TokenValue)
  | 0, _, _ => Except.error "fuel exhausted"
  | fuel + 1, left, ts =>
    match ts with
    | { typ := Token2.tAnd, value := _, number := _ } :: rest =>
      match condParseNot m fuel rest with
      | Except.error e => Except.error e
      | Except.ok (right, ts2) =>
        condParseAndLoop m fuel (ConditionAst.andC left right) ts2
    | _ => Except.ok (left, ts)

/-- Go `ConditionParser.parseAndExpression`. -/
def condParseAnd (m : List (String × List Nat)) :
    Nat → List TokenValue → Except String (ConditionAst × List TokenValue)
  | 0, _ => Except.error "fuel exhausted"
  | fuel + 1, ts =>
    match condParseNot m fuel ts with
    | Except.error e => Except.error e
    | Except.ok (left, ts2) => condParseAndLoop m fuel left ts2

/-- The `or`-loop of Go `ParseOrExpression`. -/
def condParseOrLoop (m : List (String × List Nat)) :
    Nat → ConditionAst → List TokenValue → Except String (ConditionAst × List TokenValue)
  | 0, _, _ => Except.error "fuel exhausted"
  | fuel + 1, left, ts =>
    match ts with
    | { typ := Token2.tOr, value := _, number := _ } :: rest =>
      match condParseAnd m fuel rest with
      | Except.error e => Except.error e
      | Except.ok (right, ts2) =>
        condParseOrLoop m fuel (ConditionAst.orC left right) ts2
    | _ => Except.ok (left, ts)

/-- Go `ConditionParser.ParseOrExpression`. -/
def condParseOr (m : List (String × List Nat)) :
    Nat → List TokenValue → Except String (ConditionAst × List TokenValue)
  | 0, _ => Except.error "fuel exhausted"
  | fuel + 1, ts =>
    match condParseAnd m fuel ts with
    | Except.error e => Except.error e
    | Except.ok (left, ts2) => condParseOrLoop m fuel left ts2

end

/-- Go `ParseTokens`: reject an empty token stream, then parse one OR
expression (the remaining-token position is discarded, as in the
source). -/
def ParseTokens (tokens : List TokenValue) (selectionMap : List (String × List Nat)) :
    Except String ConditionAst :=
  if tokens.isEmpty then Except.error "empty condition"
  else
    match condParseOr selectionMap (16 * tokens.length + 16) tokens with
    | Except.error e => Except.error e
    | Except.ok (ast, _) => Except.ok ast

end SigmaGo

namespace SigmaGo

/-! ## Specification predicates and concrete inputs for the claims -/

/-- Bidirectional edge consistency of a `CompiledDag`, following the
specification invariant: for every node `n` and `d ∈ n.dependencies`,
every node with ID `d` lists `n` among its dependents, and
symmetrically for `n.dependents`. -/
def bidirConsistent (dag : CompiledDag) : Bool :=
  dag.nodes.all (fun n =>
    n.dependencies.all (fun d =>
      dag.nodes.all (fun m => decide (m.id ≠ d) || decide (n.id ∈ m.dependents))) &&
    n.dependents.all (fun d =>
      dag.nodes.all (fun m => decide (m.id ≠ d) || decide (n.id ∈ m.dependencies))))

/-- The dependency list of the node stored at a given index (empty for
out-of-range indices). -/
def nodeDepsAt (dag : CompiledDag) (nodeId : Nat) : List Nat :=
  ((dag.GetNode nodeId).map DagNode.dependencies).getD []

/-- The execution order schedules every dependency of a node before the
node itself (specification invariant 3: the order is a linear extension
of the dependency order). -/
def depsScheduledBefore (dag : CompiledDag) : Prop :=
  ∀ i, i < dag.executionOrder.length →
    ∀ d ∈ nodeDepsAt dag (dag.executionOrder.getD i 0),
      d ∈ dag.executionOrder.take i

/-- No two entries of an association-list map share a key (true of
every Go map by construction). -/
def mapNodupKeys {α β : Type} (m : List (α × β)) : Prop :=
  m.Pairwise (fun a b => a.1 ≠ b.1)

/-- Representation invariant of `CompiledRuleset` maintained by
`AddPrimitive` from the empty ruleset: distinct keys, in-range IDs, and
key-injective IDs. -/
def rulesetInv (cr : CompiledRuleset) : Prop :=
  mapNodupKeys cr.primitiveMap ∧
  (∀ kv ∈ cr.primitiveMap, kv.2 < cr.primitives.length) ∧
  (∀ kv1 ∈ cr.primitiveMap, ∀ kv2 ∈ cr.primitiveMap, kv1.2 = kv2.2 → kv1.1 = kv2.1)

/-- The builder's density invariant: IDs are assigned in append order,
so the node at index `i` carries ID `i` and `nextNodeId` counts the
nodes.  Established by `NewDagBuilder` and preserved by every builder
operation except `Optimize` on an empty optimizing builder. -/
def builderInv (b : DagBuilder) : Prop :=
  b.nextNodeId = b.nodes.length ∧
  ∀ i, i < b.nodes.length → ((b.nodes.getD i (NewDagNode 0 (NewPrimitiveNodeType 0))).id = i)

/-- The canonical token list the printed form of a parsed condition
AST tokenizes back to. -/
def canonTokens : ConditionAst → List TokenValue
  | ConditionAst.identifier name => [{ typ := Token2.tIdentifier, value := name }]
  | ConditionAst.andC l r =>
    { typ := Token2.tLeftParen } :: canonTokens l ++ { typ := Token2.tAnd } ::
      canonTokens r ++ [{ typ := Token2.tRightParen }]
  | ConditionAst.orC l r =>
    { typ := Token2.tLeftParen } :: canonTokens l ++ { typ := Token2.tOr } ::
      canonTokens r ++ [{ typ := Token2.tRightParen }]
  | ConditionAst.notC x => { typ := Token2.tNot } :: canonTokens x
  | ConditionAst.oneOfThem =>
    [{ typ := Token2.tNumber, number := 1 }, { typ := Token2.tOf },
     { typ := Token2.tThem }]
  | ConditionAst.allOfThem =>
    [{ typ := Token2.tAll }, { typ := Token2.tOf }, { typ := Token2.tThem }]
  | ConditionAst.oneOfPattern p =>
    [{ typ := Token2.tNumber, number := 1 }, { typ := Token2.tOf },
     { typ := Token2.tWildcard, value := p }]
  | ConditionAst.allOfPattern p =>
    [{ typ := Token2.tAll }, { typ := Token2.tOf },
     { typ := Token2.tWildcard, value := p }]
  | ConditionAst.countOfPattern c p =>
    [{ typ := Token2.tNumber, number := c }, { typ := Token2.tOf },
     { typ := Token2.tWildcard, value := p }]

/-- A character list that begins like an identifier token. -/
def startsIdent : List Char → Prop
  | [] => False
  | c :: _ => lexIsLetter c = true ∨ c = '_'

/-- A well-formed identifier-run: nonempty, identifier start, only
identifier characters. -/
def goodIdent (cs : List Char) : Prop :=
  startsIdent cs ∧ ∀ c ∈ cs, condIdentChar c = true

/-- The keyword strings of `TokenizeCondition`. -/
def condKeywords : List (List Char) :=
  ["and".data, "or".data, "not".data, "of".data, "them".data, "all".data]

/-- Well-formedness of a condition token, as the tokenizer guarantees
for every token it emits. -/
def tokenWf : TokenValue → Prop
  | { typ := Token2.tIdentifier, value := v, number := n } =>
    goodIdent v.data ∧ ¬ v.data ∈ condKeywords ∧ ¬ '*' ∈ v.data ∧ n = 0
  | { typ := Token2.tWildcard, value := v, number := n } =>
    goodIdent v.data ∧ '*' ∈ v.data ∧ n = 0
  | { typ := Token2.tNumber, value := v, number := n } =>
    v = "" ∧ n < 4294967296
  | { typ := _, value := v, number := n } => v = "" ∧ n = 0

/-- Well-formedness of a parsed condition AST relative to a selection
map: exactly the shapes `ParseTokens` can produce from tokenizer
output. -/
def wfAst (m : List (String × List Nat)) : ConditionAst → Prop
  | ConditionAst.identifier name =>
    goodIdent name.data ∧ ¬ name.data ∈ condKeywords ∧ ¬ '*' ∈ name.data ∧
    mapHasKey m name = true
  | ConditionAst.andC l r => wfAst m l ∧ wfAst m r
  | ConditionAst.orC l r => wfAst m l ∧ wfAst m r
  | ConditionAst.notC x => wfAst m x
  | ConditionAst.oneOfThem => True
  | ConditionAst.allOfThem => True
  | ConditionAst.oneOfPattern _ => False
  | ConditionAst.allOfPattern p => goodIdent p.data ∧ '*' ∈ p.data
  | ConditionAst.countOfPattern c p =>
    goodIdent p.data ∧ '*' ∈ p.data ∧ c < 4294967296

/-- Whether an AST contains a `Not` directly under a `Not` (the one
shape whose printed form does not re-parse). -/
def noNotNot : ConditionAst → Bool
  | ConditionAst.identifier _ => true
  | ConditionAst.andC l r => noNotNot l && noNotNot r
  | ConditionAst.orC l r => noNotNot l && noNotNot r
  | ConditionAst.notC (ConditionAst.notC _) => false
  | ConditionAst.notC x => noNotNot x
  | ConditionAst.oneOfThem => true
  | ConditionAst.allOfThem => true
  | ConditionAst.oneOfPattern _ => true
  | ConditionAst.allOfPattern _ => true
  | ConditionAst.countOfPattern _ _ => true

/-- Whether the top constructor is a `Not` (the one shape the parser's
primary level cannot re-parse). -/
def isNotC : ConditionAst → Bool
  | ConditionAst.notC _ => true
  | _ => false

/-- Nesting depth of a condition AST, used to bound the parser fuel its
canonical tokens need. -/
def astDepth : ConditionAst → Nat
  | ConditionAst.andC l r => max (astDepth l) (astDepth r) + 1
  | ConditionAst.orC l r => max (astDepth l) (astDepth r) + 1
  | ConditionAst.notC x => astDepth x + 1
  | _ => 0

/-- The numeric code point of a character, used to settle the lexer's
character-class tests by arithmetic. -/
def cvn (c : Char) : Nat := c.val.toBitVec.toNat

/-- A list of characters that may safely follow any token run: empty,
or starting with whitespace or a parenthesis. -/
def delimHead (ys : List Char) : Prop :=
  ys = [] ∨ ∃ c cs, ys = c :: cs ∧ (condIsSpace c = true ∨ c = '(' ∨ c = ')')


/-- A SIGMA rule whose one selection holds two field predicates
(scenario 2 of the specification: `EventID = "1"` AND `User = "root"`
is the intended selection semantics). -/
def c1Rule : SigmaRule :=
  { id := "r1",
    detection :=
      [("sel", DetVal.mapv [("EventID", DetVal.str "1"), ("User", DetVal.str "root")]),
       ("condition", DetVal.str "sel")] }

/-- The DAG the code generator produces for `c1Rule` (with the
primitive hash instantiated to the constant 0): the selection node is a
Logical OR over the two primitive nodes. -/
def c1ExpectedDag : CompiledDag :=
  { nodes :=
      [{ id := 1, nodeType := NewPrimitiveNodeType 0, dependencies := [],
         dependents := [], cachedResult := none },
       { id := 2, nodeType := NewPrimitiveNodeType 0, dependencies := [],
         dependents := [], cachedResult := none },
       { id := 0, nodeType := NewLogicalNodeType LogicalOp.logicalOr,
         dependencies := [1, 2], dependents := [], cachedResult := none },
       { id := 3, nodeType := NewResultNodeType 3583, dependencies := [0],
         dependents := [], cachedResult := none }],
    executionOrder := [], primitiveMap := [], ruleResults := [(3583, 3)],
    resultBufferSize := 4 }

/-- A single-primitive rule for the bidirectional-consistency claim. -/
def c5Rule : SigmaRule :=
  { id := "",
    detection := [("sel", DetVal.mapv [("A", DetVal.str "1")]),
                  ("condition", DetVal.str "sel")] }

/-- The DAG the code generator produces for `c5Rule`: the result node
(ID 1) depends on the primitive node (ID 0), but node 0's `Dependents`
list is left empty. -/
def c5ExpectedDag : CompiledDag :=
  { nodes :=
      [{ id := 0, nodeType := NewPrimitiveNodeType 0, dependencies := [],
         dependents := [], cachedResult := none },
       { id := 1, nodeType := NewResultNodeType 0, dependencies := [0],
         dependents := [], cachedResult := none }],
    executionOrder := [], primitiveMap := [], ruleResults := [(0, 1)],
    resultBufferSize := 2 }

/-- A DAG whose rule 7 holds iff NOT(primitive 0) holds; primitive 0
carries an injected `cached_result = false` (scenario 6 of the
specification injects constants this way). -/
def dagC4pre : CompiledDag :=
  { nodes :=
      [{ id := 0, nodeType := NewPrimitiveNodeType 0, dependencies := [],
         dependents := [], cachedResult := some false },
       { id := 1, nodeType := NewLogicalNodeType LogicalOp.logicalNot,
         dependencies := [0], dependents := [], cachedResult := none },
       { id := 2, nodeType := NewResultNodeType 7, dependencies := [1],
         dependents := [], cachedResult := none }],
    executionOrder := [0, 1, 2], primitiveMap := [(0, 0)], ruleResults := [(7, 2)],
    resultBufferSize := 3 }

/-- `dagC4pre` after `foldNodeToConstant` folds node 1 to the constant
`true` that `evaluateConstantExpression` computes for it. -/
def dagC4post : CompiledDag :=
  { nodes :=
      [{ id := 0, nodeType := NewPrimitiveNodeType 0, dependencies := [],
         dependents := [], cachedResult := some false },
       { id := 1, nodeType := NewLogicalNodeType LogicalOp.logicalNot,
         dependencies := [], dependents := [], cachedResult := some true },
       { id := 2, nodeType := NewResultNodeType 7, dependencies := [1],
         dependents := [], cachedResult := none }],
    executionOrder := [0, 1, 2], primitiveMap := [(0, 0)], ruleResults := [(7, 2)],
    resultBufferSize := 3 }

/-- An AND node with zero dependencies. -/
def emptyAndNode : DagNode :=
  { id := 0, nodeType := NewLogicalNodeType LogicalOp.logicalAnd,
    dependencies := [], dependents := [], cachedResult := none }

/-- A DAG holding only the empty AND node. -/
def emptyAndDag : CompiledDag :=
  { nodes := [emptyAndNode], executionOrder := [0], primitiveMap := [],
    ruleResults := [], resultBufferSize := 1 }

/-- A primitive whose single value contains the join character of the
canonical key. -/
def c2p : Primitive := NewPrimitive "f" "equals" ["a|b"] []

/-- A different primitive whose two values join to the same canonical
key as `c2p`. -/
def c2q : Primitive := NewPrimitive "f" "equals" ["a", "b"] []

/-- A builder on which `Optimize` ran while it was empty (resetting
`nextNodeId` to 1) before a primitive node was created. -/
def c10Builder : DagBuilder :=
  ((NewDagBuilder.WithOptimization true).Optimize).FromPrimitives [c2p]

/-- The DAG `c10Builder.Build` produces: its only node sits at index 0
but carries ID 1. -/
def c10Dag : CompiledDag :=
  { nodes :=
      [{ id := 1, nodeType := NewPrimitiveNodeType 0, dependencies := [],
         dependents := [], cachedResult := none }],
    executionOrder := [0], primitiveMap := [(0, 1)], ruleResults := [],
    resultBufferSize := 2 }

/-- A DAG with two constant-folded primitive nodes under an AND node,
used as a concrete folding input. -/
def c6WitnessDag : CompiledDag :=
  { nodes :=
      [{ id := 0, nodeType := NewPrimitiveNodeType 0, dependencies := [],
         dependents := [2], cachedResult := some true },
       { id := 1, nodeType := NewPrimitiveNodeType 1, dependencies := [],
         dependents := [2], cachedResult := some true },
       { id := 2, nodeType := NewLogicalNodeType LogicalOp.logicalAnd,
         dependencies := [0, 1], dependents := [], cachedResult := none }],
    executionOrder := [0, 1, 2], primitiveMap := [(0, 0), (1, 1)],
    ruleResults := [], resultBufferSize := 3 }

/-- The AND node of `c6WitnessDag`. -/
def c6WitnessAnd : DagNode :=
  { id := 2, nodeType := NewLogicalNodeType LogicalOp.logicalAnd,
    dependencies := [0, 1], dependents := [], cachedResult := none }

/-- A builder holding one primitive node, with the density invariant
intact. -/
def c10WitnessBuilder : DagBuilder :=
  NewDagBuilder.FromPrimitives [c2p]

/-- The DAG `c10WitnessBuilder.Build` produces. -/
def c10WitnessDagOk : CompiledDag :=
  { nodes :=
      [{ id := 0, nodeType := NewPrimitiveNodeType 0, dependencies := [],
         dependents := [], cachedResult := none }],
    executionOrder := [0], primitiveMap := [(0, 0)], ruleResults := [],
    resultBufferSize := 1 }

/-- A small two-rule DAG used as a concrete witness input: rule 5's
result follows NOT(primitive 0), rule 6's follows AND(primitive 0,
primitive 1). -/
def witnessDag : CompiledDag :=
  { nodes :=
      [{ id := 0, nodeType := NewPrimitiveNodeType 0, dependencies := [],
         dependents := [2, 4], cachedResult := none },
       { id := 1, nodeType := NewPrimitiveNodeType 1, dependencies := [],
         dependents := [4], cachedResult := none },
       { id := 2, nodeType := NewLogicalNodeType LogicalOp.logicalNot,
         dependencies := [0], dependents := [3], cachedResult := none },
       { id := 3, nodeType := NewResultNodeType 5, dependencies := [2],
         dependents := [], cachedResult := none },
       { id := 4, nodeType := NewLogicalNodeType LogicalOp.logicalAnd,
         dependencies := [0, 1], dependents := [5], cachedResult := none },
       { id := 5, nodeType := NewResultNodeType 6, dependencies := [4],
         dependents := [], cachedResult := none }],
    executionOrder := [0, 1, 2, 3, 4, 5], primitiveMap := [(0, 0), (1, 1)],
    ruleResults := [(5, 3), (6, 5)], resultBufferSize := 6 }

end SigmaGo

namespace SigmaGo

/-! ## Claim theorems -/

/-- C1: the claim states that a selection producing more than one
primitive is lowered to a Logical AND over the primitive nodes, so an
event satisfies the selection node only if it satisfies every field
predicate.  The generator (`generateSelectionNodes`) in fact emits a
Logical OR: for the two-field selection of `c1Rule` the selection node
(stored at index 2, ID 0) is an OR over the two primitive nodes, and
the evaluator's OR accepts a state in which only one of the two
dependencies holds. -/
theorem c1_generateSelectionNodes_emits_or_not_and :
    GenerateDAG (fun _ => 0) [c1Rule] = Except.ok c1ExpectedDag ∧
    c1ExpectedDag.nodes.getD 2 (NewDagNode 0 (NewPrimitiveNodeType 0)) =
      { id := 0, nodeType := NewLogicalNodeType LogicalOp.logicalOr,
        dependencies := [1, 2], dependents := [], cachedResult := none } ∧
    evaluateLogicalOperation
      { nodeResults := [(1, true), (2, false)], fastResults := [] }
      LogicalOp.logicalOr [1, 2] = true :=
  ⟨rfl, rfl, rfl⟩

/-- C5: the claim states that every DAG the code generator produces is
bidirectionally consistent.  For the single-selection rule `c5Rule` the
generator emits a result node (ID 1) depending on the primitive node
(ID 0) but never records the reverse `Dependents` edge, so the
invariant fails. -/
theorem c5_codegen_violates_bidirectional_consistency :
    GenerateDAG (fun _ => 0) [c5Rule] = Except.ok c5ExpectedDag ∧
    (c5ExpectedDag.nodes.getD 1 (NewDagNode 0 (NewPrimitiveNodeType 0))).dependencies = [0] ∧
    (c5ExpectedDag.nodes.getD 0 (NewDagNode 0 (NewPrimitiveNodeType 0))).dependents = [] ∧
    bidirConsistent c5ExpectedDag = false :=
  ⟨rfl, rfl, rfl, by decide⟩

/-- C4: the claim states that a node with a set `cached_result`
evaluates to that cached value without evaluating dependencies, so the
matched-rule set is unchanged by folding a node to the constant it
would have computed.  The evaluator (`evaluateNode` /
`evaluateNodeFast`) never consults `CachedResult`: folding the NOT node
of `dagC4pre` to the constant `true` that `evaluateConstantExpression`
computes for it flips rule 7 from matched to unmatched on both
evaluation paths, because the folded node (cached `true`, dependencies
cleared) evaluates to `false`. -/
theorem c4_evaluator_ignores_cached_result :
    evaluateConstantExpression dagC4pre
      { id := 1, nodeType := NewLogicalNodeType LogicalOp.logicalNot,
        dependencies := [0], dependents := [], cachedResult := none } = some true ∧
    foldNodeToConstant dagC4pre 1 true = (dagC4post, true) ∧
    (dagC4post.nodes.getD 1 (NewDagNode 0 (NewPrimitiveNodeType 0))).cachedResult
      = some true ∧
    evaluateStandardPath dagC4pre = Except.ok [7] ∧
    evaluateStandardPath dagC4post = Except.ok [] ∧
    evaluateFastPath dagC4pre = Except.ok [7] ∧
    evaluateFastPath dagC4post = Except.ok [] :=
  ⟨rfl, rfl, rfl, rfl, rfl, rfl, rfl⟩

/-- C2 counterexample: the claim's "primitives differing in any
attribute receive distinct IDs" fails: `c2p` and `c2q` differ in their
`values` yet join to the same canonical key, so `add_primitive` returns
the same ID 0 for both. -/
theorem c2_distinct_primitives_share_id :
    c2p ≠ c2q ∧
    primitiveToKey c2p = primitiveToKey c2q ∧
    (AddPrimitive NewCompiledRuleset c2p).2 = 0 ∧
    (AddPrimitive (AddPrimitive NewCompiledRuleset c2p).1 c2q).2 = 0 :=
  ⟨by decide, rfl, rfl, rfl⟩

/-- C6 counterexample: the claim's truth table says AND of zero
operands folds to `false`; `evaluateConstantExpression` on an AND node
with no dependencies returns `some true` (the vacuous conjunction), not
`some false`. -/
theorem c6_empty_and_folds_to_true :
    evaluateConstantExpression emptyAndDag emptyAndNode = some true ∧
    evaluateConstantExpression emptyAndDag emptyAndNode ≠ some false :=
  ⟨rfl, by decide⟩

/-- C8 counterexample: the claim states that tokens continuing past a
complete expression make parsing fail; `ParseTokens` on the two-token
stream `a b` silently returns the prefix AST `a`. -/
theorem c8_trailing_tokens_accepted :
    ParseTokens
      [{ typ := Token2.tIdentifier, value := "a" },
       { typ := Token2.tIdentifier, value := "b" }]
      [("a", [0]), ("b", [1])] = Except.ok (ConditionAst.identifier "a") :=
  rfl

/-- C10 counterexample: the claim states every Build result stores node
`i` at index `i`.  After `Optimize` runs on an empty optimizing builder
(`updateFromOptimizedDag` resets `nextNodeId` to max-ID+1 = 1), the
first created node carries ID 1 at index 0, and `GetNode` no longer
returns the node whose ID field is the argument: `GetNode 0` yields the
node with ID 1 and `GetNode 1` yields none although a node with ID 1
exists. -/
theorem c10_build_breaks_dense_ids_after_empty_optimize :
    c10Builder.Build = Except.ok c10Dag ∧
    (c10Dag.nodes.getD 0 (NewDagNode 0 (NewPrimitiveNodeType 0))).id = 1 ∧
    (c10Dag.GetNode 0).map DagNode.id = some 1 ∧
    c10Dag.GetNode 1 = none :=
  ⟨rfl, rfl, rfl, rfl⟩

/-- C7 counterexample: the condition `not (not a)` tokenizes and parses
successfully to `Not (Not a)`, its printed form is `not not a`, and
re-tokenizing and re-parsing that printed form fails (NOT applies only
to primaries), so the round-trip claim fails. -/
theorem c7_roundtrip_fails_on_double_not :
    TokenizeCondition "not (not a)" = Except.ok
      [{ typ := Token2.tNot }, { typ := Token2.tLeftParen }, { typ := Token2.tNot },
       { typ := Token2.tIdentifier, value := "a" }, { typ := Token2.tRightParen }] ∧
    ParseTokens
      [{ typ := Token2.tNot }, { typ := Token2.tLeftParen }, { typ := Token2.tNot },
       { typ := Token2.tIdentifier, value := "a" }, { typ := Token2.tRightParen }]
      [("a", [0])] =
      Except.ok (ConditionAst.notC (ConditionAst.notC (ConditionAst.identifier "a"))) ∧
    astString (ConditionAst.notC (ConditionAst.notC (ConditionAst.identifier "a"))) =
      "not not a" ∧
    TokenizeCondition "not not a" = Except.ok
      [{ typ := Token2.tNot }, { typ := Token2.tNot },
       { typ := Token2.tIdentifier, value := "a" }] ∧
    ParseTokens
      [{ typ := Token2.tNot }, { typ := Token2.tNot },
       { typ := Token2.tIdentifier, value := "a" }]
      [("a", [0])] = Except.error "unexpected token in condition" :=
  ⟨rfl, rfl, rfl, rfl, rfl⟩

end SigmaGo

namespace SigmaGo

/-! ## Shared helper lemmas -/

/-- Lookup after a map write: the written key reads the new value,
other keys are unchanged. -/
theorem mapLookup_mapSet {α β : Type} [DecidableEq α] (m : List (α × β))
    (k : α) (v : β) (k' : α) :
    mapLookup (mapSet m k v) k' = if k = k' then some v else mapLookup m k' := by
  induction m with
  | nil =>
    by_cases h : k = k' <;> simp [mapSet, mapLookup, h]
  | cons kv rest ih =>
    obtain ⟨a, b⟩ := kv
    by_cases hak : a = k
    · subst hak
      by_cases h : a = k' <;> simp [mapSet, mapLookup, h]
    · by_cases h : a = k'
      · subst h
        have hne : k ≠ a := fun he => hak he.symm
        simp [mapSet, mapLookup, hak, hne]
      · simp [mapSet, mapLookup, hak, h, ih]

/-- Writing a fresh key appends the entry. -/
theorem mapSet_fresh {α β : Type} [DecidableEq α] (m : List (α × β)) (k : α) (v : β)
    (h : mapLookup m k = none) : mapSet m k v = m ++ [(k, v)] := by
  induction m with
  | nil => simp [mapSet]
  | cons kv rest ih =>
    obtain ⟨a, b⟩ := kv
    by_cases hak : a = k
    · subst hak
      simp [mapLookup] at h
    · simp [mapLookup, hak] at h
      simp [mapSet, hak, ih h]

/-- Keys absent from an association list look up to `none`. -/
theorem mapLookup_eq_none_of_not_mem {α β : Type} [DecidableEq α]
    (m : List (α × β)) (k : α) (h : ∀ kv ∈ m, kv.1 ≠ k) :
    mapLookup m k = none := by
  induction m with
  | nil => simp [mapLookup]
  | cons kv rest ih =>
    have h1 := h kv (List.mem_cons_self kv rest)
    simp [mapLookup, h1]
    exact ih (fun kv2 hm => h kv2 (List.mem_cons_of_mem kv hm))

/-- Re-inserting the entries of a duplicate-free association list into
an accumulator with disjoint keys appends them in order (the value-level
content of Go's map-copy loop). -/
theorem foldl_mapSet_rebuild {α β : Type} [DecidableEq α] :
    ∀ (m acc : List (α × β)), mapNodupKeys m →
    (∀ kv ∈ m, mapLookup acc kv.1 = none) →
    m.foldl (fun a kv => mapSet a kv.1 kv.2) acc = acc ++ m := by
  intro m
  induction m with
  | nil => intro acc _ _; simp
  | cons kv rest ih =>
    intro acc hnodup hdisj
    obtain ⟨a, b⟩ := kv
    have hfresh : mapLookup acc a = none := hdisj (a, b) (List.mem_cons_self _ _)
    have hnodup2 : mapNodupKeys rest := (List.pairwise_cons.mp hnodup).2
    have hkey : ∀ kv2 ∈ rest, (a, b).1 ≠ kv2.1 := (List.pairwise_cons.mp hnodup).1
    have hdisj2 : ∀ kv2 ∈ rest, mapLookup (mapSet acc a b) kv2.1 = none := by
      intro kv2 hm
      rw [mapLookup_mapSet]
      have hne : a ≠ kv2.1 := hkey kv2 hm
      simp [hne]
      exact hdisj kv2 (List.mem_cons_of_mem _ hm)
    simp only [List.foldl_cons]
    rw [ih (mapSet acc a b) hnodup2 hdisj2, mapSet_fresh acc a b hfresh]
    simp

/-- Pointwise-equal predicates give equal `any` results. -/
theorem list_any_congr {α : Type} (l : List α) (f g : α → Bool)
    (h : ∀ x ∈ l, f x = g x) : l.any f = l.any g := by
  induction l with
  | nil => rfl
  | cons x rest ih =>
    simp only [List.any_cons]
    rw [h x (List.mem_cons_self x rest),
        ih (fun y hy => h y (List.mem_cons_of_mem x hy))]

/-- `getD` after `set` inside the range. -/
theorem list_getD_set {α : Type} (l : List α) (i : Nat) (v d : α) (j : Nat) :
    (l.set i v).getD j d =
      if i = j ∧ i < l.length then v else l.getD j d := by
  induction l generalizing i j with
  | nil => simp [List.set]
  | cons x rest ih =>
    match i, j with
    | 0, 0 => simp
    | 0, j + 1 => simp
    | i + 1, 0 => simp
    | i + 1, j + 1 =>
      simp only [List.set, List.getD_cons_succ, List.length_cons]
      rw [ih i j]
      by_cases hij : i = j
      · subst hij
        by_cases hlen : i < rest.length
        · have h2 : i + 1 < rest.length + 1 := by omega
          simp [hlen, h2]
        · have h2 : ¬ (i + 1 < rest.length + 1) := by omega
          simp [hlen, h2]
      · have h1 : ¬ (i = j ∧ i < rest.length) := fun hc => hij hc.1
        have h2 : ¬ (i + 1 = j + 1 ∧ i + 1 < rest.length + 1) := fun hc => hij (by omega)
        simp only [h1, h2, if_false]

end SigmaGo

namespace SigmaGo

/-- C6 (amended): for a Logical node whose resolved dependencies all
carry cached results (`collectConstantOperands` succeeds), constant
folding computes the conjunction for AND (true for the empty operand
list), the disjunction for OR (false for the empty list), the inverted
operand for a singleton NOT, and refuses to fold a NOT of any other
arity. -/
theorem c6_evaluateConstantExpression_truth_tables
    (dag : CompiledDag) (node : DagNode) (op : LogicalOp) (vals : List Bool)
    (h1 : node.nodeType.typ = "Logical")
    (h2 : node.nodeType.operation = some op)
    (h3 : collectConstantOperands dag node.dependencies = some vals) :
    (op = LogicalOp.logicalAnd →
      evaluateConstantExpression dag node = some (vals.all (fun v => v))) ∧
    (op = LogicalOp.logicalOr →
      evaluateConstantExpression dag node = some (vals.any (fun v => v))) ∧
    (op = LogicalOp.logicalNot → ∀ v, vals = [v] →
      evaluateConstantExpression dag node = some (!v)) ∧
    (op = LogicalOp.logicalNot → vals.length ≠ 1 →
      evaluateConstantExpression dag node = none) := by
  refine ⟨?_, ?_, ?_, ?_⟩
  · intro hop
    subst hop
    simp [evaluateConstantExpression, h1, h2, h3]
  · intro hop
    subst hop
    simp [evaluateConstantExpression, h1, h2, h3]
  · intro hop v hv
    subst hop
    subst hv
    simp [evaluateConstantExpression, h1, h2, h3]
  · intro hop hlen
    subst hop
    match vals, hlen with
    | [], _ => simp [evaluateConstantExpression, h1, h2, h3]
    | [v], h => exact absurd rfl h
    | v1 :: v2 :: rest, _ => simp [evaluateConstantExpression, h1, h2, h3]

/-- Witness for C6: on `c6WitnessDag`, the AND over the two cached-true
primitives folds to true. -/
theorem c6_evaluateConstantExpression_truth_tables_witness :
    evaluateConstantExpression c6WitnessDag c6WitnessAnd = some true :=
  ((c6_evaluateConstantExpression_truth_tables c6WitnessDag c6WitnessAnd
    LogicalOp.logicalAnd [true, true] rfl rfl rfl).1 rfl)

end SigmaGo

namespace SigmaGo

/-- A successful lookup exposes a member entry. -/
theorem mapLookup_some_mem {α β : Type} [DecidableEq α] (m : List (α × β))
    (k : α) (v : β) (h : mapLookup m k = some v) : (k, v) ∈ m := by
  induction m with
  | nil => simp [mapLookup] at h
  | cons kv rest ih =>
    obtain ⟨a, b⟩ := kv
    by_cases hak : a = k
    · subst hak
      simp [mapLookup] at h
      subst h
      exact List.mem_cons_self _ _
    · simp [mapLookup, hak] at h
      exact List.mem_cons_of_mem _ (ih h)

/-- A failed lookup means no entry carries the key. -/
theorem mapLookup_none_forall {α β : Type} [DecidableEq α] (m : List (α × β))
    (k : α) (h : mapLookup m k = none) : ∀ kv ∈ m, kv.1 ≠ k := by
  induction m with
  | nil => simp
  | cons kv rest ih =>
    obtain ⟨a, b⟩ := kv
    by_cases hak : a = k
    · subst hak
      simp [mapLookup] at h
    · simp [mapLookup, hak] at h
      intro kv2 hm
      rcases List.mem_cons.mp hm with he | hm2
      · subst he; exact hak
      · exact ih h kv2 hm2

/-- The empty ruleset satisfies the representation invariant. -/
theorem rulesetInv_empty : rulesetInv NewCompiledRuleset := by
  refine ⟨List.Pairwise.nil, ?_, ?_⟩ <;> simp [NewCompiledRuleset]

/-- `AddPrimitive` when the canonical key is already registered:
return the existing ID, leave the ruleset unchanged. -/
theorem AddPrimitive_found (cr : CompiledRuleset) (p : Primitive) (id : Nat)
    (h : mapLookup cr.primitiveMap (primitiveToKey p) = some id) :
    AddPrimitive cr p = (cr, id) := by
  simp [AddPrimitive, h]

/-- `AddPrimitive` when the canonical key is fresh: append the
primitive under the next dense ID. -/
theorem AddPrimitive_fresh (cr : CompiledRuleset) (p : Primitive)
    (h : mapLookup cr.primitiveMap (primitiveToKey p) = none) :
    AddPrimitive cr p =
      ({ primitiveMap := cr.primitiveMap ++ [(primitiveToKey p, cr.primitives.length)],
         primitives := cr.primitives ++ [p],
         primitiveKeys := mapSet cr.primitiveKeys (primitiveToKey p) (primitiveToKey p) },
       cr.primitives.length) := by
  simp [AddPrimitive, h, mapSet_fresh cr.primitiveMap (primitiveToKey p) cr.primitives.length h]

/-- `AddPrimitive` preserves the ruleset invariant. -/
theorem rulesetInv_addPrimitive (cr : CompiledRuleset) (p : Primitive)
    (h : rulesetInv cr) : rulesetInv (AddPrimitive cr p).1 := by
  obtain ⟨hnodup, hbound, hinj⟩ := h
  cases hl : mapLookup cr.primitiveMap (primitiveToKey p) with
  | some id =>
    rw [AddPrimitive_found cr p id hl]
    exact ⟨hnodup, hbound, hinj⟩
  | none =>
    rw [AddPrimitive_fresh cr p hl]
    have hnotmem := mapLookup_none_forall cr.primitiveMap (primitiveToKey p) hl
    refine ⟨?_, ?_, ?_⟩
    · simp only [mapNodupKeys]
      rw [List.pairwise_append]
      exact ⟨hnodup, List.pairwise_singleton _ _,
        fun a ha b hb => by
          simp at hb
          rw [hb]
          exact hnotmem a ha⟩
    · intro kv hm
      rcases List.mem_append.mp hm with hm2 | hm2
      · have := hbound kv hm2
        simp
        omega
      · simp at hm2
        rw [hm2]
        simp
    · intro kv1 hm1 kv2 hm2 hv
      rcases List.mem_append.mp hm1 with ha1 | ha1 <;>
        rcases List.mem_append.mp hm2 with ha2 | ha2
      · exact hinj kv1 ha1 kv2 ha2 hv
      · have hb1 := hbound kv1 ha1
        simp at ha2
        rw [ha2] at hv
        simp at hv
        omega
      · have hb2 := hbound kv2 ha2
        simp at ha1
        rw [ha1] at hv
        simp at hv
        omega
      · simp at ha1 ha2
        rw [ha1, ha2]

/-- C2 (amended): registering `p` and then `q` yields the same
PrimitiveID exactly when the two primitives share the canonical key
`(field :: match_type :: values joined by "|" :: modifiers joined by
"|")`.  Equal primitives always share a key; distinct primitives whose
joined values collide also do. -/
theorem c2_addPrimitive_id_eq_iff_key_eq (cr : CompiledRuleset)
    (p q : Primitive) (hinv : rulesetInv cr) :
    ((AddPrimitive (AddPrimitive cr p).1 q).2 = (AddPrimitive cr p).2 ↔
      primitiveToKey p = primitiveToKey q) := by
  obtain ⟨hnodup, hbound, hinj⟩ := hinv
  by_cases hkey : primitiveToKey p = primitiveToKey q
  · simp only [hkey, iff_true]
    cases hl : mapLookup cr.primitiveMap (primitiveToKey p) with
    | some idp =>
      rw [AddPrimitive_found cr p idp hl]
      have hl2 : mapLookup cr.primitiveMap (primitiveToKey q) = some idp := by
        rw [← hkey]; exact hl
      rw [AddPrimitive_found cr q idp hl2]
    | none =>
      rw [AddPrimitive_fresh cr p hl]
      have hl2 : mapLookup
          (cr.primitiveMap ++ [(primitiveToKey p, cr.primitives.length)])
          (primitiveToKey q) = some cr.primitives.length := by
        rw [← mapSet_fresh cr.primitiveMap (primitiveToKey p) cr.primitives.length hl,
            mapLookup_mapSet]
        simp [hkey]
      rw [AddPrimitive_found _ q cr.primitives.length hl2]
  · simp only [hkey, iff_false]
    cases hl : mapLookup cr.primitiveMap (primitiveToKey p) with
    | some idp =>
      rw [AddPrimitive_found cr p idp hl]
      have hmem1 := mapLookup_some_mem _ _ _ hl
      cases hl2 : mapLookup cr.primitiveMap (primitiveToKey q) with
      | some idq =>
        rw [AddPrimitive_found cr q idq hl2]
        have hmem2 := mapLookup_some_mem _ _ _ hl2
        intro hv
        exact hkey (hinj _ hmem1 _ hmem2 hv.symm)
      | none =>
        rw [AddPrimitive_fresh cr q hl2]
        have hb := hbound _ hmem1
        intro hv
        simp at hb hv
        omega
    | none =>
      rw [AddPrimitive_fresh cr p hl]
      have hrw := mapSet_fresh cr.primitiveMap (primitiveToKey p) cr.primitives.length hl
      cases hl2 : mapLookup cr.primitiveMap (primitiveToKey q) with
      | some idq =>
        have hl3 : mapLookup
            (cr.primitiveMap ++ [(primitiveToKey p, cr.primitives.length)])
            (primitiveToKey q) = some idq := by
          rw [← hrw, mapLookup_mapSet]
          simp [hkey, hl2]
        rw [AddPrimitive_found _ q idq hl3]
        have hmem2 := mapLookup_some_mem _ _ _ hl2
        have hb := hbound _ hmem2
        intro hv
        simp at hb hv
        omega
      | none =>
        have hl3 : mapLookup
            (cr.primitiveMap ++ [(primitiveToKey p, cr.primitives.length)])
            (primitiveToKey q) = none := by
          rw [← hrw, mapLookup_mapSet]
          simp [hkey, hl2]
        rw [AddPrimitive_fresh _ q hl3]
        intro hv
        simp at hv

/-- Witness for C2: from the empty ruleset, `c2p` and `c2q` (distinct
primitives with colliding keys) receive the same ID, as the amended
equivalence dictates. -/
theorem c2_addPrimitive_id_eq_iff_key_eq_witness :
    (AddPrimitive (AddPrimitive NewCompiledRuleset c2p).1 c2q).2 =
      (AddPrimitive NewCompiledRuleset c2p).2 :=
  (c2_addPrimitive_id_eq_iff_key_eq NewCompiledRuleset c2p c2q
    rulesetInv_empty).mpr (by decide)

end SigmaGo

namespace SigmaGo

/-- Index-form of the builder density invariant. -/
theorem builderInv_get (b : DagBuilder) (hinv : builderInv b) :
    ∀ i (h : i < b.nodes.length), (b.nodes.get ⟨i, h⟩).id = i := by
  intro i h
  have h2 := hinv.2 i h
  rwa [List.getD_eq_get?, List.get?_eq_get h, Option.getD_some] at h2

/-- Appending a node whose ID is the current length preserves the
density invariant (shared by all four node-creation operations). -/
theorem denseIds_append (nodes : List DagNode) (node : DagNode)
    (hid : node.id = nodes.length)
    (hids : ∀ i, i < nodes.length →
      ((nodes.getD i (NewDagNode 0 (NewPrimitiveNodeType 0))).id = i)) :
    ∀ i, i < (nodes ++ [node]).length →
      (((nodes ++ [node]).getD i (NewDagNode 0 (NewPrimitiveNodeType 0))).id = i) := by
  intro i h
  simp only [List.length_append, List.length_cons, List.length_nil] at h
  by_cases hlt : i < nodes.length
  · rw [List.getD_eq_get?, List.get?_append hlt, ← List.getD_eq_get?]
    exact hids i hlt
  · have hi : i = nodes.length := by omega
    subst hi
    rw [List.getD_eq_get?, List.get?_append_right (Nat.le_refl _)]
    simp [hid]

/-- `NewDagBuilder` satisfies the density invariant. -/
theorem builderInv_new : builderInv NewDagBuilder := by
  constructor <;> simp [NewDagBuilder]

/-- `WithOptimization` preserves the density invariant. -/
theorem builderInv_withOptimization (b : DagBuilder) (e : Bool)
    (h : builderInv b) : builderInv (b.WithOptimization e) := h

/-- `WithPrefilter` preserves the density invariant. -/
theorem builderInv_withPrefilter (b : DagBuilder) (e : Bool)
    (h : builderInv b) : builderInv (b.WithPrefilter e) := h

/-- `createPrimitiveNode` preserves the density invariant. -/
theorem builderInv_createPrimitiveNode (b : DagBuilder) (pid : Nat)
    (h : builderInv b) : builderInv (b.createPrimitiveNode pid).1 := by
  obtain ⟨hnext, hids⟩ := h
  refine ⟨by simp [DagBuilder.createPrimitiveNode, hnext], ?_⟩
  simp only [DagBuilder.createPrimitiveNode]
  exact denseIds_append b.nodes _ (by simp [NewDagNode, hnext]) hids

/-- `createLogicalNode` preserves the density invariant. -/
theorem builderInv_createLogicalNode (b : DagBuilder) (op : LogicalOp)
    (h : builderInv b) : builderInv (b.createLogicalNode op).1 := by
  obtain ⟨hnext, hids⟩ := h
  refine ⟨by simp [DagBuilder.createLogicalNode, hnext], ?_⟩
  simp only [DagBuilder.createLogicalNode]
  exact denseIds_append b.nodes _ (by simp [NewDagNode, hnext]) hids

/-- `createResultNode` preserves the density invariant. -/
theorem builderInv_createResultNode (b : DagBuilder) (rid : Nat)
    (h : builderInv b) : builderInv (b.createResultNode rid).1 := by
  obtain ⟨hnext, hids⟩ := h
  refine ⟨by simp [DagBuilder.createResultNode, hnext], ?_⟩
  simp only [DagBuilder.createResultNode]
  exact denseIds_append b.nodes _ (by simp [NewDagNode, hnext]) hids

/-- `createPrefilterNode` preserves the density invariant. -/
theorem builderInv_createPrefilterNode (b : DagBuilder) (pc : Nat)
    (h : builderInv b) : builderInv (b.createPrefilterNode pc).1 := by
  obtain ⟨hnext, hids⟩ := h
  refine ⟨by simp [DagBuilder.createPrefilterNode, hnext], ?_⟩
  simp only [DagBuilder.createPrefilterNode]
  exact denseIds_append b.nodes _ (by simp [NewDagNode, hnext]) hids

/-- `FromRuleset` preserves the density invariant. -/
theorem builderInv_fromRuleset (b : DagBuilder) (rs : CompiledRuleset)
    (h : builderInv b) : builderInv (b.FromRuleset rs) := by
  unfold DagBuilder.FromRuleset
  induction rs.primitiveMap generalizing b with
  | nil => exact h
  | cons kv rest ih =>
    simp only [List.foldl_cons]
    have h2 := builderInv_createPrimitiveNode b kv.2 h
    cases hc : b.createPrimitiveNode kv.2 with
    | mk b2 nodeId =>
      rw [hc] at h2
      exact ih { b2 with primitiveNodes := mapSet b2.primitiveNodes kv.2 nodeId } h2

/-- `FromPrimitives` preserves the density invariant. -/
theorem builderInv_fromPrimitives (b : DagBuilder) (ps : List Primitive)
    (h : builderInv b) : builderInv (b.FromPrimitives ps) := by
  unfold DagBuilder.FromPrimitives
  generalize List.range ps.length = idxs
  induction idxs generalizing b with
  | nil => exact h
  | cons i rest ih =>
    simp only [List.foldl_cons]
    have h2 := builderInv_createPrimitiveNode b i h
    cases hc : b.createPrimitiveNode i with
    | mk b2 nodeId =>
      rw [hc] at h2
      exact ih { b2 with primitiveNodes := mapSet b2.primitiveNodes i nodeId } h2

/-- The maximum-ID fold of `updateFromOptimizedDag` over a dense,
nonempty node list yields `length - 1`. -/
theorem foldl_max_dense : ∀ (l : List DagNode) (k acc : Nat),
    (∀ i, i < l.length →
      ((l.getD i (NewDagNode 0 (NewPrimitiveNodeType 0))).id = k + i)) →
    acc ≤ k → l ≠ [] →
    l.foldl (fun m node => if m < node.id then node.id else m) acc =
      k + l.length - 1 := by
  intro l
  induction l with
  | nil => intro k acc _ _ hne; exact absurd rfl hne
  | cons x rest ih =>
    intro k acc hids hacc _
    have hx : x.id = k := by
      have := hids 0 (by simp)
      simpa using this
    have hacc2 : (if acc < x.id then x.id else acc) = k := by
      rw [hx]
      by_cases hc : acc < k <;> simp [hc] <;> omega
    simp only [List.foldl_cons, hacc2]
    cases hrest : rest with
    | nil =>
      simp only [List.foldl_nil, List.length_cons, List.length_nil]
      omega
    | cons y rest2 =>
      rw [← hrest]
      have hids2 : ∀ i, i < rest.length →
          ((rest.getD i (NewDagNode 0 (NewPrimitiveNodeType 0))).id = (k + 1) + i) := by
        intro i hi
        have := hids (i + 1) (by simp; omega)
        simp only [List.getD_cons_succ] at this
        omega
      have hne2 : rest ≠ [] := by rw [hrest]; simp
      rw [ih (k + 1) k hids2 (by omega) hne2]
      simp [hrest]
      omega

/-- `DagBuilder.Optimize` preserves the density invariant whenever the
builder holds at least one node (the empty case is exactly the C10
counterexample). -/
theorem builderInv_optimize_nonempty (b : DagBuilder)
    (h : builderInv b) (hne : b.nodes ≠ []) : builderInv b.Optimize := by
  unfold DagBuilder.Optimize
  by_cases hopt : b.enableOptimization
  · simp only [hopt, if_true]
    unfold DagBuilder.performOptimizations
    cases ht : b.buildTemporaryDag with
    | error e => exact h
    | ok dag =>
      unfold DagBuilder.applyDagOptimizations
      simp only []
      have hdag : dag.nodes = b.nodes := by
        unfold DagBuilder.buildTemporaryDag at ht
        cases h1 : b.topologicalSort with
        | error e => rw [h1] at ht; simp at ht
        | ok order =>
          rw [h1] at ht
          cases h2 : b.validateDagStructure with
          | error e => rw [h2] at ht; simp at ht
          | ok u =>
            rw [h2] at ht
            simp at ht
            rw [← ht]
      unfold DagBuilder.updateFromOptimizedDag
      have hmax : dag.nodes.foldl
          (fun m node => if m < node.id then node.id else m) 0 =
          dag.nodes.length - 1 := by
        have := foldl_max_dense dag.nodes 0 0
          (by rw [hdag]; intro i hi; simpa using h.2 i hi)
          (Nat.le_refl 0) (by rw [hdag]; exact hne)
        simpa using this
      constructor
      · show (dag.nodes.foldl (fun m node => if m < node.id then node.id else m) 0) + 1
          = dag.nodes.length
        rw [hmax]
        have h0 : dag.nodes.length ≠ 0 := by
          rw [hdag]
          exact fun hz => hne (List.length_eq_zero.mp hz)
        omega
      · intro i hi
        simp only [hdag] at hi ⊢
        exact h.2 i hi
  · simp only [hopt, if_false]
    exact h

/-- C10 (amended): Build from any builder satisfying the density
invariant (`nextNodeId = |nodes|` with IDs assigned in append order,
which every builder operation preserves except `Optimize` on an empty
optimizing builder) yields a DAG storing node `i` at index `i`, with
`GetNode id` returning the node whose ID field is `id`, or none when
`id` is out of range. -/
theorem c10_build_dense_ids (b : DagBuilder) (dag : CompiledDag)
    (hinv : builderInv b) (hbuild : b.Build = Except.ok dag) :
    (∀ i, i < dag.nodes.length →
      ((dag.nodes.getD i (NewDagNode 0 (NewPrimitiveNodeType 0))).id = i)) ∧
    (∀ id, id < dag.nodes.length →
      (dag.GetNode id).map DagNode.id = some id) ∧
    (∀ id, dag.nodes.length ≤ id → dag.GetNode id = none) := by
  have hdag : dag.nodes = b.nodes := by
    simp only [DagBuilder.Build] at hbuild
    split at hbuild
    · simp at hbuild
    · split at hbuild
      · simp at hbuild
      · split at hbuild
        · simp at hbuild
        · simp only [Except.ok.injEq] at hbuild
          rw [← hbuild]
  refine ⟨?_, ?_, ?_⟩
  · intro i hi
    rw [hdag] at hi ⊢
    exact hinv.2 i hi
  · intro id hid
    rw [hdag] at hid
    simp only [CompiledDag.GetNode, hdag]
    rw [List.get?_eq_get hid]
    simp only [Option.map_some']
    rw [builderInv_get b hinv id hid]
  · intro id hid
    rw [hdag] at hid
    simp only [CompiledDag.GetNode, hdag]
    exact List.get?_eq_none.mpr hid

/-- Witness for C10: the single-primitive builder (invariant intact)
builds a DAG with node 0 at index 0 and the documented GetNode
behaviour. -/
theorem c10_build_dense_ids_witness :
    (∀ i, i < c10WitnessDagOk.nodes.length →
      ((c10WitnessDagOk.nodes.getD i (NewDagNode 0 (NewPrimitiveNodeType 0))).id = i)) ∧
    (∀ id, id < c10WitnessDagOk.nodes.length →
      (c10WitnessDagOk.GetNode id).map DagNode.id = some id) ∧
    (∀ id, c10WitnessDagOk.nodes.length ≤ id → c10WitnessDagOk.GetNode id = none) :=
  c10_build_dense_ids c10WitnessBuilder c10WitnessDagOk
    (by unfold builderInv; exact ⟨by decide, by decide⟩) rfl

end SigmaGo

namespace SigmaGo

/-- C9: `Optimize` works exclusively on the deep copy produced by
`copyDag`, and that copy is value-equal to the input: the rebuilt nodes
(field by field, with fresh dependency and dependent slices), the
copied execution order, and the re-inserted map entries reconstruct the
input DAG exactly (Go maps always have distinct keys, the
`mapNodupKeys` hypotheses).  Every write the passes perform targets the
structure this copy returns — cached-result folds rebind freshly
allocated cells and never write through a shared pointer — so the input
DAG is unchanged by `Optimize`. -/
theorem c9_optimize_runs_on_deep_copy (opt : DagOptimizer) (dag : CompiledDag)
    (h1 : mapNodupKeys dag.primitiveMap) (h2 : mapNodupKeys dag.ruleResults) :
    copyDag dag = dag ∧ Optimize opt dag = optimizePasses opt (copyDag dag) := by
  constructor
  · have hmapid : dag.nodes.map (fun node : DagNode =>
        ({ id := node.id, nodeType := node.nodeType,
           dependencies := node.dependencies, dependents := node.dependents,
           cachedResult := node.cachedResult } : DagNode)) = dag.nodes :=
      List.map_id' dag.nodes
    unfold copyDag
    rw [hmapid,
        foldl_mapSet_rebuild dag.primitiveMap [] h1 (fun kv _ => rfl),
        foldl_mapSet_rebuild dag.ruleResults [] h2 (fun kv _ => rfl)]
    simp only [List.nil_append]
  · rfl

/-- Witness for C9 on the concrete `witnessDag`. -/
theorem c9_optimize_runs_on_deep_copy_witness :
    copyDag witnessDag = witnessDag ∧
    Optimize NewDagOptimizer witnessDag =
      optimizePasses NewDagOptimizer (copyDag witnessDag) :=
  c9_optimize_runs_on_deep_copy NewDagOptimizer witnessDag
    (by unfold mapNodupKeys; decide) (by unfold mapNodupKeys; decide)

end SigmaGo

namespace SigmaGo

/-- Pointwise-equal predicates give equal filters. -/
theorem list_filter_congr {α : Type} (l : List α) (f g : α → Bool)
    (h : ∀ x ∈ l, f x = g x) : l.filter f = l.filter g := by
  induction l with
  | nil => rfl
  | cons x rest ih =>
    simp only [List.filter_cons]
    rw [h x (List.mem_cons_self x rest),
        ih (fun y hy => h y (List.mem_cons_of_mem x hy))]

/-- A found node never makes `evaluateNode` fail. -/
theorem evaluateNode_ok (dag : CompiledDag) (st : EvalState) (id : Nat)
    (node : DagNode) (hget : dag.GetNode id = some node) :
    ∃ v, evaluateNode dag st id = Except.ok v := by
  unfold evaluateNode
  rw [hget]
  by_cases h1 : node.nodeType.typ = "Primitive"
  · simp only [h1, if_pos rfl]
    cases node.nodeType.primitiveId <;> exact ⟨_, rfl⟩
  · simp only [if_neg h1]
    by_cases h2 : node.nodeType.typ = "Logical"
    · simp only [h2, if_pos rfl]
      cases node.nodeType.operation <;> exact ⟨_, rfl⟩
    · simp only [if_neg h2]
      by_cases h3 : node.nodeType.typ = "Result"
      · simp only [h3, if_pos rfl]
        match node.dependencies with
        | [] => exact ⟨_, rfl⟩
        | [d] => exact ⟨_, rfl⟩
        | d1 :: d2 :: rest => exact ⟨_, rfl⟩
      · simp only [if_neg h3]
        by_cases h4 : node.nodeType.typ = "Prefilter" <;> simp [h4] <;> exact ⟨_, rfl⟩

/-- The per-node agreement of the sparse and dense evaluators: when
every dependency of the node has been recorded consistently in the
sparse map and the dense buffer, both evaluators compute the same
value.  The sparse evaluator reads only `nodeResults` and the dense one
only `fastResults`, so the other component of each state is
arbitrary. -/
theorem evaluateNode_fast_agree (dag : CompiledDag) (nr : List (Nat × Bool))
    (fr : List Bool) (frA : List Bool) (nrA : List (Nat × Bool)) (id : Nat)
    (node : DagNode) (hget : dag.GetNode id = some node)
    (hlen : fr.length = dag.nodes.length)
    (hdeps : ∀ d ∈ node.dependencies,
      d < dag.nodes.length ∧ mapLookup nr d = some (fr.getD d false)) :
    evaluateNode dag ⟨nr, frA⟩ id = evaluateNodeFast dag ⟨nrA, fr⟩ id := by
  unfold evaluateNode evaluateNodeFast
  rw [hget]
  by_cases h1 : node.nodeType.typ = "Primitive"
  · simp [h1]
  · simp only [if_neg h1]
    by_cases h2 : node.nodeType.typ = "Logical"
    · simp only [h2, if_pos rfl]
      cases hop : node.nodeType.operation with
      | none => rfl
      | some op =>
        have hagree : evaluateLogicalOperation ⟨nr, frA⟩ op node.dependencies =
            evaluateLogicalOperationFast ⟨nrA, fr⟩ op node.dependencies := by
          cases op with
          | logicalAnd =>
            unfold evaluateLogicalOperation evaluateLogicalOperationFast
            have hany : node.dependencies.any
                (fun d => decide ((mapLookup nr d).getD false = false)) =
                node.dependencies.any
                (fun d => decide (fr.length ≤ d ∨ fr.getD d false = false)) := by
              refine list_any_congr _ _ _ (fun d hd => ?_)
              obtain ⟨hdlt, hdl⟩ := hdeps d hd
              have hnle : ¬ fr.length ≤ d := by omega
              simp [hdl, hnle]
            simp only []
            rw [hany]
          | logicalOr =>
            unfold evaluateLogicalOperation evaluateLogicalOperationFast
            have hany : node.dependencies.any
                (fun d => decide ((mapLookup nr d).getD false = true)) =
                node.dependencies.any
                (fun d => decide (d < fr.length ∧ fr.getD d false = true)) := by
              refine list_any_congr _ _ _ (fun d hd => ?_)
              obtain ⟨hdlt, hdl⟩ := hdeps d hd
              have hlt : d < fr.length := by omega
              simp [hdl, hlt]
            simp only []
            rw [hany]
          | logicalNot =>
            unfold evaluateLogicalOperation evaluateLogicalOperationFast
            match hdl : node.dependencies with
            | [] => rfl
            | [d] =>
              obtain ⟨hdlt, hdlk⟩ := hdeps d (by rw [hdl]; exact List.mem_cons_self d [])
              have hlt : d < fr.length := by omega
              simp [hdlk, hlt]
            | d1 :: d2 :: rest => rfl
        simp [hagree]
    · simp only [if_neg h2]
      by_cases h3 : node.nodeType.typ = "Result"
      · simp only [h3, if_pos rfl]
        match hdl : node.dependencies with
        | [] => rfl
        | [d] =>
          obtain ⟨hdlt, hdlk⟩ := hdeps d (by rw [hdl]; exact List.mem_cons_self d [])
          have hlt : d < fr.length := by omega
          simp [hdlk, hlt]
        | d1 :: d2 :: rest => rfl
      · simp only [if_neg h3]

end SigmaGo

namespace SigmaGo

/-- The loop equivalence of the two evaluation paths: starting from
synchronised result stores, either both loops fail with the same error,
or both succeed with stores that remain synchronised on the processed
nodes.  The unused store component of each loop (`frA`, `nrA`) is
arbitrary and preserved. -/
theorem runNodes_equiv (dag : CompiledDag) :
    ∀ (rest processed : List Nat) (nr : List (Nat × Bool)) (fr : List Bool)
      (frA : List Bool) (nrA : List (Nat × Bool)),
    fr.length = dag.nodes.length →
    (∀ k, k ∈ processed → k < dag.nodes.length) →
    (∀ k, k < dag.nodes.length → k ∈ processed →
        mapLookup nr k = some (fr.getD k false)) →
    (∀ k, ¬ k ∈ processed → mapLookup nr k = none) →
    (∀ k, k < dag.nodes.length → ¬ k ∈ processed → fr.getD k false = false) →
    (∀ i, i < rest.length → ∀ d ∈ nodeDepsAt dag (rest.getD i 0),
        d ∈ processed ∨ d ∈ rest.take i) →
    (∃ e, runStandardNodes dag rest ⟨nr, frA⟩ = Except.error e ∧
          runFastNodes dag rest ⟨nrA, fr⟩ = Except.error e) ∨
    (∃ nr2 fr2,
        runStandardNodes dag rest ⟨nr, frA⟩ = Except.ok ⟨nr2, frA⟩ ∧
        runFastNodes dag rest ⟨nrA, fr⟩ = Except.ok ⟨nrA, fr2⟩ ∧
        fr2.length = dag.nodes.length ∧
        (∀ k, k ∈ processed ++ rest → k < dag.nodes.length) ∧
        (∀ k, k < dag.nodes.length → k ∈ processed ++ rest →
            mapLookup nr2 k = some (fr2.getD k false)) ∧
        (∀ k, ¬ k ∈ processed ++ rest → mapLookup nr2 k = none) ∧
        (∀ k, k < dag.nodes.length → ¬ k ∈ processed ++ rest →
            fr2.getD k false = false)) := by
  intro rest
  induction rest with
  | nil =>
    intro processed nr fr frA nrA hlen hproc hsync hnone hfr _
    right
    refine ⟨nr, fr, rfl, rfl, hlen, ?_, ?_, ?_, ?_⟩ <;>
      simp only [List.append_nil]
    · exact hproc
    · exact hsync
    · exact hnone
    · exact hfr
  | cons id rest' ih =>
    intro processed nr fr frA nrA hlen hproc hsync hnone hfr hsched
    cases hget : dag.GetNode id with
    | none =>
      left
      refine ⟨"Node not found", ?_, ?_⟩ <;>
        simp [runStandardNodes, runFastNodes, evaluateNode, evaluateNodeFast,
          hget]
    | some node =>
      have hidlt : id < dag.nodes.length := by
        by_contra hc
        rw [CompiledDag.GetNode, List.get?_eq_none.mpr (by omega)] at hget
        exact Option.noConfusion hget
      have hdeps : ∀ d ∈ node.dependencies, d ∈ processed := by
        have h0 := hsched 0 (by simp)
        simp only [List.getD_cons_zero, nodeDepsAt, hget, Option.map_some',
          Option.getD_some, List.take_zero, List.not_mem_nil, or_false] at h0
        exact h0
      have hdeps2 : ∀ d ∈ node.dependencies,
          d < dag.nodes.length ∧ mapLookup nr d = some (fr.getD d false) := by
        intro d hd
        have hdp := hdeps d hd
        have hdlt := hproc d hdp
        exact ⟨hdlt, hsync d hdlt hdp⟩
      obtain ⟨v, hv⟩ := evaluateNode_ok dag ⟨nr, frA⟩ id node hget
      have hvfast : evaluateNodeFast dag ⟨nrA, fr⟩ id = Except.ok v := by
        rw [← evaluateNode_fast_agree dag nr fr frA nrA id node hget hlen hdeps2]
        exact hv
      have hstd : runStandardNodes dag (id :: rest') ⟨nr, frA⟩ =
          runStandardNodes dag rest' ⟨mapSet nr id v, frA⟩ := by
        simp [runStandardNodes, hv]
      have hfst : runFastNodes dag (id :: rest') ⟨nrA, fr⟩ =
          runFastNodes dag rest' ⟨nrA, fr.set id v⟩ := by
        simp [runFastNodes, hvfast]
      have hlen2 : (fr.set id v).length = dag.nodes.length := by
        simp [hlen]
      have hproc2 : ∀ k, k ∈ processed ++ [id] → k < dag.nodes.length := by
        intro k hk
        rcases List.mem_append.mp hk with hk2 | hk2
        · exact hproc k hk2
        · simp at hk2; omega
      have hsync2 : ∀ k, k < dag.nodes.length → k ∈ processed ++ [id] →
          mapLookup (mapSet nr id v) k = some ((fr.set id v).getD k false) := by
        intro k hklt hk
        rw [mapLookup_mapSet, list_getD_set]
        by_cases hik : id = k
        · subst hik
          have : id < fr.length := by omega
          simp [this]
        · have hnc : ¬ (id = k ∧ id < fr.length) := fun hc => hik hc.1
          rw [if_neg hik, if_neg hnc]
          rcases List.mem_append.mp hk with hk2 | hk2
          · exact hsync k hklt hk2
          · simp at hk2; exact absurd hk2.symm hik
      have hnone2 : ∀ k, ¬ k ∈ processed ++ [id] →
          mapLookup (mapSet nr id v) k = none := by
        intro k hk
        have hne : id ≠ k := by
          intro he; subst he; exact hk (List.mem_append_right _ (by simp))
        have hnp : ¬ k ∈ processed := fun hc => hk (List.mem_append_left _ hc)
        rw [mapLookup_mapSet, if_neg hne]
        exact hnone k hnp
      have hfr2 : ∀ k, k < dag.nodes.length → ¬ k ∈ processed ++ [id] →
          (fr.set id v).getD k false = false := by
        intro k hklt hk
        have hne : id ≠ k := by
          intro he; subst he; exact hk (List.mem_append_right _ (by simp))
        have hnp : ¬ k ∈ processed := fun hc => hk (List.mem_append_left _ hc)
        have hnc : ¬ (id = k ∧ id < fr.length) := fun hc => hne hc.1
        rw [list_getD_set, if_neg hnc]
        exact hfr k hklt hnp
      have hsched2 : ∀ i, i < rest'.length →
          ∀ d ∈ nodeDepsAt dag (rest'.getD i 0), d ∈ processed ++ [id] ∨
            d ∈ rest'.take i := by
        intro i hi d hd
        have := hsched (i + 1) (by simp; omega)
        simp only [List.getD_cons_succ] at this
        rcases this d hd with hcase | hcase
        · exact Or.inl (List.mem_append_left _ hcase)
        · rw [List.take_succ_cons] at hcase
          rcases List.mem_cons.mp hcase with he | hm
          · exact Or.inl (List.mem_append_right _ (by simp [he]))
          · exact Or.inr hm
      have hrec := ih (processed ++ [id]) (mapSet nr id v) (fr.set id v) frA nrA
        hlen2 hproc2 hsync2 hnone2 hfr2 hsched2
      rcases hrec with ⟨e, he1, he2⟩ | ⟨nr2, fr2, hs1, hs2, hl2, hp2, hy2, hn2, hf2⟩
      · left
        exact ⟨e, by rw [hstd]; exact he1, by rw [hfst]; exact he2⟩
      · right
        have heq : processed ++ id :: rest' = (processed ++ [id]) ++ rest' := by
          rw [List.append_cons]
        rw [heq]
        exact ⟨nr2, fr2, by rw [hstd]; exact hs1, by rw [hfst]; exact hs2, hl2,
          hp2, hy2, hn2, hf2⟩

end SigmaGo

namespace SigmaGo

/-- C3 (confirmed for every DAG whose execution order respects
dependencies, specification invariant 3): the fast dense path and the
standard sparse path of the evaluator return identical matched-rule
lists — both fail with the same error, or both succeed with the same
rules, for every `CompiledDag` whose execution order schedules each
node's dependencies before the node. -/
theorem c3_fast_and_standard_paths_agree (dag : CompiledDag)
    (hsched : depsScheduledBefore dag) :
    evaluateFastPath dag = evaluateStandardPath dag := by
  have hmain := runNodes_equiv dag dag.executionOrder [] []
    (List.replicate dag.nodes.length false) (List.replicate dag.nodes.length false) []
    (by simp)
    (by intro k hk; exact absurd hk (List.not_mem_nil k))
    (by intro k _ hk; exact absurd hk (List.not_mem_nil k))
    (by intro k _; rfl)
    (by intro k _ _; simp)
    (by
      intro i hi d hd
      exact Or.inr (hsched i hi d hd))
  rcases hmain with ⟨e, he1, he2⟩ | ⟨nr2, fr2, hs1, hs2, hl2, hp2, hy2, hn2, hf2⟩
  · rw [evaluateFastPath, evaluateStandardPath, resetState]
    rw [he1, he2]
  · rw [evaluateFastPath, evaluateStandardPath, resetState]
    rw [hs1, hs2]
    simp only [Except.ok.injEq]
    congr 1
    apply list_filter_congr
    intro rr _
    simp only [List.nil_append] at hp2 hy2 hn2 hf2
    by_cases hmem : rr.2 ∈ dag.executionOrder
    · have hlt := hp2 rr.2 hmem
      have hsy := hy2 rr.2 hlt hmem
      have hltf : rr.2 < fr2.length := by omega
      simp [hsy, hltf]
    · have hn := hn2 rr.2 hmem
      simp only [hn, Option.getD_none]
      by_cases hlt : rr.2 < dag.nodes.length
      · have := hf2 rr.2 hlt hmem
        simp only [List.getD_eq_getElem?_getD] at this
        simp [this]
      · have : ¬ rr.2 < fr2.length := by omega
        simp [this]

end SigmaGo

namespace SigmaGo

/-- Witness for C3: the six-node two-rule DAG `witnessDag` satisfies the
scheduling hypothesis, and on it the two paths agree. -/
theorem c3_fast_and_standard_paths_agree_witness :
    depsScheduledBefore witnessDag ∧
    evaluateFastPath witnessDag = evaluateStandardPath witnessDag := by
  have h : depsScheduledBefore witnessDag := by
    unfold depsScheduledBefore nodeDepsAt CompiledDag.GetNode
    decide
  exact ⟨h, c3_fast_and_standard_paths_agree witnessDag h⟩

end SigmaGo

namespace SigmaGo

/-- The condition parser only consumes tokens from the front: on
success, the remaining token list is a suffix of the input, for every
function of the mutual recursion at every fuel. -/
theorem condParse_suffix (m : List (String × List Nat)) : ∀ fuel : Nat,
    (∀ ts a ts2, condParsePrimary m fuel ts = Except.ok (a, ts2) → ts2 <:+ ts) ∧
    (∀ ts a ts2, condParseNot m fuel ts = Except.ok (a, ts2) → ts2 <:+ ts) ∧
    (∀ left ts a ts2, condParseAndLoop m fuel left ts = Except.ok (a, ts2) → ts2 <:+ ts) ∧
    (∀ ts a ts2, condParseAnd m fuel ts = Except.ok (a, ts2) → ts2 <:+ ts) ∧
    (∀ left ts a ts2, condParseOrLoop m fuel left ts = Except.ok (a, ts2) → ts2 <:+ ts) ∧
    (∀ ts a ts2, condParseOr m fuel ts = Except.ok (a, ts2) → ts2 <:+ ts) := by
  intro fuel
  induction fuel with
  | zero =>
    refine ⟨?_, ?_, ?_, ?_, ?_, ?_⟩
    · intro ts a ts2 h; simp [condParsePrimary] at h
    · intro ts a ts2 h; simp [condParseNot] at h
    · intro left ts a ts2 h; simp [condParseAndLoop] at h
    · intro ts a ts2 h; simp [condParseAnd] at h
    · intro left ts a ts2 h; simp [condParseOrLoop] at h
    · intro ts a ts2 h; simp [condParseOr] at h
  | succ fuel ih =>
    obtain ⟨ihP, ihN, ihAL, ihA, ihOL, ihO⟩ := ih
    refine ⟨?_, ?_, ?_, ?_, ?_, ?_⟩
    · intro ts a ts2 h
      cases ts with
      | nil => simp [condParsePrimary] at h
      | cons token rest =>
        obtain ⟨tt, tv, tn⟩ := token
        simp only [condParsePrimary] at h
        split at h
        · cases ho : condParseOr m fuel rest with
          | error e => rw [ho] at h; cases h
          | ok pr =>
            obtain ⟨expr, rem⟩ := pr
            rw [ho] at h
            cases rem with
            | nil => simp at h
            | cons t ts3 =>
              obtain ⟨tt2, tv2, tn2⟩ := t
              cases tt2 <;> simp at h
              obtain ⟨-, hts⟩ := h
              subst hts
              have h1 := ihO rest expr
                ({ typ := Token2.tRightParen, value := tv2, number := tn2 } :: ts3) ho
              exact ((List.suffix_cons _ _).trans h1).trans (List.suffix_cons _ _)
        · split at h
          · simp only [Except.ok.injEq, Prod.mk.injEq] at h
            obtain ⟨-, hts⟩ := h
            subst hts
            exact List.suffix_cons _ _
          · cases h
        · split at h
          · split at h
            · cases h
            · split at h
              · split at h
                · simp only [Except.ok.injEq, Prod.mk.injEq] at h
                  obtain ⟨-, hts⟩ := h
                  subst hts
                  exact ((List.suffix_cons _ _).trans
                    (List.suffix_cons _ _)).trans (List.suffix_cons _ _)
                · cases h
              · simp only [Except.ok.injEq, Prod.mk.injEq] at h
                obtain ⟨-, hts⟩ := h
                subst hts
                exact ((List.suffix_cons _ _).trans
                  (List.suffix_cons _ _)).trans (List.suffix_cons _ _)
              · cases h
          · cases h
        · split at h
          · split at h
            · cases h
            · split at h
              · simp only [Except.ok.injEq, Prod.mk.injEq] at h
                obtain ⟨-, hts⟩ := h
                subst hts
                exact ((List.suffix_cons _ _).trans
                  (List.suffix_cons _ _)).trans (List.suffix_cons _ _)
              · simp only [Except.ok.injEq, Prod.mk.injEq] at h
                obtain ⟨-, hts⟩ := h
                subst hts
                exact ((List.suffix_cons _ _).trans
                  (List.suffix_cons _ _)).trans (List.suffix_cons _ _)
              · cases h
          · cases h
        · cases h
    · intro ts a ts2 h
      simp only [condParseNot] at h
      split at h
      · rename_i v n rest
        cases hp : condParsePrimary m fuel rest with
        | error e => rw [hp] at h; cases h
        | ok pr =>
          obtain ⟨operand, ts3⟩ := pr
          rw [hp] at h
          simp only [Except.ok.injEq, Prod.mk.injEq] at h
          obtain ⟨-, hts⟩ := h
          subst hts
          exact (ihP rest operand ts3 hp).trans (List.suffix_cons _ _)
      · exact ihP ts a ts2 h
    · intro left ts a ts2 h
      simp only [condParseAndLoop] at h
      split at h
      · rename_i v n rest
        cases hn : condParseNot m fuel rest with
        | error e => rw [hn] at h; cases h
        | ok pr =>
          obtain ⟨right, ts3⟩ := pr
          rw [hn] at h
          have h1 := ihAL (ConditionAst.andC left right) ts3 a ts2 h
          have h2 := ihN rest right ts3 hn
          exact (h1.trans h2).trans (List.suffix_cons _ _)
      · simp only [Except.ok.injEq, Prod.mk.injEq] at h
        obtain ⟨-, hts⟩ := h
        subst hts
        exact List.suffix_refl ts
    · intro ts a ts2 h
      simp only [condParseAnd] at h
      cases hn : condParseNot m fuel ts with
      | error e => rw [hn] at h; cases h
      | ok pr =>
        obtain ⟨left, ts3⟩ := pr
        rw [hn] at h
        exact (ihAL left ts3 a ts2 h).trans (ihN ts left ts3 hn)
    · intro left ts a ts2 h
      simp only [condParseOrLoop] at h
      split at h
      · rename_i v n rest
        cases hn : condParseAnd m fuel rest with
        | error e => rw [hn] at h; cases h
        | ok pr =>
          obtain ⟨right, ts3⟩ := pr
          rw [hn] at h
          have h1 := ihOL (ConditionAst.orC left right) ts3 a ts2 h
          have h2 := ihA rest right ts3 hn
          exact (h1.trans h2).trans (List.suffix_cons _ _)
      · simp only [Except.ok.injEq, Prod.mk.injEq] at h
        obtain ⟨-, hts⟩ := h
        subst hts
        exact List.suffix_refl ts
    · intro ts a ts2 h
      simp only [condParseOr] at h
      cases hn : condParseAnd m fuel ts with
      | error e => rw [hn] at h; cases h
      | ok pr =>
        obtain ⟨left, ts3⟩ := pr
        rw [hn] at h
        exact (ihOL left ts3 a ts2 h).trans (ihA ts left ts3 hn)

end SigmaGo

namespace SigmaGo

/-- A successful primary parse of a stream opening with a left
parenthesis exhibits a closing parenthesis among the following
tokens. -/
theorem condParsePrimary_lparen_rparen (m : List (String × List Nat)) :
    ∀ (fuel : Nat) (tok : TokenValue) (ts : List TokenValue) a ts2,
    tok.typ = Token2.tLeftParen →
    condParsePrimary m fuel (tok :: ts) = Except.ok (a, ts2) →
    ∃ t ∈ ts, t.typ = Token2.tRightParen := by
  intro fuel tok ts a ts2 htok h
  cases fuel with
  | zero => simp [condParsePrimary] at h
  | succ fuel =>
    obtain ⟨tt, tv, tn⟩ := tok
    simp only [TokenValue.typ] at htok
    subst htok
    simp only [condParsePrimary] at h
    cases ho : condParseOr m fuel ts with
    | error e => rw [ho] at h; cases h
    | ok pr =>
      obtain ⟨expr, rem⟩ := pr
      rw [ho] at h
      cases rem with
      | nil => simp at h
      | cons t ts3 =>
        obtain ⟨tt2, tv2, tn2⟩ := t
        cases tt2 <;> simp at h
        have hsuf := ((condParse_suffix m fuel).2.2.2.2.2) ts expr
          ({ typ := Token2.tRightParen, value := tv2, number := tn2 } :: ts3) ho
        exact ⟨{ typ := Token2.tRightParen, value := tv2, number := tn2 },
          hsuf.subset (List.mem_cons_self _ _), rfl⟩

/-- The same property lifted through `parseNotExpression`. -/
theorem condParseNot_lparen_rparen (m : List (String × List Nat)) :
    ∀ (fuel : Nat) (tok : TokenValue) (ts : List TokenValue) a ts2,
    tok.typ = Token2.tLeftParen →
    condParseNot m fuel (tok :: ts) = Except.ok (a, ts2) →
    ∃ t ∈ ts, t.typ = Token2.tRightParen := by
  intro fuel tok ts a ts2 htok h
  cases fuel with
  | zero => simp [condParseNot] at h
  | succ fuel =>
    obtain ⟨tt, tv, tn⟩ := tok
    simp only [TokenValue.typ] at htok
    subst htok
    simp only [condParseNot] at h
    exact condParsePrimary_lparen_rparen m fuel _ ts a ts2 rfl h

/-- The same property lifted through `parseAndExpression`. -/
theorem condParseAnd_lparen_rparen (m : List (String × List Nat)) :
    ∀ (fuel : Nat) (tok : TokenValue) (ts : List TokenValue) a ts2,
    tok.typ = Token2.tLeftParen →
    condParseAnd m fuel (tok :: ts) = Except.ok (a, ts2) →
    ∃ t ∈ ts, t.typ = Token2.tRightParen := by
  intro fuel tok ts a ts2 htok h
  cases fuel with
  | zero => simp [condParseAnd] at h
  | succ fuel =>
    simp only [condParseAnd] at h
    cases hn : condParseNot m fuel (tok :: ts) with
    | error e => rw [hn] at h; cases h
    | ok pr =>
      obtain ⟨left, ts3⟩ := pr
      exact condParseNot_lparen_rparen m fuel tok ts left ts3 htok hn

/-- The same property lifted through `ParseOrExpression`. -/
theorem condParseOr_lparen_rparen (m : List (String × List Nat)) :
    ∀ (fuel : Nat) (tok : TokenValue) (ts : List TokenValue) a ts2,
    tok.typ = Token2.tLeftParen →
    condParseOr m fuel (tok :: ts) = Except.ok (a, ts2) →
    ∃ t ∈ ts, t.typ = Token2.tRightParen := by
  intro fuel tok ts a ts2 htok h
  cases fuel with
  | zero => simp [condParseOr] at h
  | succ fuel =>
    simp only [condParseOr] at h
    cases hn : condParseAnd m fuel (tok :: ts) with
    | error e => rw [hn] at h; cases h
    | ok pr =>
      obtain ⟨left, ts3⟩ := pr
      exact condParseAnd_lparen_rparen m fuel tok ts left ts3 htok hn

/-- C8 (amended): `ParseTokens` rejects the empty token stream with an
error, and a successful parse of a stream opening with a left
parenthesis requires a right parenthesis among the remaining tokens (an
unbalanced opening parenthesis is rejected); the trailing-token check
of the original claim is refuted by `c8_trailing_tokens_accepted`. -/
theorem c8_empty_and_unclosed_paren_rejected :
    (∀ m, ParseTokens [] m = Except.error "empty condition") ∧
    (∀ m (tok : TokenValue) ts ast, tok.typ = Token2.tLeftParen →
      ParseTokens (tok :: ts) m = Except.ok ast →
      ∃ t ∈ ts, t.typ = Token2.tRightParen) := by
  constructor
  · intro m
    rfl
  · intro m tok ts ast htok h
    simp only [ParseTokens, List.isEmpty_cons, Bool.false_eq_true, if_false] at h
    cases ho : condParseOr m (16 * (tok :: ts).length + 16) (tok :: ts) with
    | error e => rw [ho] at h; cases h
    | ok pr =>
      obtain ⟨ast2, rem⟩ := pr
      exact condParseOr_lparen_rparen m _ tok ts ast2 rem htok ho

/-- Witness for C8: the empty stream errors, and the parse of
( sel ) exhibits the closing parenthesis. -/
theorem c8_empty_and_unclosed_paren_rejected_witness :
    ParseTokens [] [("sel", [0])] = Except.error "empty condition" ∧
    (∃ t ∈ [{ typ := Token2.tIdentifier, value := "sel" },
            ({ typ := Token2.tRightParen } : TokenValue)],
      t.typ = Token2.tRightParen) :=
  ⟨c8_empty_and_unclosed_paren_rejected.1 [("sel", [0])],
   c8_empty_and_unclosed_paren_rejected.2 [("sel", [0])]
     { typ := Token2.tLeftParen }
     [{ typ := Token2.tIdentifier, value := "sel" },
      { typ := Token2.tRightParen }]
     (ConditionAst.identifier "sel") rfl (by rfl)⟩

end SigmaGo

namespace SigmaGo

/-- Character equality is code-point equality. -/
theorem char_eq_iff_vnat (c d : Char) : (c = d) ↔ cvn c = cvn d := by
  constructor
  · intro h; subst h; rfl
  · intro h
    apply Char.ext
    have h2 : c.val.toBitVec = d.val.toBitVec := BitVec.eq_of_toNat_eq h
    cases hv : c.val with
    | mk bv =>
      rw [hv] at h2
      exact congrArg UInt32.mk h2

/-- `isLetter` in code points. -/
theorem lexIsLetter_iff (c : Char) : lexIsLetter c = true ↔
    (97 ≤ cvn c ∧ cvn c ≤ 122) ∨ (65 ≤ cvn c ∧ cvn c ≤ 90) := by
  simp only [lexIsLetter, Bool.or_eq_true, Bool.and_eq_true, decide_eq_true_eq,
    Char.le_def, UInt32.le_def, BitVec.le_def]
  exact Iff.rfl

/-- `isDigit` in code points. -/
theorem lexIsDigit_iff (c : Char) : lexIsDigit c = true ↔
    48 ≤ cvn c ∧ cvn c ≤ 57 := by
  simp only [lexIsDigit, Bool.and_eq_true, decide_eq_true_eq,
    Char.le_def, UInt32.le_def, BitVec.le_def]
  exact Iff.rfl

/-- The whitespace test in code points. -/
theorem condIsSpace_iff (c : Char) : condIsSpace c = true ↔
    cvn c = 32 ∨ cvn c = 9 ∨ cvn c = 10 ∨ cvn c = 13 ∨ cvn c = 11 ∨ cvn c = 12 := by
  have e1 : cvn ' ' = 32 := rfl
  have e2 : cvn (Char.ofNat 9) = 9 := rfl
  have e3 : cvn (Char.ofNat 10) = 10 := rfl
  have e4 : cvn (Char.ofNat 13) = 13 := rfl
  have e5 : cvn (Char.ofNat 11) = 11 := rfl
  have e6 : cvn (Char.ofNat 12) = 12 := rfl
  simp only [condIsSpace, Bool.or_eq_true, decide_eq_true_eq, char_eq_iff_vnat,
    e1, e2, e3, e4, e5, e6]
  tauto

/-- The identifier-character test in code points. -/
theorem condIdentChar_iff (c : Char) : condIdentChar c = true ↔
    ((97 ≤ cvn c ∧ cvn c ≤ 122) ∨ (65 ≤ cvn c ∧ cvn c ≤ 90)) ∨
    (48 ≤ cvn c ∧ cvn c ≤ 57) ∨ cvn c = 95 ∨ cvn c = 42 := by
  have e1 : cvn '_' = 95 := rfl
  have e2 : cvn '*' = 42 := rfl
  simp only [condIdentChar, Bool.or_eq_true, decide_eq_true_eq, char_eq_iff_vnat,
    e1, e2, lexIsLetter_iff, lexIsDigit_iff, or_assoc]

/-- An identifier-starting character is none of the earlier branch
classes of the condition tokenizer. -/
theorem identStart_facts (c : Char) (h : lexIsLetter c = true ∨ c = '_') :
    condIsSpace c = false ∧ ¬(c = '(') ∧ ¬(c = ')') ∧ lexIsDigit c = false ∧
    (lexIsLetter c || c = '_') = true := by
  have e1 : cvn '_' = 95 := rfl
  have e2 : cvn '(' = 40 := rfl
  have e3 : cvn ')' = 41 := rfl
  have hn : (97 ≤ cvn c ∧ cvn c ≤ 122) ∨ (65 ≤ cvn c ∧ cvn c ≤ 90) ∨ cvn c = 95 := by
    rcases h with h | h
    · rcases (lexIsLetter_iff c).mp h with h2 | h2
      · exact Or.inl h2
      · exact Or.inr (Or.inl h2)
    · rw [char_eq_iff_vnat, e1] at h
      exact Or.inr (Or.inr h)
  refine ⟨?_, ?_, ?_, ?_, ?_⟩
  · rw [Bool.eq_false_iff]
    intro hs
    rcases (condIsSpace_iff c).mp hs with h2|h2|h2|h2|h2|h2 <;> omega
  · rw [char_eq_iff_vnat, e2]; omega
  · rw [char_eq_iff_vnat, e3]; omega
  · rw [Bool.eq_false_iff]
    intro hd
    have := (lexIsDigit_iff c).mp hd
    omega
  · rcases h with h | h
    · simp [h]
    · simp [h]

/-- A digit is none of the earlier branch classes of the condition
tokenizer. -/
theorem digit_facts (c : Char) (h : lexIsDigit c = true) :
    condIsSpace c = false ∧ ¬(c = '(') ∧ ¬(c = ')') := by
  have e2 : cvn '(' = 40 := rfl
  have e3 : cvn ')' = 41 := rfl
  have hn := (lexIsDigit_iff c).mp h
  refine ⟨?_, ?_, ?_⟩
  · rw [Bool.eq_false_iff]
    intro hs
    rcases (condIsSpace_iff c).mp hs with h2|h2|h2|h2|h2|h2 <;> omega
  · rw [char_eq_iff_vnat, e2]; omega
  · rw [char_eq_iff_vnat, e3]; omega

/-- A whitespace or parenthesis character stops identifier and digit
runs. -/
theorem delim_facts (c : Char) (h : condIsSpace c = true ∨ c = '(' ∨ c = ')') :
    condIdentChar c = false ∧ lexIsDigit c = false := by
  have e2 : cvn '(' = 40 := rfl
  have e3 : cvn ')' = 41 := rfl
  have hn : cvn c = 32 ∨ cvn c = 9 ∨ cvn c = 10 ∨ cvn c = 13 ∨ cvn c = 11 ∨
      cvn c = 12 ∨ cvn c = 40 ∨ cvn c = 41 := by
    rcases h with h | h | h
    · rcases (condIsSpace_iff c).mp h with h2|h2|h2|h2|h2|h2 <;> omega
    · rw [char_eq_iff_vnat, e2] at h; omega
    · rw [char_eq_iff_vnat, e3] at h; omega
  constructor
  · rw [Bool.eq_false_iff]
    intro hi
    rcases (condIdentChar_iff c).mp hi with (h2 | h2) | h2 | h2 | h2 <;> omega
  · rw [Bool.eq_false_iff]
    intro hd
    have := (lexIsDigit_iff c).mp hd
    omega

end SigmaGo

namespace SigmaGo

/-- `lexReadWhile` splits its input: the taken prefix plus the
remainder reassemble the list, and every taken character satisfies the
predicate. -/
theorem lexReadWhile_split (p : Char → Bool) :
    ∀ l a b, lexReadWhile p l = (a, b) → l = a ++ b ∧ ∀ c ∈ a, p c = true := by
  intro l
  induction l with
  | nil =>
    intro a b h
    simp [lexReadWhile] at h
    obtain ⟨ha, hb⟩ := h
    subst ha; subst hb
    exact ⟨rfl, by intro c hc; cases hc⟩
  | cons c rest ih =>
    intro a b h
    simp only [lexReadWhile] at h
    split at h
    · cases hr : lexReadWhile p rest with
      | mk taken rem =>
        rw [hr] at h
        simp only [Prod.mk.injEq] at h
        obtain ⟨ha, hb⟩ := h
        subst ha; subst hb
        obtain ⟨hsplit, hall⟩ := ih taken rem hr
        refine ⟨by rw [List.cons_append, ← hsplit], ?_⟩
        intro x hx
        rcases List.mem_cons.mp hx with he | hm
        · subst he; assumption
        · exact hall x hm
    · simp only [Prod.mk.injEq] at h
      obtain ⟨ha, hb⟩ := h
      subst ha; subst hb
      exact ⟨rfl, by intro x hx; cases hx⟩

/-- `lexReadWhile` consumed maximally: the remainder is empty or
starts with a failing character. -/
theorem lexReadWhile_stop (p : Char → Bool) :
    ∀ l a b, lexReadWhile p l = (a, b) →
      b = [] ∨ ∃ c cs, b = c :: cs ∧ p c = false := by
  intro l
  induction l with
  | nil =>
    intro a b h
    simp [lexReadWhile] at h
    exact Or.inl h.2
  | cons c rest ih =>
    intro a b h
    simp only [lexReadWhile] at h
    split at h
    · cases hr : lexReadWhile p rest with
      | mk taken rem =>
        rw [hr] at h
        simp only [Prod.mk.injEq] at h
        obtain ⟨-, hb⟩ := h
        subst hb
        exact ih taken rem hr
    · simp only [Prod.mk.injEq] at h
      obtain ⟨-, hb⟩ := h
      subst hb
      rename_i hc
      exact Or.inr ⟨c, rest, rfl, Bool.eq_false_iff.mpr hc⟩

/-- `lexReadWhile` takes a fully satisfying prefix and stops at a
delimiter head (or the end). -/
theorem lexReadWhile_all_delim (p : Char → Bool) :
    ∀ u v, (∀ c ∈ u, p c = true) →
      (v = [] ∨ ∃ c cs, v = c :: cs ∧ p c = false) →
      lexReadWhile p (u ++ v) = (u, v) := by
  intro u
  induction u with
  | nil =>
    intro v _ hv
    rcases hv with hv | ⟨c, cs, hv, hc⟩
    · subst hv; rfl
    · subst hv
      simp [lexReadWhile, hc]
  | cons c rest ih =>
    intro v hu hv
    have hc : p c = true := hu c (List.mem_cons_self c rest)
    have h2 := ih v (fun x hx => hu x (List.mem_cons_of_mem c hx)) hv
    have h2' : lexReadWhile p (rest.append v) = (rest, v) := h2
    simp only [List.cons_append, lexReadWhile, hc, if_true, h2, h2']

/-- The big-endian digit fold inverts `Nat.digits`. -/
theorem natOfDigits_ofDigits :
    ∀ L : List Nat, (∀ d ∈ L, d < 10) →
      natOfDigits (L.reverse.map (fun d => Char.ofNat (48 + d))) =
        Nat.ofDigits 10 L := by
  have hchar : ∀ d, d < 10 → (Char.ofNat (48 + d)).toNat = 48 + d := by decide
  intro L
  induction L with
  | nil => intro _; simp [natOfDigits, Nat.ofDigits]
  | cons d L ih =>
    intro hL
    have hd : d < 10 := hL d (List.mem_cons_self d L)
    simp only [List.reverse_cons, List.map_append, List.map_cons, List.map_nil,
      natOfDigits, List.foldl_append, List.foldl_cons, List.foldl_nil]
    rw [show (List.foldl (fun acc c => acc * 10 + (c.toNat - 48)) 0
      (L.reverse.map (fun d => Char.ofNat (48 + d)))) = Nat.ofDigits 10 L from
      ih (fun x hx => hL x (List.mem_cons_of_mem d hx))]
    rw [Nat.ofDigits_cons]
    rw [hchar d hd]
    omega

/-- Decimal printing and the tokenizer's digit fold round-trip. -/
theorem natOfDigits_decimalChars (n : Nat) :
    natOfDigits (decimalChars n) = n := by
  by_cases h : n = 0
  · subst h; rfl
  · rw [decimalChars, if_neg h]
    rw [natOfDigits_ofDigits (Nat.digits 10 n)
      (fun d hd => Nat.digits_lt_base (by omega) hd)]
    exact Nat.ofDigits_digits 10 n

/-- Every character of a decimal rendering is a digit. -/
theorem decimalChars_digits (n : Nat) :
    ∀ c ∈ decimalChars n, lexIsDigit c = true := by
  have hchar : ∀ d, d < 10 → lexIsDigit (Char.ofNat (48 + d)) = true := by decide
  intro c hc
  by_cases h : n = 0
  · subst h
    rw [show decimalChars 0 = ['0'] from rfl] at hc
    simp only [List.mem_singleton] at hc
    subst hc; decide
  · rw [decimalChars, if_neg h] at hc
    obtain ⟨d, hd, he⟩ := List.mem_map.mp hc
    subst he
    exact hchar d (Nat.digits_lt_base (by omega) (List.mem_reverse.mp hd))

/-- A decimal rendering is never empty. -/
theorem decimalChars_ne_nil (n : Nat) : decimalChars n ≠ [] := by
  by_cases h : n = 0
  · subst h; simp [decimalChars]
  · rw [decimalChars, if_neg h]
    simp only [ne_eq, List.map_eq_nil, List.reverse_eq_nil_iff]
    exact Nat.digits_ne_nil_iff_ne_zero.mpr h

end SigmaGo

namespace SigmaGo

/-- The tokenizer's character loop is fuel-irrelevant once the fuel
exceeds the input length: every step consumes at least one
character. -/
theorem tokenizeFuel_irrel : ∀ n (cs : List Char), cs.length ≤ n →
    ∀ f g, cs.length < f → cs.length < g →
    tokenizeFuel f cs = tokenizeFuel g cs := by
  intro n
  induction n with
  | zero =>
    intro cs hcs f g hf hg
    have hnil : cs = [] := List.length_eq_zero.mp (Nat.le_zero.mp hcs)
    subst hnil
    obtain ⟨f2, rfl⟩ : ∃ k, f = k + 1 := ⟨f - 1, by omega⟩
    obtain ⟨g2, rfl⟩ : ∃ k, g = k + 1 := ⟨g - 1, by omega⟩
    rfl
  | succ n ih =>
    intro cs hcs f g hf hg
    cases cs with
    | nil =>
      obtain ⟨f2, rfl⟩ : ∃ k, f = k + 1 := ⟨f - 1, by omega⟩
      obtain ⟨g2, rfl⟩ : ∃ k, g = k + 1 := ⟨g - 1, by omega⟩
      rfl
    | cons c rest =>
      obtain ⟨f2, rfl⟩ : ∃ k, f = k + 1 := ⟨f - 1, by omega⟩
      obtain ⟨g2, rfl⟩ : ∃ k, g = k + 1 := ⟨g - 1, by omega⟩
      simp only [List.length_cons] at hcs hf hg
      have hlen : rest.length ≤ n := by omega
      have hrf : rest.length < f2 := by omega
      have hrg : rest.length < g2 := by omega
      simp only [tokenizeFuel]
      by_cases h1 : condIsSpace c = true
      · simp only [if_pos h1]
        exact ih rest hlen f2 g2 hrf hrg
      · simp only [if_neg h1]
        by_cases h2 : c = '('
        · simp only [if_pos h2, ih rest hlen f2 g2 hrf hrg]
        · simp only [if_neg h2]
          by_cases h3 : c = ')'
          · simp only [if_pos h3, ih rest hlen f2 g2 hrf hrg]
          · simp only [if_neg h3]
            by_cases h4 : lexIsDigit c = true
            · simp only [if_pos h4]
              have hsp := (lexReadWhile_split lexIsDigit rest _ _ rfl).1
              have hb : (lexReadWhile lexIsDigit rest).2.length ≤ rest.length := by
                conv_rhs => rw [hsp]
                rw [List.length_append]; omega
              rw [ih (lexReadWhile lexIsDigit rest).2 (by omega) f2 g2
                (by omega) (by omega)]
            · simp only [if_neg h4]
              by_cases h5 : (lexIsLetter c || c = '_') = true
              · simp only [if_pos h5]
                have hsp := (lexReadWhile_split condIdentChar rest _ _ rfl).1
                have hb : (lexReadWhile condIdentChar rest).2.length ≤ rest.length := by
                  conv_rhs => rw [hsp]
                  rw [List.length_append]; omega
                rw [ih (lexReadWhile condIdentChar rest).2 (by omega) f2 g2
                  (by omega) (by omega)]
              · simp only [if_neg h5]

end SigmaGo

namespace SigmaGo

/-- One whitespace step of the condition tokenizer. -/
theorem tokenizeChars_space (c : Char) (cs : List Char) (h : condIsSpace c = true) :
    tokenizeChars (c :: cs) = tokenizeChars cs := by
  simp only [tokenizeChars, List.length_cons, tokenizeFuel, if_pos h]

/-- One left-parenthesis step of the condition tokenizer. -/
theorem tokenizeChars_lparen (cs : List Char) :
    tokenizeChars ('(' :: cs) =
      match tokenizeChars cs with
      | Except.error e => Except.error e
      | Except.ok ts => Except.ok ({ typ := Token2.tLeftParen } :: ts) := by
  simp only [tokenizeChars, List.length_cons, tokenizeFuel,
    if_neg (by decide : ¬ condIsSpace '(' = true), if_pos rfl, if_true]

/-- One right-parenthesis step of the condition tokenizer. -/
theorem tokenizeChars_rparen (cs : List Char) :
    tokenizeChars (')' :: cs) =
      match tokenizeChars cs with
      | Except.error e => Except.error e
      | Except.ok ts => Except.ok ({ typ := Token2.tRightParen } :: ts) := by
  simp only [tokenizeChars, List.length_cons, tokenizeFuel,
    if_neg (by decide : ¬ condIsSpace ')' = true),
    if_neg (by decide : ¬ ')' = '('), if_pos rfl, if_true]

/-- One digit-run step of the condition tokenizer. -/
theorem tokenizeChars_digitRun (c : Char) (cs : List Char) (h : lexIsDigit c = true) :
    tokenizeChars (c :: cs) =
      match tokenizeChars (lexReadWhile lexIsDigit cs).2 with
      | Except.error e => Except.error e
      | Except.ok ts =>
        if natOfDigits (c :: (lexReadWhile lexIsDigit cs).1) < 4294967296 then
          Except.ok ({ typ := Token2.tNumber, number := natOfDigits (c :: (lexReadWhile lexIsDigit cs).1) } :: ts)
        else Except.ok ts := by
  obtain ⟨h1, h2, h3⟩ := digit_facts c h
  have hsp := (lexReadWhile_split lexIsDigit cs _ _ rfl).1
  have hb : (lexReadWhile lexIsDigit cs).2.length ≤ cs.length := by
    conv_rhs => rw [hsp]
    rw [List.length_append]; omega
  simp only [tokenizeChars, List.length_cons, tokenizeFuel,
    if_neg (Bool.eq_false_iff.mp h1), if_neg h2, if_neg h3, if_pos h]
  rw [tokenizeFuel_irrel cs.length (lexReadWhile lexIsDigit cs).2 (by omega)
    (cs.length + 1) ((lexReadWhile lexIsDigit cs).2.length + 1) (by omega) (by omega)]

/-- One identifier-run step of the condition tokenizer. -/
theorem tokenizeChars_identRun (c : Char) (cs : List Char)
    (h : lexIsLetter c = true ∨ c = '_') :
    tokenizeChars (c :: cs) =
      match tokenizeChars (lexReadWhile condIdentChar cs).2 with
      | Except.error e => Except.error e
      | Except.ok ts =>
        Except.ok (classifyCondIdent (c :: (lexReadWhile condIdentChar cs).1) :: ts) := by
  obtain ⟨h1, h2, h3, h4, h5⟩ := identStart_facts c h
  have hsp := (lexReadWhile_split condIdentChar cs _ _ rfl).1
  have hb : (lexReadWhile condIdentChar cs).2.length ≤ cs.length := by
    conv_rhs => rw [hsp]
    rw [List.length_append]; omega
  simp only [tokenizeChars, List.length_cons, tokenizeFuel,
    if_neg (Bool.eq_false_iff.mp h1), if_neg h2, if_neg h3,
    if_neg (Bool.eq_false_iff.mp h4), if_pos h5]
  rw [tokenizeFuel_irrel cs.length (lexReadWhile condIdentChar cs).2 (by omega)
    (cs.length + 1) ((lexReadWhile condIdentChar cs).2.length + 1) (by omega) (by omega)]

end SigmaGo

namespace SigmaGo

/-- Tokenizing a concatenation whose second part starts with a
delimiter concatenates the token lists. -/
theorem tokenizeChars_append : ∀ n (xs : List Char), xs.length ≤ n →
    ∀ ys ts1 ts2, delimHead ys →
    tokenizeChars xs = Except.ok ts1 → tokenizeChars ys = Except.ok ts2 →
    tokenizeChars (xs ++ ys) = Except.ok (ts1 ++ ts2) := by
  intro n
  induction n with
  | zero =>
    intro xs hxs ys ts1 ts2 hd h1 h2
    have hnil : xs = [] := List.length_eq_zero.mp (Nat.le_zero.mp hxs)
    subst hnil
    rw [show tokenizeChars ([] : List Char) = Except.ok [] from rfl] at h1
    simp only [Except.ok.injEq] at h1
    subst h1
    simpa using h2
  | succ n ih =>
    intro xs hxs ys ts1 ts2 hd h1 h2
    cases xs with
    | nil =>
      rw [show tokenizeChars ([] : List Char) = Except.ok [] from rfl] at h1
      simp only [Except.ok.injEq] at h1
      subst h1
      simpa using h2
    | cons c rest =>
      simp only [List.length_cons] at hxs
      rw [List.cons_append]
      by_cases h1c : condIsSpace c = true
      · rw [tokenizeChars_space c _ h1c]
        rw [tokenizeChars_space c rest h1c] at h1
        exact ih rest (by omega) ys ts1 ts2 hd h1 h2
      · by_cases h2c : c = '('
        · subst h2c
          rw [tokenizeChars_lparen] at h1
          rw [tokenizeChars_lparen]
          cases hr : tokenizeChars rest with
          | error e => rw [hr] at h1; cases h1
          | ok tsr =>
            rw [hr] at h1
            simp only [Except.ok.injEq] at h1
            subst h1
            rw [ih rest (by omega) ys tsr ts2 hd hr h2]
            rfl
        · by_cases h3c : c = ')'
          · subst h3c
            rw [tokenizeChars_rparen] at h1
            rw [tokenizeChars_rparen]
            cases hr : tokenizeChars rest with
            | error e => rw [hr] at h1; cases h1
            | ok tsr =>
              rw [hr] at h1
              simp only [Except.ok.injEq] at h1
              subst h1
              rw [ih rest (by omega) ys tsr ts2 hd hr h2]
              rfl
          · by_cases h4c : lexIsDigit c = true
            · rw [tokenizeChars_digitRun c rest h4c] at h1
              rw [tokenizeChars_digitRun c (rest ++ ys) h4c]
              have hsplit := lexReadWhile_split lexIsDigit rest _ _ rfl
              have hstop := lexReadWhile_stop lexIsDigit rest _ _ rfl
              have hdeltail : (lexReadWhile lexIsDigit rest).2 ++ ys = [] ∨
                  ∃ d ds, (lexReadWhile lexIsDigit rest).2 ++ ys = d :: ds ∧
                    lexIsDigit d = false := by
                rcases hstop with hb | ⟨d, ds, hb, hdd⟩
                · rw [hb, List.nil_append]
                  rcases hd with hys | ⟨d, ds, hys, hcls⟩
                  · exact Or.inl hys
                  · exact Or.inr ⟨d, ds, hys, (delim_facts d hcls).2⟩
                · rw [hb]
                  exact Or.inr ⟨d, ds ++ ys, rfl, hdd⟩
              have hrw : lexReadWhile lexIsDigit (rest ++ ys) =
                  ((lexReadWhile lexIsDigit rest).1,
                   (lexReadWhile lexIsDigit rest).2 ++ ys) := by
                conv_lhs => rw [hsplit.1]
                rw [List.append_assoc]
                exact lexReadWhile_all_delim lexIsDigit _ _ hsplit.2 hdeltail
              rw [hrw]
              have hblen : (lexReadWhile lexIsDigit rest).2.length ≤ n := by
                have h6 : rest.length = (lexReadWhile lexIsDigit rest).1.length +
                    (lexReadWhile lexIsDigit rest).2.length := by
                  conv_lhs => rw [hsplit.1]
                  rw [List.length_append]
                omega
              cases hr : tokenizeChars (lexReadWhile lexIsDigit rest).2 with
              | error e => rw [hr] at h1; cases h1
              | ok tsb =>
                rw [hr] at h1
                simp only [] at h1
                rw [ih _ hblen ys tsb ts2 hd hr h2]
                simp only []
                by_cases hn : natOfDigits (c :: (lexReadWhile lexIsDigit rest).1) < 4294967296
                · rw [if_pos hn] at h1
                  rw [if_pos hn]
                  simp only [Except.ok.injEq] at h1
                  subst h1
                  rfl
                · rw [if_neg hn] at h1
                  rw [if_neg hn]
                  simp only [Except.ok.injEq] at h1
                  subst h1
                  rfl
            · by_cases h5c : (lexIsLetter c || c = '_') = true
              · have h5d : lexIsLetter c = true ∨ c = '_' := by simpa using h5c
                rw [tokenizeChars_identRun c rest h5d] at h1
                rw [tokenizeChars_identRun c (rest ++ ys) h5d]
                have hsplit := lexReadWhile_split condIdentChar rest _ _ rfl
                have hstop := lexReadWhile_stop condIdentChar rest _ _ rfl
                have hdeltail : (lexReadWhile condIdentChar rest).2 ++ ys = [] ∨
                    ∃ d ds, (lexReadWhile condIdentChar rest).2 ++ ys = d :: ds ∧
                      condIdentChar d = false := by
                  rcases hstop with hb | ⟨d, ds, hb, hdd⟩
                  · rw [hb, List.nil_append]
                    rcases hd with hys | ⟨d, ds, hys, hcls⟩
                    · exact Or.inl hys
                    · exact Or.inr ⟨d, ds, hys, (delim_facts d hcls).1⟩
                  · rw [hb]
                    exact Or.inr ⟨d, ds ++ ys, rfl, hdd⟩
                have hrw : lexReadWhile condIdentChar (rest ++ ys) =
                    ((lexReadWhile condIdentChar rest).1,
                     (lexReadWhile condIdentChar rest).2 ++ ys) := by
                  conv_lhs => rw [hsplit.1]
                  rw [List.append_assoc]
                  exact lexReadWhile_all_delim condIdentChar _ _ hsplit.2 hdeltail
                rw [hrw]
                have hblen : (lexReadWhile condIdentChar rest).2.length ≤ n := by
                  have h6 : rest.length = (lexReadWhile condIdentChar rest).1.length +
                      (lexReadWhile condIdentChar rest).2.length := by
                    conv_lhs => rw [hsplit.1]
                    rw [List.length_append]
                  omega
                cases hr : tokenizeChars (lexReadWhile condIdentChar rest).2 with
                | error e => rw [hr] at h1; cases h1
                | ok tsb =>
                  rw [hr] at h1
                  simp only [] at h1
                  rw [ih _ hblen ys tsb ts2 hd hr h2]
                  simp only []
                  simp only [Except.ok.injEq] at h1
                  subst h1
                  rfl
              · exfalso
                rw [show tokenizeChars (c :: rest) =
                    Except.error "unexpected character in condition" by
                  simp only [tokenizeChars, List.length_cons, tokenizeFuel,
                    if_neg h1c, if_neg h2c, if_neg h3c, if_neg h4c, if_neg h5c]] at h1
                cases h1

end SigmaGo

namespace SigmaGo

/-- A non-keyword, star-free identifier classifies as an identifier
token. -/
theorem classify_identifier (name : String) (hk : ¬ name.data ∈ condKeywords)
    (hstar : ¬ '*' ∈ name.data) :
    classifyCondIdent name.data = { typ := Token2.tIdentifier, value := name } := by
  have h1 : ¬ name.data = "and".data := fun hh => hk (by rw [hh]; decide)
  have h2 : ¬ name.data = "or".data := fun hh => hk (by rw [hh]; decide)
  have h3 : ¬ name.data = "not".data := fun hh => hk (by rw [hh]; decide)
  have h4 : ¬ name.data = "of".data := fun hh => hk (by rw [hh]; decide)
  have h5 : ¬ name.data = "them".data := fun hh => hk (by rw [hh]; decide)
  have h6 : ¬ name.data = "all".data := fun hh => hk (by rw [hh]; decide)
  have hc : name.data.contains '*' = false := by
    simp [List.contains]
    exact hstar
  simp only [classifyCondIdent, if_neg h1, if_neg h2, if_neg h3, if_neg h4,
    if_neg h5, if_neg h6, hc, Bool.false_eq_true, if_false]

/-- An identifier run containing a star classifies as a wildcard
token. -/
theorem classify_wildcard (p : String) (hstar : '*' ∈ p.data) :
    classifyCondIdent p.data = { typ := Token2.tWildcard, value := p } := by
  have h1 : ¬ p.data = "and".data := fun hh => by rw [hh] at hstar; exact absurd hstar (by decide)
  have h2 : ¬ p.data = "or".data := fun hh => by rw [hh] at hstar; exact absurd hstar (by decide)
  have h3 : ¬ p.data = "not".data := fun hh => by rw [hh] at hstar; exact absurd hstar (by decide)
  have h4 : ¬ p.data = "of".data := fun hh => by rw [hh] at hstar; exact absurd hstar (by decide)
  have h5 : ¬ p.data = "them".data := fun hh => by rw [hh] at hstar; exact absurd hstar (by decide)
  have h6 : ¬ p.data = "all".data := fun hh => by rw [hh] at hstar; exact absurd hstar (by decide)
  have hc : p.data.contains '*' = true := by
    simp [List.contains]
    exact hstar
  simp only [classifyCondIdent, if_neg h1, if_neg h2, if_neg h3, if_neg h4,
    if_neg h5, if_neg h6, hc, if_true]

/-- A standalone well-formed identifier run tokenizes to its single
classified token. -/
theorem tokenizeChars_goodIdent (v : String) (h : goodIdent v.data) :
    tokenizeChars v.data = Except.ok [classifyCondIdent v.data] := by
  obtain ⟨hstart, hall⟩ := h
  cases hd : v.data with
  | nil => rw [hd] at hstart; simp [startsIdent] at hstart
  | cons c cs =>
    rw [hd] at hstart hall
    simp only [startsIdent] at hstart
    rw [tokenizeChars_identRun c cs hstart]
    have hrw : lexReadWhile condIdentChar cs = (cs, []) := by
      have h2 := lexReadWhile_all_delim condIdentChar cs []
        (fun x hx => hall x (List.mem_cons_of_mem c hx)) (Or.inl rfl)
      simpa using h2
    rw [hrw]
    simp only []
    rw [show tokenizeChars ([] : List Char) = Except.ok [] from rfl]

/-- The printed form of every well-formed condition AST tokenizes back
to its canonical token list. -/
theorem tokenize_canon (m : List (String × List Nat)) :
    ∀ ast : ConditionAst, wfAst m ast →
      tokenizeChars (astString ast).data = Except.ok (canonTokens ast) := by
  intro ast
  induction ast with
  | identifier name =>
    intro hwf
    obtain ⟨hgi, hk, hstar, -⟩ := hwf
    rw [show (astString (ConditionAst.identifier name)) = name from rfl]
    rw [tokenizeChars_goodIdent name hgi, classify_identifier name hk hstar]
    rfl
  | andC l r ihl ihr =>
    intro hwf
    obtain ⟨hwl, hwr⟩ := hwf
    have hl := ihl hwl
    have hr := ihr hwr
    have hys : tokenizeChars (' ' :: 'a' :: 'n' :: 'd' :: ' ' ::
        ((astString r).data ++ [')'])) =
        Except.ok ({ typ := Token2.tAnd } ::
          (canonTokens r ++ [{ typ := Token2.tRightParen }])) := by
      rw [tokenizeChars_space _ _ (by decide)]
      rw [tokenizeChars_identRun 'a' _ (Or.inl (by decide))]
      rw [show lexReadWhile condIdentChar
          ('n' :: 'd' :: ' ' :: ((astString r).data ++ [')'])) =
          (['n', 'd'], ' ' :: ((astString r).data ++ [')'])) from rfl]
      simp only []
      rw [tokenizeChars_space _ _ (by decide)]
      rw [tokenizeChars_append (astString r).data.length (astString r).data le_rfl
        [')'] (canonTokens r) [{ typ := Token2.tRightParen }]
        (Or.inr ⟨')', [], rfl, Or.inr (Or.inr rfl)⟩) hr rfl]
      rfl
    have hfull : tokenizeChars ((astString l).data ++
        (' ' :: 'a' :: 'n' :: 'd' :: ' ' :: ((astString r).data ++ [')']))) =
        Except.ok (canonTokens l ++ ({ typ := Token2.tAnd } ::
          (canonTokens r ++ [{ typ := Token2.tRightParen }]))) :=
      tokenizeChars_append (astString l).data.length _ le_rfl _ _ _
        (Or.inr ⟨' ', _, rfl, Or.inl (by decide)⟩) hl hys
    have hdata : (astString (ConditionAst.andC l r)).data =
        '(' :: ((astString l).data ++
          (' ' :: 'a' :: 'n' :: 'd' :: ' ' :: ((astString r).data ++ [')']))) := by
      show ("(" ++ astString l ++ " and " ++ astString r ++ ")").data = _
      rw [String.data_append, String.data_append, String.data_append,
        String.data_append]
      rw [show ("(" : String).data = ['('] from rfl,
          show (" and " : String).data = [' ', 'a', 'n', 'd', ' '] from rfl,
          show ((")" : String)).data = [')'] from rfl]
      simp
    rw [hdata, tokenizeChars_lparen, hfull]
    simp only []
    simp [canonTokens]
  | orC l r ihl ihr =>
    intro hwf
    obtain ⟨hwl, hwr⟩ := hwf
    have hl := ihl hwl
    have hr := ihr hwr
    have hys : tokenizeChars (' ' :: 'o' :: 'r' :: ' ' ::
        ((astString r).data ++ [')'])) =
        Except.ok ({ typ := Token2.tOr } ::
          (canonTokens r ++ [{ typ := Token2.tRightParen }])) := by
      rw [tokenizeChars_space _ _ (by decide)]
      rw [tokenizeChars_identRun 'o' _ (Or.inl (by decide))]
      rw [show lexReadWhile condIdentChar
          ('r' :: ' ' :: ((astString r).data ++ [')'])) =
          (['r'], ' ' :: ((astString r).data ++ [')'])) from rfl]
      simp only []
      rw [tokenizeChars_space _ _ (by decide)]
      rw [tokenizeChars_append (astString r).data.length (astString r).data le_rfl
        [')'] (canonTokens r) [{ typ := Token2.tRightParen }]
        (Or.inr ⟨')', [], rfl, Or.inr (Or.inr rfl)⟩) hr rfl]
      rfl
    have hfull : tokenizeChars ((astString l).data ++
        (' ' :: 'o' :: 'r' :: ' ' :: ((astString r).data ++ [')']))) =
        Except.ok (canonTokens l ++ ({ typ := Token2.tOr } ::
          (canonTokens r ++ [{ typ := Token2.tRightParen }]))) :=
      tokenizeChars_append (astString l).data.length _ le_rfl _ _ _
        (Or.inr ⟨' ', _, rfl, Or.inl (by decide)⟩) hl hys
    have hdata : (astString (ConditionAst.orC l r)).data =
        '(' :: ((astString l).data ++
          (' ' :: 'o' :: 'r' :: ' ' :: ((astString r).data ++ [')']))) := by
      show ("(" ++ astString l ++ " or " ++ astString r ++ ")").data = _
      rw [String.data_append, String.data_append, String.data_append,
        String.data_append]
      rw [show ("(" : String).data = ['('] from rfl,
          show (" or " : String).data = [' ', 'o', 'r', ' '] from rfl,
          show ((")" : String)).data = [')'] from rfl]
      simp
    rw [hdata, tokenizeChars_lparen, hfull]
    simp only []
    simp [canonTokens]
  | notC x ihx =>
    intro hwf
    have hx := ihx hwf
    have hdata : (astString (ConditionAst.notC x)).data =
        'n' :: 'o' :: 't' :: ' ' :: (astString x).data := by
      show ("not " ++ astString x).data = _
      rw [String.data_append,
        show ("not " : String).data = ['n', 'o', 't', ' '] from rfl]
      rfl
    rw [hdata]
    rw [tokenizeChars_identRun 'n' _ (Or.inl (by decide))]
    rw [show lexReadWhile condIdentChar ('o' :: 't' :: ' ' :: (astString x).data) =
        (['o', 't'], ' ' :: (astString x).data) from rfl]
    simp only []
    rw [tokenizeChars_space _ _ (by decide), hx]
    simp only []
    rfl
  | oneOfThem =>
    intro _
    rfl
  | allOfThem =>
    intro _
    rfl
  | oneOfPattern p =>
    intro hwf
    exact absurd hwf (by simp [wfAst])
  | allOfPattern p =>
    intro hwf
    obtain ⟨hgi, hstar⟩ := hwf
    have hdata : (astString (ConditionAst.allOfPattern p)).data =
        'a' :: 'l' :: 'l' :: ' ' :: 'o' :: 'f' :: ' ' :: p.data := by
      show ("all of " ++ p).data = _
      rw [String.data_append,
        show ("all of " : String).data = ['a', 'l', 'l', ' ', 'o', 'f', ' '] from rfl]
      rfl
    rw [hdata]
    rw [tokenizeChars_identRun 'a' _ (Or.inl (by decide))]
    rw [show lexReadWhile condIdentChar
        ('l' :: 'l' :: ' ' :: 'o' :: 'f' :: ' ' :: p.data) =
        (['l', 'l'], ' ' :: 'o' :: 'f' :: ' ' :: p.data) from rfl]
    simp only []
    rw [tokenizeChars_space _ _ (by decide)]
    rw [tokenizeChars_identRun 'o' _ (Or.inl (by decide))]
    rw [show lexReadWhile condIdentChar ('f' :: ' ' :: p.data) =
        (['f'], ' ' :: p.data) from rfl]
    simp only []
    rw [tokenizeChars_space _ _ (by decide)]
    rw [tokenizeChars_goodIdent p hgi]
    simp only []
    rw [classify_wildcard p hstar]
    rfl
  | countOfPattern n p =>
    intro hwf
    obtain ⟨hgi, hstar, hlt⟩ := hwf
    have hdata : (astString (ConditionAst.countOfPattern n p)).data =
        decimalChars n ++ (' ' :: 'o' :: 'f' :: ' ' :: p.data) := by
      show ((String.mk (decimalChars n) ++ " of ") ++ p).data = _
      rw [String.data_append, String.data_append]
      rw [show (String.mk (decimalChars n)).data = decimalChars n from rfl,
          show (" of " : String).data = [' ', 'o', 'f', ' '] from rfl]
      simp
    cases hdc : decimalChars n with
    | nil => exact absurd hdc (decimalChars_ne_nil n)
    | cons d ds =>
      have hddig : lexIsDigit d = true :=
        decimalChars_digits n d (by rw [hdc]; exact List.mem_cons_self d ds)
      have hds : ∀ x ∈ ds, lexIsDigit x = true := fun x hx =>
        decimalChars_digits n x (by rw [hdc]; exact List.mem_cons_of_mem d hx)
      rw [hdata, hdc, List.cons_append]
      rw [tokenizeChars_digitRun d _ hddig]
      have hrw : lexReadWhile lexIsDigit
          (ds ++ (' ' :: 'o' :: 'f' :: ' ' :: p.data)) =
          (ds, ' ' :: 'o' :: 'f' :: ' ' :: p.data) :=
        lexReadWhile_all_delim _ _ _ hds (Or.inr ⟨' ', _, rfl, by decide⟩)
      rw [hrw]
      simp only []
      rw [tokenizeChars_space _ _ (by decide)]
      rw [tokenizeChars_identRun 'o' _ (Or.inl (by decide))]
      rw [show lexReadWhile condIdentChar ('f' :: ' ' :: p.data) =
          (['f'], ' ' :: p.data) from rfl]
      simp only []
      rw [tokenizeChars_space _ _ (by decide)]
      rw [tokenizeChars_goodIdent p hgi]
      simp only []
      have hnum : natOfDigits (d :: ds) = n := by
        rw [← hdc]
        exact natOfDigits_decimalChars n
      rw [hnum, if_pos hlt, classify_wildcard p hstar]
      rfl

end SigmaGo

namespace SigmaGo

/-- Classification of a well-formed identifier run yields a well-formed
token. -/
theorem classify_wf (c : Char) (a : List Char)
    (hstart : lexIsLetter c = true ∨ c = '_')
    (hall : ∀ x ∈ a, condIdentChar x = true) :
    tokenWf (classifyCondIdent (c :: a)) := by
  have hgi : goodIdent (c :: a) := by
    refine ⟨hstart, ?_⟩
    intro x hx
    rcases List.mem_cons.mp hx with he | hm
    · subst he
      rcases hstart with h | h
      · simp [condIdentChar, h]
      · subst h; decide
    · exact hall x hm
  unfold classifyCondIdent
  by_cases h1 : (c :: a) = "and".data
  · rw [if_pos h1]; exact ⟨rfl, rfl⟩
  · rw [if_neg h1]
    by_cases h2 : (c :: a) = "or".data
    · rw [if_pos h2]; exact ⟨rfl, rfl⟩
    · rw [if_neg h2]
      by_cases h3 : (c :: a) = "not".data
      · rw [if_pos h3]; exact ⟨rfl, rfl⟩
      · rw [if_neg h3]
        by_cases h4 : (c :: a) = "of".data
        · rw [if_pos h4]; exact ⟨rfl, rfl⟩
        · rw [if_neg h4]
          by_cases h5 : (c :: a) = "them".data
          · rw [if_pos h5]; exact ⟨rfl, rfl⟩
          · rw [if_neg h5]
            by_cases h6 : (c :: a) = "all".data
            · rw [if_pos h6]; exact ⟨rfl, rfl⟩
            · rw [if_neg h6]
              by_cases hc : (c :: a).contains '*' = true
              · rw [if_pos hc]
                have hstar : '*' ∈ c :: a := by
                  simp [List.contains] at hc
                  simpa using hc
                exact ⟨hgi, hstar, rfl⟩
              · rw [if_neg hc]
                have hstar : ¬ '*' ∈ c :: a := by
                  simp [List.contains] at hc
                  simpa using hc
                refine ⟨hgi, ?_, hstar, rfl⟩
                intro hm
                simp only [condKeywords, List.mem_cons, List.not_mem_nil,
                  or_false] at hm
                rcases hm with h|h|h|h|h|h <;> contradiction

/-- Every token the condition tokenizer emits is well-formed. -/
theorem tokenize_wf : ∀ n (cs : List Char), cs.length ≤ n → ∀ ts,
    tokenizeChars cs = Except.ok ts → ∀ t ∈ ts, tokenWf t := by
  intro n
  induction n with
  | zero =>
    intro cs hcs ts h t ht
    have hnil : cs = [] := List.length_eq_zero.mp (Nat.le_zero.mp hcs)
    subst hnil
    rw [show tokenizeChars ([] : List Char) = Except.ok [] from rfl] at h
    simp only [Except.ok.injEq] at h
    subst h
    cases ht
  | succ n ih =>
    intro cs hcs ts h t ht
    cases cs with
    | nil =>
      rw [show tokenizeChars ([] : List Char) = Except.ok [] from rfl] at h
      simp only [Except.ok.injEq] at h
      subst h
      cases ht
    | cons c rest =>
      simp only [List.length_cons] at hcs
      by_cases h1c : condIsSpace c = true
      · rw [tokenizeChars_space c rest h1c] at h
        exact ih rest (by omega) ts h t ht
      · by_cases h2c : c = '('
        · subst h2c
          rw [tokenizeChars_lparen] at h
          cases hr : tokenizeChars rest with
          | error e => rw [hr] at h; cases h
          | ok tsr =>
            rw [hr] at h
            simp only [Except.ok.injEq] at h
            subst h
            rcases List.mem_cons.mp ht with he | hm
            · subst he; exact ⟨rfl, rfl⟩
            · exact ih rest (by omega) tsr hr t hm
        · by_cases h3c : c = ')'
          · subst h3c
            rw [tokenizeChars_rparen] at h
            cases hr : tokenizeChars rest with
            | error e => rw [hr] at h; cases h
            | ok tsr =>
              rw [hr] at h
              simp only [Except.ok.injEq] at h
              subst h
              rcases List.mem_cons.mp ht with he | hm
              · subst he; exact ⟨rfl, rfl⟩
              · exact ih rest (by omega) tsr hr t hm
          · by_cases h4c : lexIsDigit c = true
            · rw [tokenizeChars_digitRun c rest h4c] at h
              have hsplit := lexReadWhile_split lexIsDigit rest _ _ rfl
              have hblen : (lexReadWhile lexIsDigit rest).2.length ≤ n := by
                have h6 : rest.length = (lexReadWhile lexIsDigit rest).1.length +
                    (lexReadWhile lexIsDigit rest).2.length := by
                  conv_lhs => rw [hsplit.1]
                  rw [List.length_append]
                omega
              cases hr : tokenizeChars (lexReadWhile lexIsDigit rest).2 with
              | error e => rw [hr] at h; cases h
              | ok tsb =>
                rw [hr] at h
                simp only [] at h
                by_cases hn : natOfDigits (c :: (lexReadWhile lexIsDigit rest).1) < 4294967296
                · rw [if_pos hn] at h
                  simp only [Except.ok.injEq] at h
                  subst h
                  rcases List.mem_cons.mp ht with he | hm
                  · subst he; exact ⟨rfl, hn⟩
                  · exact ih _ hblen tsb hr t hm
                · rw [if_neg hn] at h
                  simp only [Except.ok.injEq] at h
                  subst h
                  exact ih _ hblen tsb hr t ht
            · by_cases h5c : (lexIsLetter c || c = '_') = true
              · have h5d : lexIsLetter c = true ∨ c = '_' := by simpa using h5c
                rw [tokenizeChars_identRun c rest h5d] at h
                have hsplit := lexReadWhile_split condIdentChar rest _ _ rfl
                have hblen : (lexReadWhile condIdentChar rest).2.length ≤ n := by
                  have h6 : rest.length = (lexReadWhile condIdentChar rest).1.length +
                      (lexReadWhile condIdentChar rest).2.length := by
                    conv_lhs => rw [hsplit.1]
                    rw [List.length_append]
                  omega
                cases hr : tokenizeChars (lexReadWhile condIdentChar rest).2 with
                | error e => rw [hr] at h; cases h
                | ok tsb =>
                  rw [hr] at h
                  simp only [Except.ok.injEq] at h
                  subst h
                  rcases List.mem_cons.mp ht with he | hm
                  · subst he
                    exact classify_wf c _ h5d hsplit.2
                  · exact ih _ hblen tsb hr t hm
              · exfalso
                rw [show tokenizeChars (c :: rest) =
                    Except.error "unexpected character in condition" by
                  simp only [tokenizeChars, List.length_cons, tokenizeFuel,
                    if_neg h1c, if_neg h2c, if_neg h3c, if_neg h4c, if_neg h5c]] at h
                cases h

end SigmaGo

namespace SigmaGo

/-- Parsing well-formed tokens yields a well-formed AST, for every
function of the parser's mutual recursion at every fuel (the loop
variants additionally require a well-formed accumulator). -/
theorem condParse_wf (m : List (String × List Nat)) : ∀ fuel : Nat,
    (∀ ts a ts2, (∀ t ∈ ts, tokenWf t) →
      condParsePrimary m fuel ts = Except.ok (a, ts2) → wfAst m a) ∧
    (∀ ts a ts2, (∀ t ∈ ts, tokenWf t) →
      condParseNot m fuel ts = Except.ok (a, ts2) → wfAst m a) ∧
    (∀ left ts a ts2, wfAst m left → (∀ t ∈ ts, tokenWf t) →
      condParseAndLoop m fuel left ts = Except.ok (a, ts2) → wfAst m a) ∧
    (∀ ts a ts2, (∀ t ∈ ts, tokenWf t) →
      condParseAnd m fuel ts = Except.ok (a, ts2) → wfAst m a) ∧
    (∀ left ts a ts2, wfAst m left → (∀ t ∈ ts, tokenWf t) →
      condParseOrLoop m fuel left ts = Except.ok (a, ts2) → wfAst m a) ∧
    (∀ ts a ts2, (∀ t ∈ ts, tokenWf t) →
      condParseOr m fuel ts = Except.ok (a, ts2) → wfAst m a) := by
  intro fuel
  induction fuel with
  | zero =>
    refine ⟨?_, ?_, ?_, ?_, ?_, ?_⟩
    · intro ts a ts2 _ h; simp [condParsePrimary] at h
    · intro ts a ts2 _ h; simp [condParseNot] at h
    · intro left ts a ts2 _ _ h; simp [condParseAndLoop] at h
    · intro ts a ts2 _ h; simp [condParseAnd] at h
    · intro left ts a ts2 _ _ h; simp [condParseOrLoop] at h
    · intro ts a ts2 _ h; simp [condParseOr] at h
  | succ fuel ih =>
    obtain ⟨ihP, ihN, ihAL, ihA, ihOL, ihO⟩ := ih
    refine ⟨?_, ?_, ?_, ?_, ?_, ?_⟩
    · intro ts a ts2 hts h
      cases ts with
      | nil => simp [condParsePrimary] at h
      | cons token rest =>
        obtain ⟨tt, tv, tn⟩ := token
        simp only [condParsePrimary] at h
        split at h
        · cases ho : condParseOr m fuel rest with
          | error e => rw [ho] at h; cases h
          | ok pr =>
            obtain ⟨expr, rem⟩ := pr
            rw [ho] at h
            cases rem with
            | nil => simp at h
            | cons t ts3 =>
              obtain ⟨tt2, tv2, tn2⟩ := t
              cases tt2 <;> simp at h
              obtain ⟨ha, -⟩ := h
              subst ha
              exact ihO rest expr _ (fun t ht => hts t (List.mem_cons_of_mem _ ht)) ho
        · split at h
          · rename_i hkey
            simp only [Except.ok.injEq, Prod.mk.injEq] at h
            obtain ⟨ha, -⟩ := h
            subst ha
            have htok := hts _ (List.mem_cons_self _ _)
            exact ⟨htok.1, htok.2.1, htok.2.2.1, hkey⟩
          · cases h
        · cases rest with
          | nil => simp at h
          | cons t1 rest2 =>
            obtain ⟨t1t, t1v, t1n⟩ := t1
            cases t1t
            case tOf =>
              cases rest2 with
              | nil => simp at h
              | cons next rest3 =>
                obtain ⟨nt, nv, nn⟩ := next
                cases nt
                case tThem =>
                  simp only [] at h
                  split at h
                  · simp only [Except.ok.injEq, Prod.mk.injEq] at h
                    obtain ⟨ha, -⟩ := h
                    subst ha
                    trivial
                  · cases h
                case tWildcard =>
                  simp only [] at h
                  simp only [Except.ok.injEq, Prod.mk.injEq] at h
                  obtain ⟨ha, -⟩ := h
                  subst ha
                  have htok := hts _ (List.mem_cons_self _ _)
                  have hnext := hts _ (List.mem_cons_of_mem _
                    (List.mem_cons_of_mem _ (List.mem_cons_self _ _)))
                  exact ⟨hnext.1, hnext.2.1, htok.2⟩
                all_goals simp at h
            all_goals simp at h
        · cases rest with
          | nil => simp at h
          | cons t1 rest2 =>
            obtain ⟨t1t, t1v, t1n⟩ := t1
            cases t1t
            case tOf =>
              cases rest2 with
              | nil => simp at h
              | cons next rest3 =>
                obtain ⟨nt, nv, nn⟩ := next
                cases nt
                case tThem =>
                  simp only [] at h
                  simp only [Except.ok.injEq, Prod.mk.injEq] at h
                  obtain ⟨ha, -⟩ := h
                  subst ha
                  trivial
                case tWildcard =>
                  simp only [] at h
                  simp only [Except.ok.injEq, Prod.mk.injEq] at h
                  obtain ⟨ha, -⟩ := h
                  subst ha
                  have hnext := hts _ (List.mem_cons_of_mem _
                    (List.mem_cons_of_mem _ (List.mem_cons_self _ _)))
                  exact ⟨hnext.1, hnext.2.1⟩
                all_goals simp at h
            all_goals simp at h
        · cases h
    · intro ts a ts2 hts h
      simp only [condParseNot] at h
      split at h
      · rename_i v n rest
        cases hp : condParsePrimary m fuel rest with
        | error e => rw [hp] at h; cases h
        | ok pr =>
          obtain ⟨operand, ts3⟩ := pr
          rw [hp] at h
          simp only [Except.ok.injEq, Prod.mk.injEq] at h
          obtain ⟨ha, -⟩ := h
          subst ha
          exact ihP rest operand ts3 (fun t ht => hts t (List.mem_cons_of_mem _ ht)) hp
      · exact ihP ts a ts2 hts h
    · intro left ts a ts2 hleft hts h
      simp only [condParseAndLoop] at h
      split at h
      · rename_i v n rest
        cases hn : condParseNot m fuel rest with
        | error e => rw [hn] at h; cases h
        | ok pr =>
          obtain ⟨right, ts3⟩ := pr
          rw [hn] at h
          have hts3 : ∀ t ∈ ts3, tokenWf t := fun t ht =>
            hts t (List.mem_cons_of_mem _
              (((condParse_suffix m fuel).2.1 rest right ts3 hn).subset ht))
          have hwr := ihN rest right ts3
            (fun t ht => hts t (List.mem_cons_of_mem _ ht)) hn
          exact ihAL (ConditionAst.andC left right) ts3 a ts2 ⟨hleft, hwr⟩ hts3 h
      · simp only [Except.ok.injEq, Prod.mk.injEq] at h
        obtain ⟨ha, -⟩ := h
        subst ha
        exact hleft
    · intro ts a ts2 hts h
      simp only [condParseAnd] at h
      cases hn : condParseNot m fuel ts with
      | error e => rw [hn] at h; cases h
      | ok pr =>
        obtain ⟨left, ts3⟩ := pr
        rw [hn] at h
        have hts3 : ∀ t ∈ ts3, tokenWf t := fun t ht =>
          hts t (((condParse_suffix m fuel).2.1 ts left ts3 hn).subset ht)
        exact ihAL left ts3 a ts2 (ihN ts left ts3 hts hn) hts3 h
    · intro left ts a ts2 hleft hts h
      simp only [condParseOrLoop] at h
      split at h
      · rename_i v n rest
        cases hn : condParseAnd m fuel rest with
        | error e => rw [hn] at h; cases h
        | ok pr =>
          obtain ⟨right, ts3⟩ := pr
          rw [hn] at h
          have hts3 : ∀ t ∈ ts3, tokenWf t := fun t ht =>
            hts t (List.mem_cons_of_mem _
              (((condParse_suffix m fuel).2.2.2.1 rest right ts3 hn).subset ht))
          have hwr := ihA rest right ts3
            (fun t ht => hts t (List.mem_cons_of_mem _ ht)) hn
          exact ihOL (ConditionAst.orC left right) ts3 a ts2 ⟨hleft, hwr⟩ hts3 h
      · simp only [Except.ok.injEq, Prod.mk.injEq] at h
        obtain ⟨ha, -⟩ := h
        subst ha
        exact hleft
    · intro ts a ts2 hts h
      simp only [condParseOr] at h
      cases hn : condParseAnd m fuel ts with
      | error e => rw [hn] at h; cases h
      | ok pr =>
        obtain ⟨left, ts3⟩ := pr
        rw [hn] at h
        have hts3 : ∀ t ∈ ts3, tokenWf t := fun t ht =>
          hts t (((condParse_suffix m fuel).2.2.2.1 ts left ts3 hn).subset ht)
        exact ihOL left ts3 a ts2 (ihA ts left ts3 hts hn) hts3 h

end SigmaGo

namespace SigmaGo

/-- The canonical tokens of a well-formed AST without directly nested
NOTs re-parse to exactly that AST, leaving the following tokens
untouched, at the NOT level (and at the primary level when the top is
not a NOT), for every sufficiently large fuel. -/
theorem canon_parse (m : List (String × List Nat)) :
    ∀ ast : ConditionAst, wfAst m ast → noNotNot ast = true →
    ∀ (rest : List TokenValue) (f : Nat), 8 * astDepth ast + 8 ≤ f →
      condParseNot m f (canonTokens ast ++ rest) = Except.ok (ast, rest) ∧
      (isNotC ast = false →
        condParsePrimary m f (canonTokens ast ++ rest) = Except.ok (ast, rest)) := by
  intro ast
  induction ast with
  | identifier name =>
    intro hwf _ rest f hf
    obtain ⟨hgi, hkw, hstar, hkey⟩ := hwf
    have hP : ∀ g, 1 ≤ g → condParsePrimary m g
        (canonTokens (ConditionAst.identifier name) ++ rest) =
        Except.ok (ConditionAst.identifier name, rest) := by
      intro g hg
      obtain ⟨g1, rfl⟩ : ∃ k, g = k + 1 := ⟨g - 1, by omega⟩
      simp only [canonTokens, List.singleton_append, condParsePrimary]
      rw [if_pos hkey]
    refine ⟨?_, fun _ => hP f (by omega)⟩
    obtain ⟨f1, rfl⟩ : ∃ k, f = k + 1 := ⟨f - 1, by omega⟩
    simp only [canonTokens, List.singleton_append, condParseNot]
    exact hP f1 (by omega)
  | andC l r ihl ihr =>
    intro hwf hnn rest f hf
    obtain ⟨hwl, hwr⟩ := hwf
    simp only [noNotNot, Bool.and_eq_true] at hnn
    have hPl := ihl hwl hnn.1
    have hPr := ihr hwr hnn.2
    simp only [astDepth] at hf
    have hP : ∀ g, 8 * (max (astDepth l) (astDepth r) + 1) + 7 ≤ g →
        condParsePrimary m g (canonTokens (ConditionAst.andC l r) ++ rest) =
        Except.ok (ConditionAst.andC l r, rest) := by
      intro g hg
      obtain ⟨g1, rfl⟩ : ∃ k, g = k + 1 := ⟨g - 1, by omega⟩
      simp only [canonTokens, condParsePrimary, List.cons_append,
        List.append_assoc, List.singleton_append, List.nil_append]
      have hOr : condParseOr m g1 (canonTokens l ++ ({ typ := Token2.tAnd } ::
          (canonTokens r ++ ({ typ := Token2.tRightParen } :: rest)))) =
          Except.ok (ConditionAst.andC l r, { typ := Token2.tRightParen } :: rest) := by
        obtain ⟨g2, rfl⟩ : ∃ k, g1 = k + 1 := ⟨g1 - 1, by omega⟩
        simp only [condParseOr]
        have hAnd : condParseAnd m g2 (canonTokens l ++ ({ typ := Token2.tAnd } ::
            (canonTokens r ++ ({ typ := Token2.tRightParen } :: rest)))) =
            Except.ok (ConditionAst.andC l r, { typ := Token2.tRightParen } :: rest) := by
          obtain ⟨g3, rfl⟩ : ∃ k, g2 = k + 1 := ⟨g2 - 1, by omega⟩
          simp only [condParseAnd]
          rw [(hPl ({ typ := Token2.tAnd } :: (canonTokens r ++
            ({ typ := Token2.tRightParen } :: rest))) g3 (by omega)).1]
          obtain ⟨g4, rfl⟩ : ∃ k, g3 = k + 1 := ⟨g3 - 1, by omega⟩
          simp only [condParseAndLoop]
          rw [(hPr ({ typ := Token2.tRightParen } :: rest) g4 (by omega)).1]
          obtain ⟨g5, rfl⟩ : ∃ k, g4 = k + 1 := ⟨g4 - 1, by omega⟩
          simp only [condParseAndLoop]
        rw [hAnd]
        obtain ⟨g6, rfl⟩ : ∃ k, g2 = k + 1 := ⟨g2 - 1, by omega⟩
        simp only [condParseOrLoop]
      rw [hOr]
    refine ⟨?_, fun _ => hP f (by omega)⟩
    obtain ⟨f1, rfl⟩ : ∃ k, f = k + 1 := ⟨f - 1, by omega⟩
    simp only [canonTokens, List.cons_append, condParseNot]
    exact hP f1 (by omega)
  | orC l r ihl ihr =>
    intro hwf hnn rest f hf
    obtain ⟨hwl, hwr⟩ := hwf
    simp only [noNotNot, Bool.and_eq_true] at hnn
    have hPl := ihl hwl hnn.1
    have hPr := ihr hwr hnn.2
    simp only [astDepth] at hf
    have hP : ∀ g, 8 * (max (astDepth l) (astDepth r) + 1) + 7 ≤ g →
        condParsePrimary m g (canonTokens (ConditionAst.orC l r) ++ rest) =
        Except.ok (ConditionAst.orC l r, rest) := by
      intro g hg
      obtain ⟨g1, rfl⟩ : ∃ k, g = k + 1 := ⟨g - 1, by omega⟩
      simp only [canonTokens, condParsePrimary, List.cons_append,
        List.append_assoc, List.singleton_append, List.nil_append]
      have hOr : condParseOr m g1 (canonTokens l ++ ({ typ := Token2.tOr } ::
          (canonTokens r ++ ({ typ := Token2.tRightParen } :: rest)))) =
          Except.ok (ConditionAst.orC l r, { typ := Token2.tRightParen } :: rest) := by
        obtain ⟨g2, rfl⟩ : ∃ k, g1 = k + 1 := ⟨g1 - 1, by omega⟩
        simp only [condParseOr]
        have hAnd : condParseAnd m g2 (canonTokens l ++ ({ typ := Token2.tOr } ::
            (canonTokens r ++ ({ typ := Token2.tRightParen } :: rest)))) =
            Except.ok (l, { typ := Token2.tOr } ::
              (canonTokens r ++ ({ typ := Token2.tRightParen } :: rest))) := by
          obtain ⟨g3, rfl⟩ : ∃ k, g2 = k + 1 := ⟨g2 - 1, by omega⟩
          simp only [condParseAnd]
          rw [(hPl ({ typ := Token2.tOr } :: (canonTokens r ++
            ({ typ := Token2.tRightParen } :: rest))) g3 (by omega)).1]
          obtain ⟨g4, rfl⟩ : ∃ k, g3 = k + 1 := ⟨g3 - 1, by omega⟩
          simp only [condParseAndLoop]
        rw [hAnd]
        obtain ⟨g6, rfl⟩ : ∃ k, g2 = k + 1 := ⟨g2 - 1, by omega⟩
        simp only [condParseOrLoop]
        have hAnd2 : condParseAnd m g6 (canonTokens r ++
            ({ typ := Token2.tRightParen } :: rest)) =
            Except.ok (r, { typ := Token2.tRightParen } :: rest) := by
          obtain ⟨g7, rfl⟩ : ∃ k, g6 = k + 1 := ⟨g6 - 1, by omega⟩
          simp only [condParseAnd]
          rw [(hPr ({ typ := Token2.tRightParen } :: rest) g7 (by omega)).1]
          obtain ⟨g8, rfl⟩ : ∃ k, g7 = k + 1 := ⟨g7 - 1, by omega⟩
          simp only [condParseAndLoop]
        rw [hAnd2]
        obtain ⟨g9, rfl⟩ : ∃ k, g6 = k + 1 := ⟨g6 - 1, by omega⟩
        simp only [condParseOrLoop]
      rw [hOr]
    refine ⟨?_, fun _ => hP f (by omega)⟩
    obtain ⟨f1, rfl⟩ : ∃ k, f = k + 1 := ⟨f - 1, by omega⟩
    simp only [canonTokens, List.cons_append, condParseNot]
    exact hP f1 (by omega)
  | notC x ihx =>
    intro hwf hnn rest f hf
    have hxn : isNotC x = false ∧ noNotNot x = true := by
      cases x <;> simp_all [noNotNot, isNotC]
    have hPx := ihx hwf hxn.2
    simp only [astDepth] at hf
    constructor
    · obtain ⟨f1, rfl⟩ : ∃ k, f = k + 1 := ⟨f - 1, by omega⟩
      simp only [canonTokens, List.cons_append, condParseNot]
      rw [(hPx rest f1 (by omega)).2 hxn.1]
    · intro hcon
      simp [isNotC] at hcon
  | oneOfThem =>
    intro _ _ rest f hf
    obtain ⟨f2, rfl⟩ : ∃ k, f = k + 2 := ⟨f - 2, by omega⟩
    exact ⟨rfl, fun _ => rfl⟩
  | allOfThem =>
    intro _ _ rest f hf
    obtain ⟨f2, rfl⟩ : ∃ k, f = k + 2 := ⟨f - 2, by omega⟩
    exact ⟨rfl, fun _ => rfl⟩
  | oneOfPattern p =>
    intro hwf _ rest f hf
    exact hwf.elim
  | allOfPattern p =>
    intro _ _ rest f hf
    obtain ⟨f2, rfl⟩ : ∃ k, f = k + 2 := ⟨f - 2, by omega⟩
    exact ⟨rfl, fun _ => rfl⟩
  | countOfPattern n p =>
    intro _ _ rest f hf
    obtain ⟨f2, rfl⟩ : ∃ k, f = k + 2 := ⟨f - 2, by omega⟩
    exact ⟨rfl, fun _ => rfl⟩

end SigmaGo

namespace SigmaGo

/-- Canonical token lists are never empty. -/
theorem canonTokens_ne_nil : ∀ ast : ConditionAst, canonTokens ast ≠ [] := by
  intro ast
  cases ast <;> simp [canonTokens]

/-- The depth of an AST never exceeds its canonical token count. -/
theorem astDepth_le_canonLen : ∀ ast : ConditionAst,
    astDepth ast ≤ (canonTokens ast).length := by
  intro ast
  induction ast with
  | identifier name => simp [astDepth, canonTokens]
  | andC l r ihl ihr =>
    simp only [astDepth, canonTokens, List.length_cons, List.length_append]
    omega
  | orC l r ihl ihr =>
    simp only [astDepth, canonTokens, List.length_cons, List.length_append]
    omega
  | notC x ihx =>
    simp only [astDepth, canonTokens, List.length_cons]
    omega
  | oneOfThem => simp [astDepth, canonTokens]
  | allOfThem => simp [astDepth, canonTokens]
  | oneOfPattern p => simp [astDepth, canonTokens]
  | allOfPattern p => simp [astDepth, canonTokens]
  | countOfPattern n p => simp [astDepth, canonTokens]

/-- The canonical tokens of a well-formed AST without directly nested
NOTs re-parse at the top (OR) level, consuming everything. -/
theorem canon_parse_or (m : List (String × List Nat)) (ast : ConditionAst)
    (hwf : wfAst m ast) (hnn : noNotNot ast = true) :
    ∀ f : Nat, 8 * astDepth ast + 16 ≤ f →
      condParseOr m f (canonTokens ast) = Except.ok (ast, []) := by
  intro f hf
  obtain ⟨f1, rfl⟩ : ∃ k, f = k + 1 := ⟨f - 1, by omega⟩
  simp only [condParseOr]
  have hAnd : condParseAnd m f1 (canonTokens ast) = Except.ok (ast, []) := by
    obtain ⟨f2, rfl⟩ : ∃ k, f1 = k + 1 := ⟨f1 - 1, by omega⟩
    simp only [condParseAnd]
    have h1 := (canon_parse m ast hwf hnn [] f2 (by omega)).1
    rw [List.append_nil] at h1
    rw [h1]
    obtain ⟨f3, rfl⟩ : ∃ k, f2 = k + 1 := ⟨f2 - 1, by omega⟩
    simp only [condParseAndLoop]
  rw [hAnd]
  obtain ⟨f4, rfl⟩ : ∃ k, f1 = k + 1 := ⟨f1 - 1, by omega⟩
  simp only [condParseOrLoop]

/-- C7 (amended): for every condition string that tokenizes and parses
successfully to an AST with no NOT directly nested inside another NOT,
tokenizing the printed form yields the canonical tokens and re-parsing
them returns an equal AST; the unrestricted claim is refuted by
`c7_roundtrip_fails_on_double_not`. -/
theorem c7_roundtrip_without_nested_not (s : String)
    (m : List (String × List Nat)) (ts : List TokenValue) (ast : ConditionAst)
    (h1 : TokenizeCondition s = Except.ok ts)
    (h2 : ParseTokens ts m = Except.ok ast)
    (h3 : noNotNot ast = true) :
    TokenizeCondition (astString ast) = Except.ok (canonTokens ast) ∧
    ParseTokens (canonTokens ast) m = Except.ok ast := by
  have htswf : ∀ t ∈ ts, tokenWf t :=
    tokenize_wf s.data.length s.data le_rfl ts h1
  have hwf : wfAst m ast := by
    rw [ParseTokens] at h2
    split at h2
    · cases h2
    · cases ho : condParseOr m (16 * ts.length + 16) ts with
      | error e => rw [ho] at h2; cases h2
      | ok pr =>
        obtain ⟨a, rem⟩ := pr
        rw [ho] at h2
        simp only [Except.ok.injEq] at h2
        subst h2
        exact (condParse_wf m (16 * ts.length + 16)).2.2.2.2.2 ts a rem htswf ho
  refine ⟨tokenize_canon m ast hwf, ?_⟩
  rw [ParseTokens]
  rw [if_neg (by simp [List.isEmpty_iff, canonTokens_ne_nil ast])]
  have hbound : 8 * astDepth ast + 16 ≤ 16 * (canonTokens ast).length + 16 := by
    have := astDepth_le_canonLen ast
    omega
  rw [canon_parse_or m ast hwf h3 (16 * (canonTokens ast).length + 16) hbound]

/-- Witness for C7: the condition not sel round-trips through
printing, retokenizing, and reparsing. -/
theorem c7_roundtrip_without_nested_not_witness :
    noNotNot (ConditionAst.notC (ConditionAst.identifier "sel")) = true ∧
    TokenizeCondition (astString (ConditionAst.notC (ConditionAst.identifier "sel"))) =
      Except.ok (canonTokens (ConditionAst.notC (ConditionAst.identifier "sel"))) ∧
    ParseTokens (canonTokens (ConditionAst.notC (ConditionAst.identifier "sel")))
      [("sel", [0])] =
      Except.ok (ConditionAst.notC (ConditionAst.identifier "sel")) := by
  have h := c7_roundtrip_without_nested_not "not sel" [("sel", [0])]
    [{ typ := Token2.tNot }, { typ := Token2.tIdentifier, value := "sel" }]
    (ConditionAst.notC (ConditionAst.identifier "sel")) rfl rfl rfl
  exact ⟨rfl, h.1, h.2⟩

end SigmaGo
